import Mathlib

/-!
# fibermodes: CUDA characteristic-equation kernel

A shallow embedding of `fibermodes/fiber/solver/cudasrc` (`chareq.c`, `besseldiff.c`,
`ivf.c`, `knf.c`, `hypergf.c`).

Conventions of the embedding.

* `float` values are elements of a linearly ordered field `α` (exact arithmetic: no
  rounding, no NaN, no infinities); `fabsf` is the absolute value, `floorf` the floor of
  a `FloorRing`.  Every definition is computable and runs on `ℚ`.  The initialisation
  loop of `_chareq` is embedded a second time over `F32`, which adds the infinities and
  NaN that an overflowing product brings (`initLayersF32`).
* Functions and constants of the CUDA/cephes runtime that the sources use but do not
  define (`sqrtf`, `logf`, `expf`, `tgammaf`, `lgammaf`, `MAXNUMF`, `MACHEPF`, `MAXLOGF`,
  `PIF`, `CUDART_INF_F`) are the fields of `Runtime`.  The Bessel evaluators that
  `besseldiff.c` and `chareq.c` call (`jnf`, `ynf`, `ivf`, `knf`) are the fields of
  `Bessel`, so that what is proved about those two files holds for every implementation
  of them; `ivf` and `knf` themselves are embedded from `ivf.c` and `knf.c`.
* Loops that the sources bound by a numerical test (`do ... while` in `knf`, the series
  of `hy1f1pf` and `hyp2f0f`) and the self-call of `hypergf` run on fuel and return `none`
  when it runs out; counted loops are total.
* An output parameter `float *err` is the field `err` of the result: `some e` when the
  function stored `e` through it, `none` when it returned without storing.
* `unsigned int` arithmetic wraps modulo `2^32` (`usub`); `int` arithmetic is taken in
  `ℤ` (signed overflow is undefined in C and lies outside the model).
* The shared array `ab` is a list of cells (`ld ab k` reads `ab[k]`).  A block of threads
  runs a barrier-delimited phase as a simultaneous update: every thread computes its
  writes from the memory as it was when the phase began, and the writes are then
  committed.  `phaseGroups` runs a phase group by group instead, each group seeing the
  writes of the groups before it.
-/

namespace Fibermodes

/-! ## Thread geometry and shared memory -/

/-- A CUDA `dim3`: the block dimensions `blockDim` or a thread index `threadIdx`. -/
structure Dim3 where
  x : Nat
  y : Nat
  z : Nat
deriving DecidableEq

/-- The worker group of the kernel: 5 columns, 4 rows, 2 field families. -/
def bd542 : Dim3 := ⟨5, 4, 2⟩

/-- `#define THREADIDX` / `#define IDX`: the shared cell owned by thread `tid`. -/
def IDX (bd tid : Dim3) : Nat := (bd.x * bd.y * tid.z) + (bd.x * tid.y) + tid.x

/-- `#define IJ(i, j)`: row `i`, column `j` of the matrix of the thread's family. -/
def IJ (bd tid : Dim3) (i j : Nat) : Nat := (bd.x * bd.y * tid.z) + (bd.x * i) + j

/-- `#define IZ(i)`: entry `i` of the family's half of the solution vector `x`. -/
def IZ (bd tid : Dim3) (i : Nat) : Nat := bd.y * tid.z + i

/-- All threads of a block, `threadIdx.x` running fastest. -/
def threads (bd : Dim3) : List Dim3 :=
  (List.range bd.z).flatMap fun z =>
    (List.range bd.y).flatMap fun y =>
      (List.range bd.x).map fun x => ⟨x, y, z⟩

/-- Read cell `k` of an array: `ab[k]` (0 past its end). -/
def ld {α : Type} [Zero α] (ab : List α) (k : Nat) : α := ab.getD k 0

/-- Commit a list of writes `(address, value)` to the shared array, in list order. -/
def commit {α : Type} (ws : List (Nat × α)) (ab : List α) : List α :=
  ws.foldl (fun m w => m.set w.1 w.2) ab

/-- The write list of a thread that stores to its own cell `ab[IDX]` only: `some a` is
the statement `ab[IDX] = a`, `none` a thread that stores nothing in the phase. -/
def own {α : Type} (bd tid : Dim3) (v : Option α) : List (Nat × α) :=
  match v with
  | some a => [(IDX bd tid, a)]
  | none => []

/-- One barrier-delimited phase: `code tid` lists the writes of thread `tid`, computed
from the memory at the start of the phase; all of them are then committed. -/
def phase {α : Type} (bd : Dim3) (code : Dim3 → List (Nat × α)) (ab : List α) : List α :=
  commit ((threads bd).flatMap code) ab

/-! ## `solve` (chareq.c, lines 27-87) -/

section Solve

variable {α : Type} [LinearOrderedField α]

/-- The state of `solve` between phases: the shared array and each thread's local
`pidx` (the only local that is read before it is assigned in a pass). -/
structure SolveState (α : Type) where
  ab : List α
  pidx : Dim3 → Nat

/-- Lines 37-43, run by a thread of row `i`: `temp = 0; for (j = i; j < blockDim.y; ++j)
if ((temp2 = fabs(ab[IJ(j,i)])) > temp) { temp = temp2; pidx = j; }`.  The argument
`pidx` is the value the local held before; it is returned when no entry exceeds 0. -/
def pivotScan (bd tid : Dim3) (ab : List α) (i pidx : Nat) : Nat :=
  ((List.range' i (bd.y - i)).foldl
    (fun (st : α × Nat) j =>
      if |ld ab (IJ bd tid j i)| > st.1 then (|ld ab (IJ bd tid j i)|, j) else st)
    ((0 : α), pidx)).2

/-- Lines 48-53: `if (threadIdx.y == i && pidx != i) { ridx = IJ(pidx, threadIdx.x);
temp = ab[IDX]; ab[IDX] = ab[ridx]; ab[ridx] = temp; }`. -/
def swapRows (bd : Dim3) (i : Nat) (pidx : Dim3 → Nat) (ab : List α) (tid : Dim3) :
    List (Nat × α) :=
  if tid.y = i ∧ pidx tid ≠ i then
    [(IDX bd tid, ld ab (IJ bd tid (pidx tid) tid.x)),
     (IJ bd tid (pidx tid) tid.x, ld ab (IDX bd tid))]
  else []

/-- Lines 55-68, with `ridx = IJ(i, threadIdx.x)`, `pidx = IJ(i,i)` and
`rpidx = IJ(threadIdx.y, i)`: rows other than `i` subtract
`ab[ridx] * ab[rpidx] / ab[pidx]` right of column `i` and are set to 0 in column `i`.
The result is the value the thread stores to `ab[IDX]`, if it stores one. -/
def rowOperations (bd : Dim3) (i : Nat) (ab : List α) (tid : Dim3) : Option α :=
  if tid.y ≠ i then
    if tid.x > i then
      some (ld ab (IDX bd tid)
        - ld ab (IJ bd tid i tid.x) * ld ab (IJ bd tid tid.y i) / ld ab (IJ bd tid i i))
    else if tid.x = i then some 0
    else none
  else none

/-- Lines 72-79: row `i` is divided by `ab[pidx]` right of column `i`, and its entry in
column `i` is set to 1.  The result is the value stored to `ab[IDX]`, if any. -/
def normalizeRow (bd : Dim3) (i : Nat) (ab : List α) (tid : Dim3) : Option α :=
  if tid.y = i then
    if tid.x > i then some (ld ab (IDX bd tid) / ld ab (IJ bd tid i i))
    else if tid.x = i then some 1
    else none
  else none

/-- One iteration of the loop of lines 34-80: pivot scan, barrier, row swap, barrier, row
operations, barrier, normalisation.  After the pass every thread holds
`pidx = IJ(i,i)` (line 56). -/
def solvePass (bd : Dim3) (i : Nat) (s : SolveState α) : SolveState α :=
  let pidx1 : Dim3 → Nat := fun tid =>
    if tid.y = i then pivotScan bd tid s.ab i (s.pidx tid) else s.pidx tid
  let ab1 := phase bd (fun tid => swapRows bd i pidx1 s.ab tid) s.ab
  let ab2 := phase bd (fun tid => own bd tid (rowOperations bd i ab1 tid)) ab1
  let ab3 := phase bd (fun tid => own bd tid (normalizeRow bd i ab2 tid)) ab2
  ⟨ab3, fun tid => IJ bd tid i i⟩

/-- The loop `for (i = 0; i < blockDim.y; ++i)` of `solve`. -/
def solvePasses (bd : Dim3) (s : SolveState α) : SolveState α :=
  (List.range bd.y).foldl (fun st i => solvePass bd i st) s

/-- Lines 84-86: `for (i = 0; i < 8; ++i)
x[i] = ab[(i / 4) * (blockDim.x * blockDim.y) + blockDim.y + (i % 4)]`. -/
def copyOut (bd : Dim3) (ab : List α) (x : Nat → α) : Nat → α :=
  fun i => if i < 8 then ld ab ((i / 4) * (bd.x * bd.y) + bd.y + (i % 4)) else x i

/-- What `solve` leaves behind: the thread-local vector `x` and the shared array. -/
structure SolveResult (α : Type) where
  x : Nat → α
  ab : List α

/-- The device function `solve(float *x)`.  `pidx0` is the uninitialised local `pidx` of
each thread and `x0` the caller's array before the call. -/
def solve (bd : Dim3) (pidx0 : Dim3 → Nat) (x0 : Nat → α) (ab : List α) : SolveResult α :=
  let s := solvePasses bd ⟨ab, pidx0⟩
  ⟨copyOut bd s.ab x0, s.ab⟩

end Solve

/-! ## Runtime functions and the Bessel evaluators -/

/-- The constants and functions of the CUDA/cephes runtime that the sources use without
defining them. -/
structure Runtime (α : Type) where
  MAXNUMF : α
  MACHEPF : α
  MAXLOGF : α
  PIF : α
  CUDART_INF_F : α
  sqrtf : α → α
  logf : α → α
  expf : α → α
  tgammaf : α → α
  lgammaf : α → α

/-- The four scalar Bessel evaluators that `besseldiff.c` and `chareq.c` call: `jnf` and
`ynf` come from outside the sources, `ivf` and `knf` are the functions of `ivf.c` and
`knf.c`, embedded below. -/
structure Bessel (α : Type) where
  jnf : Int → α → α
  ynf : Int → α → α
  ivf : α → α → α
  knf : Int → α → α

/-! ## `besseldiff.c` -/

section BesselDiff

variable {α : Type} [LinearOrderedField α]

/-- `jnp(int n, float z)`. -/
def jnp (B : Bessel α) (n : Int) (z : α) : α :=
  if 0 = n then -B.jnf 1 z
  else (B.jnf (n - 1) z - B.jnf (n + 1) z) / 2

/-- `ynp(int n, float z)`. -/
def ynp (B : Bessel α) (n : Int) (z : α) : α :=
  if 0 = n then -B.ynf 1 z
  else (B.ynf (n - 1) z - B.ynf (n + 1) z) / 2

/-- `ivp(int n, float z)`; the `int` orders are converted to `float` by the calls. -/
def ivp (B : Bessel α) (n : Int) (z : α) : α :=
  if 0 = n then B.ivf 1 z
  else (B.ivf ((n - 1 : Int) : α) z + B.ivf ((n + 1 : Int) : α) z) / 2

/-- `knp(int n, float z)`. -/
def knp (B : Bessel α) (n : Int) (z : α) : α :=
  if 0 = n then -B.knf 1 z
  else -(B.knf (n - 1) z + B.knf (n + 1) z) / 2

end BesselDiff

/-! ## `ivf.c` -/

section Ivf

variable {α : Type} [LinearOrderedField α] [FloorRing α]

/-- `floorf`. -/
def floorf (v : α) : α := ((⌊v⌋ : Int) : α)

/-- `ivf(float v, float x)`.  `hypergf` is the confluent hypergeometric evaluator of
`hypergf.c`, called once on the last line. -/
def ivf (R : Runtime α) (hypergf : α → α → α → α) (v x : α) : α :=
  /- If v is a negative integer, invoke symmetry -/
  let t := floorf v
  let vt : α × α := if v < 0 then (if t = v then (-v, -t) else (v, t)) else (v, t)
  let v := vt.1
  let t := vt.2
  /- If x is negative, require v to be an integer -/
  if x < 0 ∧ t ≠ v then 0
  else
    let sign : α := if x < 0 then (if v ≠ 2 * floorf (v / 2) then -1 else 1) else 1
    /- Avoid logarithm singularity -/
    if x = 0 then
      if v = 0 then 1
      else if v < 0 then R.MAXNUMF
      else 0
    else
      let ax := |x|
      let t := v * R.logf (0.5 * ax) - x
      let t := sign * R.expf t / R.tgammaf (v + 1)
      let ax := v + 0.5
      t * hypergf ax (2 * ax) (2 * x)

end Ivf

/-! ## `knf.c` -/

section Knf

variable {α : Type} [LinearOrderedField α]

/-- `#define EUL 5.772156649015328606065e-1`. -/
def EUL : α := 5.772156649015328606065e-1

/-- `#define MAXFAC 31`. -/
def MAXFAC : Int := 31

/-- Lines 48-55: `pn = -EUL; k = 1.0; for (i = 1; i < n; i++) { pn += 1.0/k; k += 1.0;
fn *= k; }`, returning `(pn, k, fn)`. -/
def knfFactorial (n : Int) : α × α × α :=
  (List.range' 1 (n.toNat - 1)).foldl
    (fun (st : α × α × α) _ =>
      let pn := st.1 + 1 / st.2.1
      let k := st.2.1 + 1
      (pn, k, st.2.2 * k))
    (-EUL, 1, 1)

/-- The locals of the loop of lines 70-82. -/
structure KnfPoly (α : Type) where
  nk1f : α
  kf : α
  zn : α
  s : α
  zmn : α

/-- One iteration of the loop of lines 70-82; `none` is `goto overf`. -/
def knfPolyStep (R : Runtime α) (n : Int) (z tox : α) (st : KnfPoly α) (i : Nat) :
    Option (KnfPoly α) :=
  let nk1f := st.nk1f / ((n - (i : Int) : Int) : α)
  let kf := st.kf * (i : α)
  let zn := st.zn * z
  let t := nk1f * zn / kf
  let s := st.s + t
  if (R.MAXNUMF - |t|) < |s| then none
  else if (tox > 1) ∧ ((R.MAXNUMF / tox) < st.zmn) then none
  else some ⟨nk1f, kf, zn, s, st.zmn * tox⟩

/-- Lines 65-89 (`n > 1`): the finite polynomial part, returning `(ans, zmn)`; `none` is
`goto overf`. -/
def knfPoly (R : Runtime α) (n : Int) (z0 tox fn : α) : Option (α × α) :=
  let st0 : KnfPoly α := ⟨fn / (n : α), 1, 1, fn / (n : α), tox⟩
  match (List.range' 1 (n.toNat - 1)).foldl
      (fun (st : Option (KnfPoly α)) i => st.bind fun a => knfPolyStep R n (-z0) tox a i)
      (some st0) with
  | none => none
  | some st =>
    let s := st.s * 0.5
    let t := |s|
    if (st.zmn > 1) ∧ ((R.MAXNUMF / st.zmn) < t) then none
    else if (t > 1) ∧ ((R.MAXNUMF / t) < st.zmn) then none
    else some (s * st.zmn, st.zmn)

/-- The locals of the `do ... while` loop of lines 108-116. -/
structure KnfLog (α : Type) where
  t : α
  pk : α
  pn : α
  s : α
  k : α

/-- The loop of lines 108-116: `do { t *= z0 / (k * (k+n)); pk += 1.0/k; pn += 1.0/(k+n);
s += (pk+pn-tlg)*t; k += 1.0; } while (fabsf(t/s) > MACHEPF)`; `none` when the fuel runs
out before the loop ends. -/
def knfLogLoop (R : Runtime α) (n : Int) (z0 tlg : α) : Nat → KnfLog α → Option (KnfLog α)
  | 0, _ => none
  | fuel + 1, st =>
    let t := st.t * (z0 / (st.k * (st.k + (n : α))))
    let pk := st.pk + 1 / st.k
    let pn := st.pn + 1 / (st.k + (n : α))
    let s := st.s + (pk + pn - tlg) * t
    let k := st.k + 1
    if |t / s| > R.MACHEPF then knfLogLoop R n z0 tlg fuel ⟨t, pk, pn, s, k⟩
    else some ⟨t, pk, pn, s, k⟩

/-- Lines 38-123, the series for `0 < x <= 9.55`. -/
def knfSeries (R : Runtime α) (fuel : Nat) (n : Int) (x : α) : Option α :=
  let z0 := 0.25 * x * x
  let tox := 2 / x
  /- compute factorial of n and psi(n) -/
  let pkf : α × α × α := if n > 0 then knfFactorial n else (0, 1, 1)
  let pn := pkf.1
  let fn := pkf.2.2
  let poly : Option (α × α) :=
    if n > 0 then (if n = 1 then some (1 / x, tox) else knfPoly R n z0 tox fn)
    else some (0, 1)
  match poly with
  | none => some R.MAXNUMF
  | some (ans, zmn) =>
    let tlg := 2 * R.logf (0.5 * x)
    let pk : α := -EUL
    let pn := if n = 0 then pk else pn + 1 / (n : α)
    let t : α := if n = 0 then 1 else 1 / fn
    let s := (pk + pn - tlg) * t
    match knfLogLoop R n z0 tlg fuel ⟨t, pk, pn, s, 1⟩ with
    | none => none
    | some st =>
      let s := 0.5 * st.s / zmn
      let s := if n % 2 = 1 then -s else s
      some (ans + s)

/-- The locals of the `do ... while` loop of lines 146-161. -/
structure KnfAsym (α : Type) where
  t : α
  s : α
  fn : α
  pk : α
  nkf : α
  i : Int

/-- The loop of lines 146-161 (asymptotic expansion), returning `s` at `adone`; `none`
when the fuel runs out before the loop ends. -/
def knfAsymLoop (R : Runtime α) (n : Int) (pn z0 : α) : Nat → KnfAsym α → Option α
  | 0, _ => none
  | fuel + 1, st =>
    let z := pn - st.pk * st.pk
    let t := st.t * z / (st.fn * z0)
    let nk1f := |t|
    if (st.i ≥ n) ∧ (nk1f > st.nkf) then some st.s
    else
      let s := st.s + t
      if |t / s| > R.MACHEPF then
        knfAsymLoop R n pn z0 fuel ⟨t, s, st.fn + 1, st.pk + 2, nk1f, st.i + 1⟩
      else some s

/-- Lines 130-165, the asymptotic expansion for `x > 9.55`. -/
def knfAsymp (R : Runtime α) (fuel : Nat) (n : Int) (x : α) : Option α :=
  if x > R.MAXLOGF then some 0
  else
    let k : α := (n : α)
    let pn := 4 * k * k
    match knfAsymLoop R n pn (8 * x) fuel ⟨1, 1, 1, 1, R.MAXNUMF, 0⟩ with
    | none => none
    | some s => some (R.expf (-x) * R.sqrtf (R.PIF / (2 * x)) * s)

/-- `knf(int nn, float x)`.  The two `do ... while` loops run on `fuel`; the result is
`none` when a loop has not ended within it. -/
def knf (R : Runtime α) (fuel : Nat) (nn : Int) (x : α) : Option α :=
  let n : Int := if nn < 0 then -nn else nn
  if n > MAXFAC then some R.MAXNUMF
  else if x ≤ 0 then some R.MAXNUMF
  else if x > 9.55 then knfAsymp R fuel n x
  else knfSeries R fuel n x

end Knf

/-! ## `_chareq` (chareq.c, lines 90-303) -/

section Chareq

variable {α : Type} [LinearOrderedField α]

/-- `#define ETA0 376.73031346177066f`. -/
def ETA0 : α := 376.73031346177066

/-- Subtraction of `unsigned int` values: modulo `2^32`. -/
def usub (a b : Nat) : Nat := (a + 2 ^ 32 - b % 2 ^ 32) % 2 ^ 32

/-- Conversion of an `unsigned int` argument to the `int` parameter of a callee. -/
def intOfUnsigned (nu : Nat) : Int := if nu < 2 ^ 31 then (nu : Int) else (nu : Int) - 2 ^ 32

/-- `#define J(nu, u, r, rho)`: `jnf(nu, u * r / rho) / jnf(nu, u)`. -/
def J (B : Bessel α) (nu : Nat) (u r rho : α) : α :=
  B.jnf (intOfUnsigned nu) (u * r / rho) / B.jnf (intOfUnsigned nu) u

/-- `#define Y(nu, u, r, rho)`. -/
def Y (B : Bessel α) (nu : Nat) (u r rho : α) : α :=
  B.ynf (intOfUnsigned nu) (u * r / rho) / B.ynf (intOfUnsigned nu) u

/-- `#define I(nu, u, r, rho)`; `ivf` takes the order as a `float`. -/
def I (B : Bessel α) (nu : Nat) (u r rho : α) : α :=
  B.ivf (nu : α) (u * r / rho) / B.ivf (nu : α) u

/-- `#define K(nu, u, r, rho)`. -/
def K (B : Bessel α) (nu : Nat) (u r rho : α) : α :=
  B.knf (intOfUnsigned nu) (u * r / rho) / B.knf (intOfUnsigned nu) u

/-- `#define JP(nu, u, r, rho)`: `jnp(nu, u * r / rho) / jnf(nu, u)`. -/
def JP (B : Bessel α) (nu : Nat) (u r rho : α) : α :=
  jnp B (intOfUnsigned nu) (u * r / rho) / B.jnf (intOfUnsigned nu) u

/-- `#define YP(nu, u, r, rho)`. -/
def YP (B : Bessel α) (nu : Nat) (u r rho : α) : α :=
  ynp B (intOfUnsigned nu) (u * r / rho) / B.ynf (intOfUnsigned nu) u

/-- `#define IP(nu, u, r, rho)`. -/
def IP (B : Bessel α) (nu : Nat) (u r rho : α) : α :=
  ivp B (intOfUnsigned nu) (u * r / rho) / B.ivf (nu : α) u

/-- `#define KP(nu, u, r, rho)`. -/
def KP (B : Bessel α) (nu : Nat) (u r rho : α) : α :=
  knp B (intOfUnsigned nu) (u * r / rho) / B.knf (intOfUnsigned nu) u

/-- The contents of storage that `_chareq` and `solve` read before writing it: the
arrays `w` and `u` as `malloc` returns them, the local array `x`, and the local `pidx` of
each thread in the call of `solve` for layer `i`. -/
structure Uninit (α : Type) where
  w : Nat → α
  u : Nat → α
  x : Nat → α
  pidx : Nat → Dim3 → Nat

/-- The loop of lines 101-112, from counter `i` on, over the arrays `w` and `u`; `none`
is the early `return CUDART_INF_F` of line 106. -/
def initLayers (R : Runtime α) (neff k0 : α) (r n : Nat → α) (N : Nat)
    (i : Nat) (w u : Nat → α) : Option ((Nat → α) × (Nat → α)) :=
  if i < N then
    let wi := R.sqrtf |n i * n i - neff * neff|
    if 0 = wi then none
    else
      let u1 := Function.update u i (k0 * r (if i + 1 = N then usub i 1 else i) * wi)
      let w1 := if neff > n i then Function.update w i (-wi) else Function.update w i wi
      initLayers R neff k0 r n N (i + 1) w1 u1
  else some (w, u)
termination_by N - i

/-- Lines 115-148, "First layer": the value thread `tid` stores to `ab[IDX]`, if any. -/
def firstLayer (B : Bessel α) (neff : α) (n w u : Nat → α) (nu : Nat) (tid : Dim3) :
    Option α :=
  if 4 = tid.x then
    match tid.y with
    | 0 => some (if tid.y = tid.z then 1 else 0)
    | 1 => some (if tid.y = tid.z then 1 else 0)
    | 2 =>
      if tid.z = 0 then some (neff * (nu : α) / (u 0 * w 0))
      else if neff < n 0 then some (-JP B nu (u 0) 1 1 * ETA0 / w 0)
      else some (-IP B nu (u 0) 1 1 * ETA0 / w 0)
    | 3 =>
      if tid.z = 0 then
        if neff < n 0 then some (JP B nu (u 0) 1 1 * n 0 * n 0 / (ETA0 * w 0))
        else some (IP B nu (u 0) 1 1 * n 0 * n 0 / (ETA0 * w 0))
      else some (-neff * (nu : α) / (u 0 * w 0))
    | _ => none
  else none

/-- Lines 153-234, "Fill matrix" for the intermediate layer `i`: the value thread `tid`
stores to `ab[IDX]`, if any. -/
def fillMatrix (B : Bessel α) (neff : α) (r n w u : Nat → α) (nu i : Nat) (tid : Dim3) :
    Option α :=
  let Jv := if neff < n i then J B nu (u i) (r (i - 1)) (r i) else I B nu (u i) (r (i - 1)) (r i)
  let Yv := if neff < n i then Y B nu (u i) (r (i - 1)) (r i) else K B nu (u i) (r (i - 1)) (r i)
  let JPv :=
    if neff < n i then JP B nu (u i) (r (i - 1)) (r i) else IP B nu (u i) (r (i - 1)) (r i)
  let YPv :=
    if neff < n i then YP B nu (u i) (r (i - 1)) (r i) else KP B nu (u i) (r (i - 1)) (r i)
  match tid.x, tid.y with
  | 0, 0 => some Jv
  | 0, 1 => some Yv
  | 0, 2 => some 0
  | 0, 3 => some 0
  | 1, 0 => some 0
  | 1, 1 => some 0
  | 1, 2 => some Jv
  | 1, 3 => some Yv
  | 2, 0 => some (Jv * neff * (nu : α) * r i / (u i * r (i - 1) * w i))
  | 2, 1 => some (Yv * neff * (nu : α) * r i / (u i * r (i - 1) * w i))
  | 2, 2 => some (-JPv * ETA0 / w i)
  | 2, 3 => some (-YPv * ETA0 / w i)
  | 3, 0 => some (JPv * n i * n i / (ETA0 * w i))
  | 3, 1 => some (YPv * n i * n i / (ETA0 * w i))
  | 3, 2 => some (-Jv * neff * (nu : α) * r i / (u i * r (i - 1) * w i))
  | 3, 3 => some (-Yv * neff * (nu : α) * r i / (u i * r (i - 1) * w i))
  | _, _ => none

/-- Lines 241-272, "Get E and H values" for the intermediate layer `i` from the solution
vector `x`: the value thread `tid` stores to `ab[IDX]`, if any. -/
def getEH (B : Bessel α) (bd : Dim3) (neff : α) (n w u : Nat → α) (nu i : Nat)
    (x : Nat → α) (tid : Dim3) : Option α :=
  let P1 := if neff < n i then JP B nu (u i) 1 1 else IP B nu (u i) 1 1
  let P2 := if neff < n i then YP B nu (u i) 1 1 else KP B nu (u i) 1 1
  if 4 = tid.x then
    match tid.y with
    | 0 => some (x (IZ bd tid 0) + x (IZ bd tid 1))
    | 1 => some (x (IZ bd tid 2) + x (IZ bd tid 3))
    | 2 =>
      some (((neff * (nu : α) / (u i * w i)) * (x (IZ bd tid 0) + x (IZ bd tid 1)))
        - ((ETA0 / w i) * (x (IZ bd tid 2) * P1 + x (IZ bd tid 3) * P2)))
    | 3 =>
      some (((n i * n i / (ETA0 * w i)) * (x (IZ bd tid 0) * P1 + x (IZ bd tid 1) * P2))
        - ((neff * (nu : α) / (u i * w i)) * (x (IZ bd tid 2) + x (IZ bd tid 3))))
    | _ => none
  else none

/-- The state of the loop over the intermediate layers: the counter `i`, the shared
array and the local array `x`. -/
structure LayerState (α : Type) where
  i : Nat
  ab : List α
  x : Nat → α

/-- The loop of lines 151-274, `for (i = 1; i < N-1; ++i)`, from counter `st.i` on and for
at most `fuel` iterations: fill the matrix, barrier, `solve(x)`, extract the four boundary
entries. -/
def layerLoopFrom (R : Runtime α) (B : Bessel α) (bd : Dim3) (U : Uninit α) (neff : α)
    (r n w u : Nat → α) (N nu : Nat) : Nat → LayerState α → LayerState α
  | 0, st => st
  | fuel + 1, st =>
    if st.i < usub N 1 then
      let ab1 := phase bd (fun tid => own bd tid (fillMatrix B neff r n w u nu st.i tid)) st.ab
      let s := solve bd (U.pidx st.i) st.x ab1
      let ab2 := phase bd (fun tid => own bd tid (getEH B bd neff n w u nu st.i s.x tid)) s.ab
      layerLoopFrom R B bd U neff r n w u N nu fuel ⟨st.i + 1, ab2, s.x⟩
    else st

/-- The loop of lines 151-274 run to its end: the fuel is the number `(N-1) - i` of
iterations that remain, so the loop test is false when it is used up (`layerLoop_eq`). -/
def layerLoop (R : Runtime α) (B : Bessel α) (bd : Dim3) (U : Uninit α) (neff : α)
    (r n w u : Nat → α) (N nu : Nat) (st : LayerState α) : LayerState α :=
  layerLoopFrom R B bd U neff r n w u N nu (usub N 1 - st.i) st

/-- Lines 279-294, "Find values for last layer", with `i` the counter the loop left:
the value thread `tid` stores to `ab[IDX]`, if any.  The leaky branch is empty. -/
def lastLayer (B : Bessel α) (bd : Dim3) (neff : α) (n w u : Nat → α) (N nu i : Nat)
    (ab : List α) (tid : Dim3) : Option α :=
  if neff < n i then none
  else if 4 = tid.x then
    if 2 = tid.y then
      some (ld ab (IDX bd tid)
        - ((neff * (nu : α) / (u (usub N 1) * w (usub N 1))) * ld ab (IJ bd tid 0 4)
          - ((ETA0 / w (usub N 1)) * ld ab (IJ bd tid 1 4) * KP B nu (u (usub N 1)) 1 1)))
    else if 3 = tid.y then
      some (ld ab (IDX bd tid)
        - ((n (usub N 1) * n (usub N 1) / (ETA0 * w (usub N 1))) * ld ab (IJ bd tid 0 4)
            * KP B nu (u (usub N 1)) 1 1
          - (neff * (nu : α) / (u (usub N 1) * w (usub N 1))) * ld ab (IJ bd tid 1 4)))
    else none
  else none

/-- What `_chareq` leaves behind: the value it returns (the same in every thread) and the
shared array. -/
structure ChareqResult (α : Type) where
  ret : α
  ab : List α

/-- The device function `_chareq(neff, k0, r, n, N, nu)` run by a block of dimensions
`bd` on the shared array `ab`. -/
def _chareq (R : Runtime α) (B : Bessel α) (bd : Dim3) (U : Uninit α) (ab : List α)
    (neff k0 : α) (r n : Nat → α) (N nu : Nat) : ChareqResult α :=
  match initLayers R neff k0 r n N 0 U.w U.u with
  | none => ⟨R.CUDART_INF_F, ab⟩
  | some (w, u) =>
    let ab1 := phase bd (fun tid => own bd tid (firstLayer B neff n w u nu tid)) ab
    let st := layerLoop R B bd U neff r n w u N nu ⟨1, ab1, U.x⟩
    let ab3 := phase bd (fun tid => own bd tid (lastLayer B bd neff n w u N nu st.i st.ab tid))
      st.ab
    ⟨ld ab3 ((bd.x * 2) + 4) * ld ab3 ((bd.x * bd.y) + (bd.x * 3) + 4)
      - ld ab3 ((bd.x * bd.y) + (bd.x * 2) + 4) * ld ab3 ((bd.x * 3) + 4), ab3⟩

end Chareq

/-! ## A concrete instance over `ℚ`

Used to run the model on explicit inputs.  The constants are those of cephes
(`MAXNUMF = 2^128 - 2^104`, `MACHEPF = 2^-24`); the square root is exact on squares of
rationals; the transcendental functions, which have no rational values, are replaced by
rational stand-ins.  The theorems below hold for every `Runtime` and every `Bessel`. -/

/-- The largest `k <= fuel` with `k * k <= n`. -/
def natSqrtAux : Nat → Nat → Nat
  | 0, _ => 0
  | k + 1, n => if (k + 1) * (k + 1) ≤ n then k + 1 else natSqrtAux k n

/-- Square root of a rational, exact whenever numerator and denominator are squares. -/
def ratSqrt (q : ℚ) : ℚ :=
  (natSqrtAux q.num.toNat q.num.toNat : ℚ) / (natSqrtAux q.den q.den : ℚ)

/-- A runtime over `ℚ`. -/
def refRuntime : Runtime ℚ where
  MAXNUMF := 2 ^ 128 - 2 ^ 104
  MACHEPF := 1 / 2 ^ 24
  MAXLOGF := 88.72283905206835
  PIF := 3.141592653589793238
  CUDART_INF_F := 2 ^ 128
  sqrtf := ratSqrt
  logf := fun x => x - 1
  expf := fun x => 1 + x + x * x / 2
  tgammaf := fun _ => 1
  lgammaf := fun _ => 0

/-- Rational stand-ins for the four Bessel evaluators. -/
def refBessel : Bessel ℚ where
  jnf := fun n x => 1 + (n : ℚ) + x
  ynf := fun n x => 2 - (n : ℚ) + x * x
  ivf := fun v x => 1 + v * x
  knf := fun n x => 1 / (1 + (n : ℚ) * (n : ℚ) + x)

/-- A stand-in for `hypergf`. -/
def refHypergf : ℚ → ℚ → ℚ → ℚ := fun a b x => 1 + a * x / b

/-- Uninitialised storage filled with zeros. -/
def refUninit : Uninit ℚ := ⟨fun _ => 0, fun _ => 0, fun _ => 0, fun _ _ => 0⟩

/-- Layer indices of a two-layer fibre, core 13 and cladding 3 (with `neff = 5` both
`13^2 - 5^2` and `5^2 - 3^2` are squares). -/
def refIndex : Nat → ℚ := fun i => if i = 0 then 13 else 3

/-- Layer radii: every radius is 1. -/
def refRadius : Nat → ℚ := fun _ => 1

/-! ## The two-layer dispersion relation, as claim C4 words it -/

section StepIndex

variable {α : Type} [LinearOrderedField α]

/-- Claim C4: `w0 = sqrt(n0^2 - neff^2)`. -/
def stepW0 (R : Runtime α) (neff n0 : α) : α := R.sqrtf (n0 ^ 2 - neff ^ 2)

/-- Claim C4: `w1 = -sqrt(neff^2 - n1^2)`. -/
def stepW1 (R : Runtime α) (neff n1 : α) : α := -R.sqrtf (neff ^ 2 - n1 ^ 2)

/-- Claim C4: `u0 = k0 * r[0] * w0`. -/
def stepU0 (R : Runtime α) (neff k0 r0 n0 : α) : α := k0 * r0 * stepW0 R neff n0

/-- Claim C4: `u1 = k0 * r[0] * |w1|`. -/
def stepU1 (R : Runtime α) (neff k0 r0 n1 : α) : α := k0 * r0 * |stepW1 R neff n1|

/-- Claim C4: `P = jnp(nu, u0) / jnf(nu, u0)`, the order passed as an `int`. -/
def stepP (R : Runtime α) (B : Bessel α) (neff k0 r0 n0 : α) (nu : Nat) : α :=
  jnp B (intOfUnsigned nu) (stepU0 R neff k0 r0 n0)
    / B.jnf (intOfUnsigned nu) (stepU0 R neff k0 r0 n0)

/-- Claim C4: `Q = knp(nu, u1) / knf(nu, u1)`, the order passed as an `int`. -/
def stepQ (R : Runtime α) (B : Bessel α) (neff k0 r0 n1 : α) (nu : Nat) : α :=
  knp B (intOfUnsigned nu) (stepU1 R neff k0 r0 n1)
    / B.knf (intOfUnsigned nu) (stepU1 R neff k0 r0 n1)

/-- The TE factor `P/w0 - Q/w1`. -/
def stepTE (R : Runtime α) (B : Bessel α) (neff k0 r0 n0 n1 : α) (nu : Nat) : α :=
  stepP R B neff k0 r0 n0 nu / stepW0 R neff n0 - stepQ R B neff k0 r0 n1 nu / stepW1 R neff n1

/-- The TM factor `n0^2 * P/w0 - n1^2 * Q/w1`. -/
def stepTM (R : Runtime α) (B : Bessel α) (neff k0 r0 n0 n1 : α) (nu : Nat) : α :=
  n0 ^ 2 * stepP R B neff k0 r0 n0 nu / stepW0 R neff n0
    - n1 ^ 2 * stepQ R B neff k0 r0 n1 nu / stepW1 R neff n1

/-- The residual of claim C4:
`(P/w0 - Q/w1) * (n0^2*P/w0 - n1^2*Q/w1) - (neff*nu)^2 * (1/(u0*w0) - 1/(u1*w1))^2`. -/
def stepResidual (R : Runtime α) (B : Bessel α) (neff k0 r0 n0 n1 : α) (nu : Nat) : α :=
  stepTE R B neff k0 r0 n0 n1 nu * stepTM R B neff k0 r0 n0 n1 nu
    - (neff * (nu : α)) ^ 2
      * (1 / (stepU0 R neff k0 r0 n0 * stepW0 R neff n0)
          - 1 / (stepU1 R neff k0 r0 n1 * stepW1 R neff n1)) ^ 2

end StepIndex

/-! ## Views of the shared array of a 5x4x2 block -/

section Views

variable {α : Type} [LinearOrderedField α]

/-- Entry (row `y`, column `x`) of the matrix of family `z`: the cell `IJ(y, x)` of a
thread of that family, `ab[20*z + 5*y + x]`. -/
def cell (ab : List α) (z y x : Nat) : α := ld ab (20 * z + 5 * y + x)

/-- The 4x4 coefficient block of family `z` (columns 0..3). -/
def coeffBlock (ab : List α) (z : Nat) : Matrix (Fin 4) (Fin 4) α :=
  Matrix.of fun (y x : Fin 4) => cell ab z y x

/-- The augmented column of family `z` (column 4, rows 0..3). -/
def augColumn (ab : List α) (z : Nat) : Fin 4 → α := fun y => cell ab z y 4

/-- Row `y` of a 4-column coefficient matrix applied to the vector `s`. -/
def rowSum (M : Nat → Nat → α) (s : Nat → α) (y : Nat) : α :=
  M y 0 * s 0 + M y 1 * s 1 + M y 2 * s 2 + M y 3 * s 3

/-- The row that stands in row `y` after rows `i` and `p` have been exchanged. -/
def swapRow (i p y : Nat) : Nat := if y = i then p else if y = p then i else y

/-- Two identity blocks with the augmented columns `(1, 2, 3, 4)` and `(5, 6, 7, 8)`. -/
def refIdentity : List ℚ :=
  [1, 0, 0, 0, 1,
   0, 1, 0, 0, 2,
   0, 0, 1, 0, 3,
   0, 0, 0, 1, 4,
   1, 0, 0, 0, 5,
   0, 1, 0, 0, 6,
   0, 0, 1, 0, 7,
   0, 0, 0, 1, 8]

/-- Two copies of a system whose first pivot needs a row swap, with right-hand sides
`(5, 6, 2, 3)` and `(1, 0, 0, 0)`. -/
def refSystem : List ℚ :=
  [0, 1, 0, 0, 5,
   4, 3, 1, 0, 6,
   0, 1, 1, 1, 2,
   1, 0, 0, 2, 3,
   0, 1, 0, 0, 1,
   4, 3, 1, 0, 0,
   0, 1, 1, 1, 0,
   1, 0, 0, 2, 0]

end Views

/-! ## `hypergf.c` -/

section Hyperg

variable {α : Type} [LinearOrderedField α]

/-- How a series evaluator left its loop (a ghost of the model: the sources encode it in
the label jumped to). -/
inductive SeriesExit where
  /-- The loop test `t > MACHEPF` failed. -/
  | converged
  /-- `n > 200`. -/
  | capped
  /-- `hy1f1pf`: `bn == 0`, the function returns `MAXNUMF`. -/
  | singular
  /-- A running parameter is zero and the series ends (`an == 0` in `hy1f1pf`; `an == 0` or
  `bn == 0` in `hyp2f0f`). -/
  | terminated
  /-- `hyp2f0f`: the terms started to grow, `t > tlast`. -/
  | diverged
  /-- The blow-up test fired. -/
  | blowup
deriving DecidableEq

/-- What a series evaluator hands back: the value it returns, what it wrote to `*err`
(`none` when it returned without writing it), and how the loop ended. -/
structure SeriesResult (α : Type) where
  val : α
  err : Option α
  exit : SeriesExit

/-- The locals of the loop of `hy1f1pf`. -/
structure Hy1f1p (α : Type) where
  an : α
  bn : α
  a0 : α
  sum : α
  n : α
  t : α
  maxt : α

/-- Lines 220-232, label `pdone` of `hy1f1pf`: `if (sum != 0.0) maxt /= fabsf(sum);
maxt *= MACHEPF; pcanc = fabsf(MACHEPF * n + maxt); *err = pcanc; return sum`. -/
def hy1f1pDone (R : Runtime α) (st : Hy1f1p α) (e : SeriesExit) : SeriesResult α :=
  let maxt := if st.sum ≠ 0 then st.maxt / |st.sum| else st.maxt
  let maxt := maxt * R.MACHEPF
  ⟨st.sum, some |R.MACHEPF * st.n + maxt|, e⟩

/-- The blow-up test of lines 196-197: `temp = fabsf(u);
(temp > 1.0) && (maxt > (MAXNUMF/temp))`. -/
def blowupTest (R : Runtime α) (u maxt : α) : Prop :=
  |u| > 1 ∧ maxt > R.MAXNUMF / |u|

instance (R : Runtime α) (u maxt : α) : Decidable (blowupTest R u maxt) := by
  unfold blowupTest
  infer_instance

/-- The loop `while (t > MACHEPF)` of `hy1f1pf` (lines 182-218), on `fuel` iterations;
`none` when the fuel runs out. -/
def hy1f1pLoop (R : Runtime α) (x : α) : Nat → Hy1f1p α → Option (SeriesResult α)
  | 0, _ => none
  | fuel + 1, st =>
    if st.t > R.MACHEPF then
      if st.bn = 0 then some ⟨R.MAXNUMF, none, SeriesExit.singular⟩
      else if st.an = 0 then some ⟨st.sum, none, SeriesExit.terminated⟩
      else if st.n > 200 then some (hy1f1pDone R st SeriesExit.capped)
      else
        let u := x * (st.an / (st.bn * st.n))
        /- check for blowup -/
        if blowupTest R u st.maxt then some ⟨st.sum, some 1, SeriesExit.blowup⟩
        else
          let a0 := st.a0 * u
          let sum := st.sum + a0
          let t := |a0|
          let maxt := if t > st.maxt then t else st.maxt
          hy1f1pLoop R x fuel ⟨st.an + 1, st.bn + 1, a0, sum, st.n + 1, t, maxt⟩
    else some (hy1f1pDone R st SeriesExit.converged)

/-- `hy1f1pf(a, b, x, err)`: power series summation for the confluent hypergeometric
function. -/
def hy1f1pf (R : Runtime α) (fuel : Nat) (a b x : α) : Option (SeriesResult α) :=
  hy1f1pLoop R x fuel ⟨a, b, 1, 1, 1, 1, 0⟩

/-- The locals of the loop of `hyp2f0f`. -/
structure Hyp2f0 (α : Type) where
  an : α
  bn : α
  a0 : α
  alast : α
  sum : α
  n : α
  t : α
  tlast : α
  maxt : α

/-- Lines 56-62 and 90-92, label `pdone` of `hyp2f0f`: `*err = fabsf(MACHEPF * (n + maxt));
alast = a0; sum += alast; return sum`. -/
def hyp2f0Done (R : Runtime α) (st : Hyp2f0 α) (e : SeriesExit) : SeriesResult α :=
  ⟨st.sum + st.a0, some |R.MACHEPF * (st.n + st.maxt)|, e⟩

/-- Lines 64-92, label `ndone` of `hyp2f0f`, with `a`, `b`, `x`, `type` the arguments of
the call: `n -= 1.0; x = 1.0/x;` the converging factor of the type multiplies `alast`;
`*err = MACHEPF * (n + maxt) + fabsf(a0); sum += alast; return sum`. -/
def hyp2f0NotDone (R : Runtime α) (a b x : α) (type : Int) (st : Hyp2f0 α) (e : SeriesExit) :
    SeriesResult α :=
  let n := st.n - 1
  let x := 1 / x
  let alast :=
    if type = 1 then
      st.alast * (0.5 + (0.125 + 0.25 * b - 0.5 * a + 0.25 * x - 0.25 * n) / x)
    else if type = 2 then st.alast * (2 / 3 - b + 2 * a + x - n)
    else st.alast
  ⟨st.sum + alast, some (R.MACHEPF * (n + st.maxt) + |st.a0|), e⟩

/-- The loop `do ... while (t > MACHEPF)` of `hyp2f0f` (lines 19-53), on `fuel`
iterations; `none` when the fuel runs out. -/
def hyp2f0Loop (R : Runtime α) (a b x : α) (type : Int) :
    Nat → Hyp2f0 α → Option (SeriesResult α)
  | 0, _ => none
  | fuel + 1, st =>
    if st.an = 0 then some (hyp2f0Done R st SeriesExit.terminated)
    else if st.bn = 0 then some (hyp2f0Done R st SeriesExit.terminated)
    else
      let u := st.an * (st.bn * x / st.n)
      /- check for blowup -/
      if blowupTest R u st.maxt then some ⟨st.sum, some R.MAXNUMF, SeriesExit.blowup⟩
      else
        let a0 := st.a0 * u
        let t := |a0|
        /- terminating condition for asymptotic series -/
        if t > st.tlast then
          some (hyp2f0NotDone R a b x type
            ⟨st.an, st.bn, a0, st.alast, st.sum, st.n, t, st.tlast, st.maxt⟩
            SeriesExit.diverged)
        else
          let sum := st.sum + st.alast
          if st.n > 200 then
            some (hyp2f0NotDone R a b x type
              ⟨st.an, st.bn, a0, a0, sum, st.n, t, t, st.maxt⟩ SeriesExit.capped)
          else
            let st1 : Hyp2f0 α :=
              ⟨st.an + 1, st.bn + 1, a0, a0, sum, st.n + 1, t, t,
                if t > st.maxt then t else st.maxt⟩
            if t > R.MACHEPF then hyp2f0Loop R a b x type fuel st1
            else some (hyp2f0Done R st1 SeriesExit.converged)

/-- `hyp2f0f(a, b, x, type, err)`. -/
def hyp2f0f (R : Runtime α) (fuel : Nat) (a b x : α) (type : Int) :
    Option (SeriesResult α) :=
  hyp2f0Loop R a b x type fuel ⟨a, b, 1, 1, 0, 1, 1, 1.0e9, 0⟩

/-- `hy1f1af(a, b, x, err)`: the asymptotic formula, returning `(asum, *err)`.  `junk` is
what an error variable holds that a callee did not write. -/
def hy1f1af (R : Runtime α) (junk : α) (fuel : Nat) (a b x : α) : Option (α × α) :=
  if x = 0 then some (R.MAXNUMF, 1)
  else
    let temp := R.logf |x|
    let t := x + temp * (a - b)
    let u := -temp * a
    let tu : α × α := if b > 0 then (t + R.lgammaf b, u + R.lgammaf b) else (t, u)
    let t := tu.1
    let u := tu.2
    match hyp2f0f R fuel a (a - b + 1) (-1 / x) 1 with
    | none => none
    | some r1 =>
      let temp := R.expf u / R.tgammaf (b - a)
      let h1 := r1.val * temp
      let err1 := r1.err.getD junk * temp
      match hyp2f0f R fuel (b - a) (1 - a) (1 / x) 2 with
      | none => none
      | some r2 =>
        let temp := if a < 0 then R.expf t / R.tgammaf a else R.expf (t - R.lgammaf a)
        let h2 := r2.val * temp
        let err2 := r2.err.getD junk * temp
        let asum := if x < 0 then h1 else h2
        let acanc := |err1| + |err2|
        let ac : α × α :=
          if b < 0 then (asum * R.tgammaf b, acanc * |R.tgammaf b|) else (asum, acanc)
        let asum := ac.1
        let acanc := if asum ≠ 0 then ac.2 / |asum| else ac.2
        /- fudge factor -/
        some (asum, acanc * 30)

/-- The test of line 240, "See if a Kummer transformation will help":
`fabsf(b - a) < 0.001 * fabsf(a)`. -/
def kummerShortcut (a b : α) : Prop := |b - a| < 0.001 * |a|

instance (a b : α) : Decidable (kummerShortcut a b) := by
  unfold kummerShortcut
  infer_instance

/-- Lines 243-263 of `hypergf`, past the Kummer test: the power series, then, unless its
error estimate is below `1.0e-6`, the asymptotic formula, and the choice between them. -/
def hypergfSelect (R : Runtime α) (junk : α) (fuel : Nat) (a b x : α) : Option α :=
  match hy1f1pf R fuel a b x with
  | none => none
  | some p =>
    let psum := p.val
    let pcanc := p.err.getD junk
    if pcanc < 1.0e-6 then some psum
    else
      /- try asymptotic series -/
      match hy1f1af R junk fuel a b x with
      | none => none
      | some (asum, acanc) =>
        /- Pick the result with less estimated error -/
        if acanc < pcanc then some asum else some psum

/-- `hypergf(a, b, x)`.  The fuel bounds the depth of the self-call and the iterations of
every loop below it; `none` when it runs out. -/
def hypergf (R : Runtime α) (junk : α) : Nat → α → α → α → Option α
  | 0, _, _, _ => none
  | fuel + 1, a, b, x =>
    /- See if a Kummer transformation will help -/
    if kummerShortcut a b then
      (hypergf R junk fuel (b - a) b (-x)).map fun h => R.expf x * h
    else hypergfSelect R junk fuel a b x

end Hyperg

/-! ## Further concrete inputs -/

/-- Layer indices of a two-layer stack whose core index is 5 and whose outer index is 7:
at `neff = 5` the query is degenerate (`neff = n[0]`) and `neff < n[1]`. -/
def refLeakyIndex : Nat → ℚ := fun i => if i = 0 then 5 else 7

/-! ## The power series of claim C14, term by term -/

section HyTerms

variable {α : Type} [LinearOrderedField α]

/-- Claim C14: `term_0 = 1`, `term_{k+1} = term_k * x * (a+k) / ((b+k) * (k+1))`. -/
def hyTerm (a b x : α) : Nat → α
  | 0 => 1
  | k + 1 => hyTerm a b x k * x * (a + (k : α)) / ((b + (k : α)) * ((k : α) + 1))

/-- The partial sum `term_0 + ... + term_K`. -/
def hyPartial (a b x : α) : Nat → α
  | 0 => 1
  | k + 1 => hyPartial a b x k + hyTerm a b x (k + 1)

/-- The largest magnitude among `term_1 .. term_k` (0 for `k = 0`): what `maxt` holds
after `k` term additions. -/
def hyMaxt (a b x : α) : Nat → α
  | 0 => 0
  | k + 1 =>
    if |hyTerm a b x (k + 1)| > hyMaxt a b x k then |hyTerm a b x (k + 1)|
    else hyMaxt a b x k

/-- The locals of `hy1f1pf` after `k` term additions. -/
def hyState (a b x : α) (k : Nat) : Hy1f1p α :=
  ⟨a + (k : α), b + (k : α), hyTerm a b x k, hyPartial a b x k, (k : α) + 1,
    |hyTerm a b x k|, hyMaxt a b x k⟩

/-- After `k` term additions the loop of `hy1f1pf` goes on to add `term_{k+1}`: the loop
test holds, neither running parameter is zero, the cap is not reached and the blow-up
test does not fire. -/
def hyContinue (R : Runtime α) (a b x : α) (k : Nat) : Prop :=
  |hyTerm a b x k| > R.MACHEPF ∧ b + (k : α) ≠ 0 ∧ a + (k : α) ≠ 0 ∧ ¬ ((k : α) + 1 > 200) ∧
    ¬ blowupTest R (x * ((a + (k : α)) / ((b + (k : α)) * ((k : α) + 1)))) (hyMaxt a b x k)

instance (R : Runtime α) (a b x : α) (k : Nat) : Decidable (hyContinue R a b x k) := by
  unfold hyContinue
  infer_instance

/-- The loop of `hy1f1pf` is still running after `K` term additions. -/
def hyRunning (R : Runtime α) (a b x : α) (K : Nat) : Prop :=
  ∀ j, j < K → hyContinue R a b x j

/-- What `hy1f1pf` hands back when its loop stops after `k` term additions. -/
def hyStop (R : Runtime α) (a b x : α) (k : Nat) : SeriesResult α :=
  if |hyTerm a b x k| > R.MACHEPF then
    if b + (k : α) = 0 then ⟨R.MAXNUMF, none, SeriesExit.singular⟩
    else if a + (k : α) = 0 then ⟨hyPartial a b x k, none, SeriesExit.terminated⟩
    else if (k : α) + 1 > 200 then hy1f1pDone R (hyState a b x k) SeriesExit.capped
    else ⟨hyPartial a b x k, some 1, SeriesExit.blowup⟩
  else hy1f1pDone R (hyState a b x k) SeriesExit.converged

end HyTerms

/-! ## Shared-memory footprints

For every stretch of code between two barriers: the cells of `ab` a thread reads and the
cells it writes, read off the same lines as the definitions above. -/

/-- The cells of the shared array a thread reads and the cells it writes. -/
structure Access where
  reads : List Nat
  writes : List Nat

/-- Lines 36-44, the pivot scan of pass `i`: a thread of row `i` reads `ab[IJ(j,i)]` for
`j = i .. blockDim.y - 1` and writes nothing shared. -/
def scanAccess (bd : Dim3) (i : Nat) (tid : Dim3) : Access :=
  if tid.y = i then ⟨(List.range' i (bd.y - i)).map fun j => IJ bd tid j i, []⟩
  else ⟨[], []⟩

/-- Lines 48-53, the row swap of pass `i`: a thread of row `i` with `pidx != i` reads and
writes `ab[IDX]` and `ab[ridx]`, `ridx = IJ(pidx, threadIdx.x)`. -/
def swapAccess (bd : Dim3) (i : Nat) (pidx : Dim3 → Nat) (tid : Dim3) : Access :=
  if tid.y = i ∧ pidx tid ≠ i then
    ⟨[IDX bd tid, IJ bd tid (pidx tid) tid.x], [IDX bd tid, IJ bd tid (pidx tid) tid.x]⟩
  else ⟨[], []⟩

/-- Lines 61-68, the row operations of pass `i`: a thread off row `i` and right of column
`i` reads `ab[IDX]`, `ab[ridx]`, `ab[rpidx]`, `ab[pidx]` and writes `ab[IDX]`; a thread
off row `i` in column `i` writes `ab[IDX]`. -/
def rowOperationsAccess (bd : Dim3) (i : Nat) (tid : Dim3) : Access :=
  if tid.y ≠ i then
    if tid.x > i then
      ⟨[IDX bd tid, IJ bd tid i tid.x, IJ bd tid tid.y i, IJ bd tid i i], [IDX bd tid]⟩
    else if tid.x = i then ⟨[], [IDX bd tid]⟩
    else ⟨[], []⟩
  else ⟨[], []⟩

/-- Lines 72-79, the normalisation of pass `i`: a thread of row `i` right of column `i`
reads `ab[IDX]` and `ab[pidx]` and writes `ab[IDX]`; the thread of the pivot cell writes
`ab[IDX]`. -/
def normalizeRowAccess (bd : Dim3) (i : Nat) (tid : Dim3) : Access :=
  if tid.y = i then
    if tid.x > i then ⟨[IDX bd tid, IJ bd tid i i], [IDX bd tid]⟩
    else if tid.x = i then ⟨[], [IDX bd tid]⟩
    else ⟨[], []⟩
  else ⟨[], []⟩

/-- Lines 84-86, the copy-out: every thread reads the eight cells
`ab[(i / 4) * (blockDim.x * blockDim.y) + blockDim.y + (i % 4)]`. -/
def copyOutAccess (bd : Dim3) : Access :=
  ⟨(List.range 8).map fun i => (i / 4) * (bd.x * bd.y) + bd.y + (i % 4), []⟩

/-- Lines 115-148, "First layer": the threads of column 4, rows 0..3, write `ab[IDX]`. -/
def firstLayerAccess (bd : Dim3) (tid : Dim3) : Access :=
  if 4 = tid.x ∧ tid.y < 4 then ⟨[], [IDX bd tid]⟩ else ⟨[], []⟩

/-- Lines 153-234, "Fill matrix": the threads of columns 0..3, rows 0..3, write
`ab[IDX]`. -/
def fillMatrixAccess (bd : Dim3) (tid : Dim3) : Access :=
  if tid.x < 4 ∧ tid.y < 4 then ⟨[], [IDX bd tid]⟩ else ⟨[], []⟩

/-- Lines 241-272, "Get E and H values": the threads of column 4, rows 0..3, write
`ab[IDX]` from the local vector `x`. -/
def getEHAccess (bd : Dim3) (tid : Dim3) : Access :=
  if 4 = tid.x ∧ tid.y < 4 then ⟨[], [IDX bd tid]⟩ else ⟨[], []⟩

/-- Lines 279-294, "Find values for last layer": in the guided branch the threads of
column 4, rows 2 and 3, read `ab[IDX]`, `ab[IJ(0,4)]`, `ab[IJ(1,4)]` and write `ab[IDX]`;
the leaky branch touches nothing. -/
def lastLayerAccess (bd : Dim3) (leaky : Bool) (tid : Dim3) : Access :=
  if leaky then ⟨[], []⟩
  else if 4 = tid.x then
    if 2 = tid.y then ⟨[IDX bd tid, IJ bd tid 0 4, IJ bd tid 1 4], [IDX bd tid]⟩
    else if 3 = tid.y then ⟨[IDX bd tid, IJ bd tid 0 4, IJ bd tid 1 4], [IDX bd tid]⟩
    else ⟨[], []⟩
  else ⟨[], []⟩

/-- Thread `t1` reads or writes a cell that thread `t2` writes. -/
def conflict (acc : Dim3 → Access) (t1 t2 : Dim3) : Prop :=
  ∃ c, c ∈ (acc t2).writes ∧ (c ∈ (acc t1).reads ∨ c ∈ (acc t1).writes)

/-- No thread of the block reads or writes a cell that a different thread writes. -/
def raceFree (bd : Dim3) (acc : Dim3 → Access) : Prop :=
  ∀ t1, t1 ∈ threads bd → ∀ t2, t2 ∈ threads bd → t1 ≠ t2 → ¬ conflict acc t1 t2

/-- Every thread of the block writes no cell but its own, `ab[IDX]`. -/
def ownWrites (bd : Dim3) (acc : Dim3 → Access) : Prop :=
  ∀ t, t ∈ threads bd → ∀ c, c ∈ (acc t).writes → c = IDX bd t

/-! ## Array indices

For every stretch of `_chareq`: the indices it uses on the arrays `r`, `n`, `w`, `u` and
on the local vector `x`, read off the same lines as the definitions above. -/

/-- The indices used on `r`, `n`, `w`, `u` and on the eight-element vector `x`. -/
structure ArrayUse where
  r : List Nat
  n : List Nat
  w : List Nat
  u : List Nat
  x : List Nat

/-- Every index on `r`, `n`, `w`, `u` is below the layer count `N`, every index on `x` is
below 8. -/
def inBounds (a : ArrayUse) (N : Nat) : Prop :=
  (∀ k, k ∈ a.r → k < N) ∧ (∀ k, k ∈ a.n → k < N) ∧ (∀ k, k ∈ a.w → k < N) ∧
    (∀ k, k ∈ a.u → k < N) ∧ (∀ k, k ∈ a.x → k < 8)

instance (a : ArrayUse) (N : Nat) : Decidable (inBounds a N) := by
  unfold inBounds
  infer_instance

/-- Lines 102-110, the initialisation loop at counter `i`: `n[i]`, `w[i]`, `u[i]` and
`r[(i+1 == N) ? (i-1) : i]`, the subtraction being unsigned. -/
def initLayersUse (N i : Nat) : ArrayUse :=
  ⟨[if i + 1 = N then usub i 1 else i], [i], [i], [i], []⟩

/-- Lines 115-148, "First layer": `u[0]`, `w[0]`, `n[0]`. -/
def firstLayerUse : ArrayUse := ⟨[], [0], [0], [0], []⟩

/-- Lines 153-234, "Fill matrix" at counter `i`: `n[i]`, `u[i]`, `w[i]`, `r[i-1]`, `r[i]`,
the subtraction being unsigned. -/
def fillMatrixUse (i : Nat) : ArrayUse := ⟨[usub i 1, i], [i], [i], [i], []⟩

/-- Lines 84-86 of `solve`: `x[i]` for `i = 0 .. 7`. -/
def solveUse : ArrayUse := ⟨[], [], [], [], List.range 8⟩

/-- Lines 241-272, "Get E and H values" at counter `i`: `n[i]`, `u[i]`, `w[i]` and
`x[IZ(0)]`, `x[IZ(1)]`, `x[IZ(2)]`, `x[IZ(3)]`. -/
def getEHUse (bd tid : Dim3) (i : Nat) : ArrayUse :=
  ⟨[], [i], [i], [i], [IZ bd tid 0, IZ bd tid 1, IZ bd tid 2, IZ bd tid 3]⟩

/-- Lines 279-294, "Find values for last layer", with `i` the counter the loop left:
`n[i]` in the regime test, then `u[N-1]`, `w[N-1]`, `n[N-1]`, the subtraction being
unsigned. -/
def lastLayerUse (N i : Nat) : ArrayUse := ⟨[], [i, usub N 1], [usub N 1], [usub N 1], []⟩

section LayerBody

variable {α : Type} [LinearOrderedField α]

/-- The body of the loop of lines 151-274 followed by `++i`: fill the matrix, barrier,
`solve(x)`, extract the four boundary entries. -/
def layerBody (B : Bessel α) (bd : Dim3) (U : Uninit α) (neff : α) (r n w u : Nat → α)
    (nu : Nat) (st : LayerState α) : LayerState α :=
  let ab1 := phase bd (fun tid => own bd tid (fillMatrix B neff r n w u nu st.i tid)) st.ab
  let s := solve bd (U.pidx st.i) st.x ab1
  let ab2 := phase bd (fun tid => own bd tid (getEH B bd neff n w u nu st.i s.x tid)) s.ab
  ⟨st.i + 1, ab2, s.x⟩

end LayerBody

/-! ## A phase without the simultaneous-update reading -/

/-- A phase run group by group: the threads of a group all read the memory as it is when
their group starts, and their writes are committed before the next group starts.  `code m
tid` lists the writes of thread `tid` on the memory `m`.  With one group that holds every
thread this is `phase`. -/
def phaseGroups {α : Type} (groups : List (List Dim3))
    (code : List α → Dim3 → List (Nat × α)) (ab : List α) : List α :=
  groups.foldl (fun m g => commit (g.flatMap (code m)) m) ab

/-- The threads of warp `k` of a block: the threads are numbered by `THREADIDX` and a warp
holds 32 consecutive threads (`warpSize`). -/
def warpThreads (bd : Dim3) (k : Nat) : List Dim3 :=
  (threads bd).filter fun t => IDX bd t / 32 = k

/-- Two copies of a system whose first pivot is in row 0 and whose row 2 has a nonzero
entry in column 0, all right-hand sides 1. -/
def refRace : List ℚ :=
  [2, 1, 1, 0, 1,
   0, 1, 0, 0, 1,
   1, 0, 1, 0, 1,
   0, 0, 0, 1, 1,
   2, 1, 1, 0, 1,
   0, 1, 0, 0, 1,
   1, 0, 1, 0, 1,
   0, 0, 0, 1, 1]

/-! ## Overflow in the initialisation loop

The definitions above take `float` arithmetic to be exact.  For the zero test of line 103
that leaves out what a product too large for binary32 does; `F32` keeps it. -/

/-- A binary32 value as far as overflow goes: a finite value, an infinity with its sign
(`true` for the negative one), or NaN.  The rounding of a result that stays in range is
left out. -/
inductive F32 where
  | fin (q : ℚ)
  | inf (neg : Bool)
  | nan
deriving DecidableEq

/-- The result of an operation whose exact value is `q`: an infinity once `|q|` is `2^128`
or more, which lies beyond the largest finite binary32 value `2^128 - 2^104` and what
rounds to it. -/
def F32.ofExact (q : ℚ) : F32 :=
  if 2 ^ 128 ≤ |q| then F32.inf (decide (q < 0)) else F32.fin q

/-- The product `a * b`; `0 * inf` is NaN. -/
def F32.mul : F32 → F32 → F32
  | F32.nan, _ => F32.nan
  | _, F32.nan => F32.nan
  | F32.fin a, F32.fin b => F32.ofExact (a * b)
  | F32.fin a, F32.inf s => if a = 0 then F32.nan else F32.inf (xor (decide (a < 0)) s)
  | F32.inf s, F32.fin b => if b = 0 then F32.nan else F32.inf (xor s (decide (b < 0)))
  | F32.inf s, F32.inf t => F32.inf (xor s t)

/-- The difference `a - b`; `inf - inf` of equal signs is NaN. -/
def F32.sub : F32 → F32 → F32
  | F32.nan, _ => F32.nan
  | _, F32.nan => F32.nan
  | F32.fin a, F32.fin b => F32.ofExact (a - b)
  | F32.fin _, F32.inf t => F32.inf (!t)
  | F32.inf s, F32.fin _ => F32.inf s
  | F32.inf s, F32.inf t => if s = t then F32.nan else F32.inf s

/-- Unary minus. -/
def F32.neg : F32 → F32
  | F32.fin a => F32.fin (-a)
  | F32.inf s => F32.inf (!s)
  | F32.nan => F32.nan

/-- `fabsf`. -/
def F32.fabsf : F32 → F32
  | F32.fin a => F32.fin |a|
  | F32.inf _ => F32.inf false
  | F32.nan => F32.nan

/-- `sqrtf`, by `ratSqrt` on a finite non-negative value. -/
def F32.sqrtf : F32 → F32
  | F32.fin a => if a < 0 then F32.nan else F32.fin (ratSqrt a)
  | F32.inf false => F32.inf false
  | F32.inf true => F32.nan
  | F32.nan => F32.nan

/-- The test `0. == w`: false for NaN and the infinities. -/
def F32.isZero : F32 → Bool
  | F32.fin a => decide (a = 0)
  | _ => false

/-- The test `a > b`: false as soon as one side is NaN. -/
def F32.gt : F32 → F32 → Bool
  | F32.nan, _ => false
  | _, F32.nan => false
  | F32.fin a, F32.fin b => decide (a > b)
  | F32.fin _, F32.inf t => t
  | F32.inf s, F32.fin _ => !s
  | F32.inf s, F32.inf t => !s && t

/-- The loop of lines 101-112 over `F32`, from counter `i` on with `fuel` turns left (the
whole loop is `fuel = N`, `i = 0`); `none` is the `return CUDART_INF_F` of line 106. -/
def initLayersF32 (neff k0 : F32) (r n : Nat → F32) (N : Nat) :
    Nat → Nat → (Nat → F32) → (Nat → F32) → Option ((Nat → F32) × (Nat → F32))
  | 0, _, w, u => some (w, u)
  | fuel + 1, i, w, u =>
    if i < N then
      let wi := F32.sqrtf (F32.fabsf (F32.sub (F32.mul (n i) (n i)) (F32.mul neff neff)))
      if F32.isZero wi then none
      else
        let u1 := Function.update u i
          (F32.mul (F32.mul k0 (r (if i + 1 = N then usub i 1 else i))) wi)
        let w1 :=
          if F32.gt neff (n i) then Function.update w i (F32.neg wi)
          else Function.update w i wi
        initLayersF32 neff k0 r n N fuel (i + 1) w1 u1
    else some (w, u)

/-- The value `2^65`, about `3.7e19`: a finite binary32 value whose square is not one. -/
def refHuge : ℚ := 2 ^ 65

/-- A two-layer stack whose core index is `refHuge`. -/
def refHugeIndex : Nat → F32 := fun i => if i = 0 then F32.fin refHuge else F32.fin 1

/-- The layer indices `refIndex` as binary32 values. -/
def refIndexF32 : Nat → F32 := fun i => F32.fin (refIndex i)

/-! ## Shared memory: reads after a committed phase -/

section Memory

variable {α : Type}

theorem length_commit (ws : List (Nat × α)) (ab : List α) :
    (commit ws ab).length = ab.length := by
  unfold commit
  induction ws generalizing ab with
  | nil => rfl
  | cons w ws ih => simp [List.foldl_cons, ih]

theorem mem_threads (bd t : Dim3) :
    t ∈ threads bd ↔ t.x < bd.x ∧ t.y < bd.y ∧ t.z < bd.z := by
  unfold threads
  simp only [List.mem_flatMap, List.mem_map, List.mem_range]
  constructor
  · rintro ⟨z, hz, y, hy, x, hx, rfl⟩
    exact ⟨hx, hy, hz⟩
  · rintro ⟨hx, hy, hz⟩
    exact ⟨t.z, hz, t.y, hy, t.x, hx, rfl⟩

theorem length_phase (bd : Dim3) (code : Dim3 → List (Nat × α)) (ab : List α) :
    (phase bd code ab).length = ab.length := by
  unfold phase
  exact length_commit _ _

variable [Zero α]

theorem ld_set (l : List α) (i k : Nat) (v : α) :
    ld (l.set i v) k = if i = k ∧ i < l.length then v else ld l k := by
  unfold ld
  simp only [List.getD_eq_getElem?_getD, List.getElem?_set]
  by_cases h1 : i = k
  · by_cases h2 : i < l.length
    · subst h1
      simp [h2]
    · subst h1
      simp [h2, List.getElem?_eq_none (Nat.le_of_not_lt h2)]
  · simp [h1]

theorem ld_commit_of_not_mem (ws : List (Nat × α)) (ab : List α) (k : Nat)
    (h : ∀ w ∈ ws, w.1 ≠ k) : ld (commit ws ab) k = ld ab k := by
  unfold commit
  induction ws generalizing ab with
  | nil => rfl
  | cons w ws ih =>
    rw [List.foldl_cons, ih _ (fun w1 hw1 => h w1 (List.mem_cons_of_mem _ hw1)), ld_set]
    have := h w (List.mem_cons_self _ _)
    simp [this]

theorem ld_commit_of_mem (ws : List (Nat × α)) (ab : List α) (k : Nat) (v : α)
    (hk : k < ab.length) (hex : ∃ w ∈ ws, w.1 = k)
    (hall : ∀ w ∈ ws, w.1 = k → w.2 = v) : ld (commit ws ab) k = v := by
  induction ws generalizing ab with
  | nil => simp at hex
  | cons w ws ih =>
    have hstep : commit (w :: ws) ab = commit ws (ab.set w.1 w.2) := rfl
    rw [hstep]
    by_cases hlater : ∃ w1 ∈ ws, w1.1 = k
    · exact ih _ (by simpa using hk) hlater
        (fun w1 hw1 => hall w1 (List.mem_cons_of_mem _ hw1))
    · have hnone : ∀ w1 ∈ ws, w1.1 ≠ k := fun w1 hw1 he => hlater ⟨w1, hw1, he⟩
      rw [ld_commit_of_not_mem _ _ _ hnone, ld_set]
      obtain ⟨w0, hw0, hw0k⟩ := hex
      rcases List.mem_cons.mp hw0 with h0 | h0
      · subst h0
        have hv := hall w0 (List.mem_cons_self _ _) hw0k
        simp [hw0k, hk, hv]
      · exact absurd hw0k (hnone w0 h0)

/-- In a phase where every thread stores to its own cell only, the cell of thread
`(x, y, z)` of a 5x4x2 block holds the value that thread stored, or its old value. -/
theorem ld_phase_own (f : Dim3 → Option α) (ab : List α) (hlen : 40 ≤ ab.length)
    (x y z : Nat) (hx : x < 5) (hy : y < 4) (hz : z < 2) :
    ld (phase bd542 (fun tid => own bd542 tid (f tid)) ab) (20 * z + 5 * y + x)
      = (f ⟨x, y, z⟩).getD (ld ab (20 * z + 5 * y + x)) := by
  unfold phase
  have hinj : ∀ t : Dim3, t ∈ threads bd542 → IDX bd542 t = 20 * z + 5 * y + x →
      t = ⟨x, y, z⟩ := by
    intro t ht hidx
    rw [mem_threads] at ht
    obtain ⟨tx, ty, tz⟩ := t
    simp only [bd542, IDX] at ht hidx
    simp only [Dim3.mk.injEq]
    omega
  cases hf : f ⟨x, y, z⟩ with
  | none =>
    rw [ld_commit_of_not_mem]
    · simp
    · intro w hw hk
      rw [List.mem_flatMap] at hw
      obtain ⟨t, ht, hwt⟩ := hw
      cases hft : f t with
      | none => simp [own, hft] at hwt
      | some a =>
        simp only [own, hft, List.mem_singleton] at hwt
        subst hwt
        have := hinj t ht hk
        subst this
        rw [hf] at hft
        cases hft
  | some a =>
    rw [ld_commit_of_mem _ _ _ a (by omega)]
    · simp
    · refine ⟨(IDX bd542 ⟨x, y, z⟩, a), ?_, ?_⟩
      · rw [List.mem_flatMap]
        refine ⟨⟨x, y, z⟩, ?_, by simp [own, hf]⟩
        rw [mem_threads]
        exact ⟨hx, hy, hz⟩
      · simp only [bd542, IDX]
    · intro w hw hk
      rw [List.mem_flatMap] at hw
      obtain ⟨t, ht, hwt⟩ := hw
      cases hft : f t with
      | none => simp [own, hft] at hwt
      | some b =>
        simp only [own, hft, List.mem_singleton] at hwt
        subst hwt
        have := hinj t ht hk
        subst this
        rw [hf] at hft
        cases hft
        rfl

end Memory

/-! ## `besseldiff.c`, `knf.c`, `ivf.c` -/

section Special

variable {α : Type} [LinearOrderedField α]

/-- Claim C6.  The derivative functions of `besseldiff.c` are the recurrences on the
neighbouring orders: at order 0, `jnp = -jnf 1`, `ynp = -ynf 1`, `ivp = ivf 1`,
`knp = -knf 1`; at every order `n > 0`, `jnp n = (jnf (n-1) - jnf (n+1)) / 2`, the same
for `ynp`, `ivp n = (ivf (n-1) + ivf (n+1)) / 2` and
`knp n = -(knf (n-1) + knf (n+1)) / 2`, for every argument `z` and whatever the four
base evaluators are. -/
theorem besseldiff_recurrences (B : Bessel α) (z : α) :
    (jnp B 0 z = -B.jnf 1 z ∧ ynp B 0 z = -B.ynf 1 z ∧
      ivp B 0 z = B.ivf 1 z ∧ knp B 0 z = -B.knf 1 z) ∧
    ∀ n : Int, 0 < n →
      jnp B n z = (B.jnf (n - 1) z - B.jnf (n + 1) z) / 2 ∧
      ynp B n z = (B.ynf (n - 1) z - B.ynf (n + 1) z) / 2 ∧
      ivp B n z = (B.ivf ((n : α) - 1) z + B.ivf ((n : α) + 1) z) / 2 ∧
      knp B n z = -(B.knf (n - 1) z + B.knf (n + 1) z) / 2 := by
  refine ⟨⟨by simp [jnp], by simp [ynp], by simp [ivp], by simp [knp]⟩, ?_⟩
  intro n hn
  have h0 : ¬ (0 = n) := fun h => by omega
  refine ⟨by simp [jnp, h0], by simp [ynp, h0], ?_, by simp [knp, h0]⟩
  simp only [ivp, h0, if_false]
  push_cast
  rfl

/-- Claim C7.  `knf(nn, x)` returns `MAXNUMF` whenever `x <= 0` and whenever
`|nn| > 31`, for every amount of loop fuel (also none): neither series is entered. -/
theorem knf_sentinel (R : Runtime α) (fuel : Nat) (nn : Int) (x : α)
    (h : x ≤ 0 ∨ |nn| > 31) : knf R fuel nn x = some R.MAXNUMF := by
  unfold knf
  have habs : (if nn < 0 then -nn else nn) = |nn| := by
    split_ifs with h0
    · exact (abs_of_neg h0).symm
    · exact (abs_of_nonneg (not_lt.mp h0)).symm
  simp only [habs, MAXFAC]
  rcases h with hx | hn
  · split_ifs <;> rfl
  · simp [hn]

/-- Witness of `knf_sentinel`: order -40 at `x = 1/2`, no fuel. -/
theorem knf_sentinel_witness :
    ((1 / 2 : ℚ) ≤ 0 ∨ |(-40 : Int)| > 31) ∧
      knf refRuntime 0 (-40) (1 / 2 : ℚ) = some refRuntime.MAXNUMF :=
  ⟨Or.inr (by decide), knf_sentinel refRuntime 0 (-40) (1 / 2) (Or.inr (by decide))⟩

variable [FloorRing α]

/-- Claim C8 fails at a negative integer order: `ivf(-1, 0)` is 0, not `MAXNUMF`. -/
theorem ivf_zero_negative_integer_order :
    ivf refRuntime refHypergf (-1) 0 = 0 ∧ refRuntime.MAXNUMF ≠ 0 := by
  constructor
  · have hfl : floorf (-1 : ℚ) = -1 := by
      unfold floorf
      norm_num
    simp [ivf, hfl]
  · norm_num [refRuntime]

/-- Claim C8, amended.  At `x = 0` and a negative order `v`: `ivf(v, 0)` is `MAXNUMF`
when `v` is not an integer, and 0 when `v` is an integer (the order is first replaced
by `-v`). -/
theorem ivf_zero_negative_order (R : Runtime α) (hypergf : α → α → α → α) (v : α)
    (hv : v < 0) :
    ivf R hypergf v 0 = if floorf v = v then 0 else R.MAXNUMF := by
  unfold ivf
  by_cases hint : floorf v = v
  · have h1 : ¬ (-v < 0) := by linarith
    have h2 : ¬ (-v = 0) := by
      intro h
      linarith
    simp [hv, hint, h1, h2]
  · have h2 : ¬ (v = 0) := ne_of_lt hv
    simp [hv, hint, h2]

/-- Witness of `ivf_zero_negative_order`: the non-integer order -1/2. -/
theorem ivf_zero_negative_order_witness :
    (-1 / 2 : ℚ) < 0 ∧
      ivf refRuntime refHypergf (-1 / 2) 0
        = if floorf (-1 / 2 : ℚ) = -1 / 2 then 0 else refRuntime.MAXNUMF :=
  ⟨by norm_num, ivf_zero_negative_order refRuntime refHypergf (-1 / 2) (by norm_num)⟩

/-- Claim C9.  `ivf(0, 0) = 1`, and `ivf(v, 0) = 0` for every order `v > 0`. -/
theorem ivf_zero_arg (R : Runtime α) (hypergf : α → α → α → α) :
    ivf R hypergf 0 0 = 1 ∧ ∀ v : α, 0 < v → ivf R hypergf v 0 = 0 := by
  constructor
  · simp [ivf, floorf]
  · intro v hv
    have h1 : ¬ (v < 0) := not_lt.mpr hv.le
    have h2 : ¬ (v = 0) := ne_of_gt hv
    simp [ivf, h1, h2]

/-- Claim C10.  For `x < 0` and a non-integer order `v`, `ivf(v, x)` is 0, whatever
`hypergf` is: the hypergeometric evaluator is not consulted. -/
theorem ivf_negative_arg_noninteger (R : Runtime α) (hypergf : α → α → α → α) (v x : α)
    (hx : x < 0) (hv : floorf v ≠ v) : ivf R hypergf v x = 0 := by
  unfold ivf
  by_cases h0 : v < 0
  · simp [h0, hv, hx]
  · simp [h0, hv, hx]

/-- Witness of `ivf_negative_arg_noninteger`: order 1/2 at `x = -1`. -/
theorem ivf_negative_arg_noninteger_witness :
    (-1 : ℚ) < 0 ∧ floorf (1 / 2 : ℚ) ≠ 1 / 2 ∧ ivf refRuntime refHypergf (1 / 2) (-1) = 0 :=
  ⟨by norm_num, by norm_num [floorf],
    ivf_negative_arg_noninteger refRuntime refHypergf (1 / 2) (-1) (by norm_num)
      (by norm_num [floorf])⟩

end Special

/-! ## `_chareq`: the initialisation loop -/

section Init

variable {α : Type} [LinearOrderedField α]

theorem usub_one (i : Nat) (h1 : 1 ≤ i) (h2 : i < 2 ^ 32) : usub i 1 = i - 1 := by
  unfold usub
  omega

/-- The loop returns early as soon as some layer at or after the counter has `w = 0`. -/
theorem initLayers_none (R : Runtime α) (neff k0 : α) (r n : Nat → α) (N j : Nat)
    (hj : j < N) (hz : R.sqrtf |n j * n j - neff * neff| = 0) :
    ∀ (d i : Nat) (w u : Nat → α), i + d = j →
      initLayers R neff k0 r n N i w u = none := by
  intro d
  induction d with
  | zero =>
    intro i w u hij
    have hi : i = j := by omega
    subst hi
    rw [initLayers]
    simp [hj, hz]
  | succ d ih =>
    intro i w u hij
    rw [initLayers]
    have hi : i < N := by omega
    simp only [hi, if_true]
    split_ifs <;> first | rfl | exact ih (i + 1) _ _ (by omega)

/-- When no layer has `w = 0` the loop runs to the end; it leaves the entries below the
counter alone and sets those from the counter up to `N`. -/
theorem initLayers_some (R : Runtime α) (neff k0 : α) (r n : Nat → α) (N : Nat)
    (hnz : ∀ j, j < N → R.sqrtf |n j * n j - neff * neff| ≠ 0) :
    ∀ (d i : Nat) (w u : Nat → α), i + d = N →
      ∃ w1 u1, initLayers R neff k0 r n N i w u = some (w1, u1) ∧
        (∀ j, j < i → w1 j = w j ∧ u1 j = u j) ∧
        (∀ j, i ≤ j → j < N →
          w1 j = (if neff > n j then -R.sqrtf |n j * n j - neff * neff|
            else R.sqrtf |n j * n j - neff * neff|) ∧
          u1 j = k0 * r (if j + 1 = N then usub j 1 else j)
            * R.sqrtf |n j * n j - neff * neff|) := by
  intro d
  induction d with
  | zero =>
    intro i w u hid
    refine ⟨w, u, ?_, fun j _ => ⟨rfl, rfl⟩, fun j h1 h2 => by omega⟩
    rw [initLayers]
    simp [show ¬ (i < N) by omega]
  | succ d ih =>
    intro i w u hid
    have hi : i < N := by omega
    have hwi : ¬ (0 = R.sqrtf |n i * n i - neff * neff|) := fun h => hnz i hi h.symm
    obtain ⟨w1, u1, hrun, hlow, hhigh⟩ := ih (i + 1)
      (if neff > n i then Function.update w i (-R.sqrtf |n i * n i - neff * neff|)
        else Function.update w i (R.sqrtf |n i * n i - neff * neff|))
      (Function.update u i (k0 * r (if i + 1 = N then usub i 1 else i)
        * R.sqrtf |n i * n i - neff * neff|)) (by omega)
    refine ⟨w1, u1, ?_, ?_, ?_⟩
    · rw [initLayers]
      simp only [hi, if_true, hwi, if_false]
      exact hrun
    · intro j hj
      obtain ⟨h1, h2⟩ := hlow j (by omega)
      have hne : j ≠ i := by omega
      constructor
      · rw [h1]
        split_ifs <;> simp [Function.update_noteq hne]
      · rw [h2]
        simp [Function.update_noteq hne]
    · intro j hij hjN
      rcases Nat.eq_or_lt_of_le hij with heq | hlt
      · subst heq
        obtain ⟨h1, h2⟩ := hlow i (by omega)
        constructor
        · rw [h1]
          split_ifs <;> simp
        · rw [h2]
          simp
      · exact hhigh j (by omega) hjN

/-- Over exact arithmetic, for every layer count `N`: when the candidate index `neff`
equals the index `n[i]` of a layer `i < N` (and `sqrtf(0) = 0`), `_chareq` returns
`CUDART_INF_F` and the shared array is the one it was given: no boundary entry has been
stored and `solve` has not run. -/
theorem chareq_degenerate (R : Runtime α) (B : Bessel α) (bd : Dim3) (U : Uninit α)
    (ab : List α) (neff k0 : α) (r n : Nat → α) (N nu i : Nat)
    (hi : i < N) (hneff : neff = n i) (hsqrt : R.sqrtf 0 = 0) :
    _chareq R B bd U ab neff k0 r n N nu = ⟨R.CUDART_INF_F, ab⟩ := by
  have hz : R.sqrtf |n i * n i - neff * neff| = 0 := by
    rw [hneff, sub_self, abs_zero, hsqrt]
  unfold _chareq
  rw [initLayers_none R neff k0 r n N i hi hz i 0 U.w U.u (by omega)]

theorem refSqrt_144 : refRuntime.sqrtf 144 = 12 := by
  have h144 : natSqrtAux 144 144 = 12 := by decide
  have h1 : natSqrtAux 1 1 = 1 := by decide
  have hn144 : (144 : ℚ).num = 144 := rfl
  have hd144 : (144 : ℚ).den = 1 := rfl
  simp [refRuntime, ratSqrt, hn144, hd144, h144, h1]

theorem refSqrt_16 : refRuntime.sqrtf 16 = 4 := by
  have h16 : natSqrtAux 16 16 = 4 := by decide
  have h1 : natSqrtAux 1 1 = 1 := by decide
  have hn16 : (16 : ℚ).num = 16 := rfl
  have hd16 : (16 : ℚ).den = 1 := rfl
  simp [refRuntime, ratSqrt, hn16, hd16, h16, h1]

theorem refSqrt_core :
    refRuntime.sqrtf |refIndex 0 * refIndex 0 - 5 * 5| = 12 := by
  have e0 : |refIndex 0 * refIndex 0 - 5 * 5| = 144 := by norm_num [refIndex]
  rw [e0, refSqrt_144]

theorem refSqrt_cladding :
    refRuntime.sqrtf |refIndex 1 * refIndex 1 - 5 * 5| = 4 := by
  have e1 : |refIndex 1 * refIndex 1 - 5 * 5| = 16 := by norm_num [refIndex, abs_of_neg]
  rw [e1, refSqrt_16]

theorem refSqrt_zero : refRuntime.sqrtf 0 = 0 := by
  simp [refRuntime, ratSqrt, natSqrtAux]

theorem refLayers_nonzero :
    ∀ j, j < 2 → refRuntime.sqrtf |refIndex j * refIndex j - 5 * 5| ≠ 0 := by
  intro j hj
  interval_cases j
  · rw [refSqrt_core]
    norm_num
  · rw [refSqrt_cladding]
    norm_num

/-- An instance of `chareq_degenerate`: the candidate index 3 is the cladding index of the
two-layer fibre `refIndex`. -/
theorem chareq_degenerate_witness :
    (1 < 2 ∧ (3 : ℚ) = refIndex 1 ∧ refRuntime.sqrtf 0 = 0) ∧
      _chareq refRuntime refBessel bd542 refUninit (List.replicate 40 0) 3 1 refRadius
        refIndex 2 0 = ⟨refRuntime.CUDART_INF_F, List.replicate 40 0⟩ :=
  ⟨⟨by norm_num, by norm_num [refIndex], refSqrt_zero⟩,
    chareq_degenerate refRuntime refBessel bd542 refUninit (List.replicate 40 0) 3 1
      refRadius refIndex 2 0 1 (by norm_num) (by norm_num [refIndex]) refSqrt_zero⟩

/-- Claim C5 fails as stated: with `n = [13, 3]`, `neff = 5`, `k0 = 1`, `r[0] = 1` the
loop leaves `w[1] = -4` but `u[1] = 4`, which is not `k0 * r[0] * w[1] = -4`. -/
theorem initLayers_u_unsigned :
    (initLayers refRuntime 5 1 refRadius refIndex 2 0
        refUninit.w refUninit.u).map (fun p => (p.1 1, p.2 1)) = some ((-4 : ℚ), (4 : ℚ)) ∧
      (4 : ℚ) ≠ 1 * refRadius 0 * (-4) := by
  obtain ⟨w, u, hrun, _, hhigh⟩ := initLayers_some refRuntime 5 1 refRadius refIndex 2
    refLayers_nonzero 2 0 refUninit.w refUninit.u (by norm_num)
  obtain ⟨hw, hu⟩ := hhigh 1 (by norm_num) (by norm_num)
  rw [refSqrt_cladding] at hw hu
  refine ⟨?_, by norm_num [refRadius]⟩
  rw [hrun]
  simp only [Option.map_some', hw, hu]
  norm_num [refRadius, refIndex]

/-- Claim C5, amended.  For `N >= 2` and a query that is not short-circuited (no layer has
`sqrtf(|n_i^2 - neff^2|) = 0`) the initialisation loop ends, and then every layer `i` has
`w[i] = sqrtf(|n_i^2 - neff^2|)`, negated when `neff > n_i`, and
`u[i] = k0 * r_i * sqrtf(|n_i^2 - neff^2|)`, computed from the magnitude before the sign
adjustment, with `r_{N-2}` in place of `r_i` for the outermost layer `i = N-1`. -/
theorem initLayers_spec (R : Runtime α) (neff k0 : α) (r n : Nat → α) (N : Nat)
    (w0 u0 : Nat → α) (hN : 2 ≤ N) (h32 : N < 2 ^ 32)
    (hnz : ∀ j, j < N → R.sqrtf |n j * n j - neff * neff| ≠ 0) :
    ∃ w u, initLayers R neff k0 r n N 0 w0 u0 = some (w, u) ∧
      ∀ i, i < N →
        w i = (if neff > n i then -R.sqrtf |n i * n i - neff * neff|
          else R.sqrtf |n i * n i - neff * neff|) ∧
        u i = k0 * r (if i = N - 1 then N - 2 else i) * R.sqrtf |n i * n i - neff * neff| := by
  obtain ⟨w, u, hrun, _, hhigh⟩ := initLayers_some R neff k0 r n N hnz N 0 w0 u0 (by omega)
  refine ⟨w, u, hrun, ?_⟩
  intro i hi
  obtain ⟨h1, h2⟩ := hhigh i (by omega) hi
  refine ⟨h1, ?_⟩
  rw [h2]
  by_cases hlast : i + 1 = N
  · have h3 : i = N - 1 := by omega
    have h4 : usub i 1 = N - 2 := by
      rw [usub_one i (by omega) (by omega)]
      omega
    rw [if_pos hlast, if_pos h3, h4]
  · have h3 : ¬ (i = N - 1) := by omega
    rw [if_neg hlast, if_neg h3]

/-- Witness of `initLayers_spec`: the two-layer fibre `refIndex` at `neff = 5`. -/
theorem initLayers_spec_witness :
    ((2 ≤ 2) ∧ (2 < 2 ^ 32) ∧
        ∀ j, j < 2 → refRuntime.sqrtf |refIndex j * refIndex j - 5 * 5| ≠ 0) ∧
      ∃ w u, initLayers refRuntime 5 1 refRadius refIndex 2 0 refUninit.w refUninit.u
          = some (w, u) ∧
        ∀ i, i < 2 →
          w i = (if (5 : ℚ) > refIndex i
            then -refRuntime.sqrtf |refIndex i * refIndex i - 5 * 5|
            else refRuntime.sqrtf |refIndex i * refIndex i - 5 * 5|) ∧
          u i = 1 * refRadius (if i = 2 - 1 then 2 - 2 else i)
            * refRuntime.sqrtf |refIndex i * refIndex i - 5 * 5| :=
  ⟨⟨le_refl 2, by norm_num, refLayers_nonzero⟩,
    initLayers_spec refRuntime 5 1 refRadius refIndex 2 refUninit.w refUninit.u (le_refl 2)
      (by norm_num) refLayers_nonzero⟩

end Init

/-! ## `_chareq`: two layers, guided regime -/

section TwoLayer

variable {α : Type} [LinearOrderedField α]

/-- `ld_phase_own` for a cell given by its address. -/
theorem ld_phase_own_cell (f : Dim3 → Option α) (ab : List α) (hlen : 40 ≤ ab.length)
    (k : Nat) (hk : k < 40) :
    ld (phase bd542 (fun tid => own bd542 tid (f tid)) ab) k
      = (f ⟨k % 5, k / 5 % 4, k / 20⟩).getD (ld ab k) := by
  have h := ld_phase_own f ab hlen (k % 5) (k / 5 % 4) (k / 20) (by omega) (by omega)
    (by omega)
  have hk2 : 20 * (k / 20) + 5 * (k / 5 % 4) + k % 5 = k := by omega
  rw [hk2] at h
  exact h

theorem ETA0_ne_zero : (ETA0 : α) ≠ 0 := by
  unfold ETA0
  norm_num

/-- With two layers the loop over the intermediate layers does not run: the counter
stays 1. -/
theorem layerLoop_two (R : Runtime α) (B : Bessel α) (bd : Dim3) (U : Uninit α) (neff : α)
    (r n w u : Nat → α) (nu : Nat) (ab : List α) (x : Nat → α) :
    layerLoop R B bd U neff r n w u 2 nu ⟨1, ab, x⟩ = ⟨1, ab, x⟩ := by
  have h : usub 2 1 - 1 = 0 := by
    unfold usub
    norm_num
  unfold layerLoop
  simp only [h]
  rfl

/-- The loop equation of `layerLoop`: the body runs while `i < N-1`. -/
theorem layerLoop_eq (R : Runtime α) (B : Bessel α) (bd : Dim3) (U : Uninit α) (neff : α)
    (r n w u : Nat → α) (N nu : Nat) (st : LayerState α) :
    layerLoop R B bd U neff r n w u N nu st =
      if st.i < usub N 1 then
        layerLoop R B bd U neff r n w u N nu
          ⟨st.i + 1,
            phase bd (fun tid => own bd tid (getEH B bd neff n w u nu st.i
              (solve bd (U.pidx st.i) st.x
                (phase bd (fun tid => own bd tid (fillMatrix B neff r n w u nu st.i tid))
                  st.ab)).x tid))
              (solve bd (U.pidx st.i) st.x
                (phase bd (fun tid => own bd tid (fillMatrix B neff r n w u nu st.i tid))
                  st.ab)).ab,
            (solve bd (U.pidx st.i) st.x
              (phase bd (fun tid => own bd tid (fillMatrix B neff r n w u nu st.i tid))
                st.ab)).x⟩
      else st := by
  unfold layerLoop
  by_cases h : st.i < usub N 1
  · obtain ⟨d, hd⟩ : ∃ d, usub N 1 - st.i = d + 1 := ⟨usub N 1 - st.i - 1, by omega⟩
    have hd2 : usub N 1 - (st.i + 1) = d := by omega
    simp only [hd, hd2, layerLoopFrom, h, if_true]
  · have h0 : usub N 1 - st.i = 0 := by omega
    simp only [h0, layerLoopFrom, h, if_false]

/-- The algebra behind claim C4: the 2x2 determinant of the four boundary entries is the
product of the TE and TM factors minus the squared azimuthal coupling. -/
theorem two_layer_algebra (neff c k0 r0 s0 s1 t P Q η n0 n1 : α)
    (hk0 : k0 ≠ 0) (hr0 : r0 ≠ 0) (hs0 : s0 ≠ 0) (hs1 : s1 ≠ 0) (ht : t ≠ 0) (hη : η ≠ 0) :
    (neff * c / (k0 * r0 * s0 * s0) - neff * c / (k0 * r0 * s1 * t))
          * (-(neff * c) / (k0 * r0 * s0 * s0) + neff * c / (k0 * r0 * s1 * t))
        - (-(P * η) / s0 + η / t * Q) * (P * n0 * n0 / (η * s0) - n1 * n1 / (η * t) * Q)
      = (P / s0 - Q / t) * (n0 ^ 2 * P / s0 - n1 ^ 2 * Q / t)
        - (neff * c) ^ 2 * (1 / (k0 * r0 * s0 * s0) - 1 / (k0 * r0 * s1 * t)) ^ 2 := by
  field_simp
  ring

/-- Claim C4.  For a two-layer guided query (`N = 2`, `0 < n[1] < neff < n[0]`, a 5x4x2
block on 40 shared cells) over exact arithmetic with nonzero denominators, `_chareq`
returns `(P/w0 - Q/w1) * (n0^2*P/w0 - n1^2*Q/w1) - (neff*nu)^2 * (1/(u0*w0) - 1/(u1*w1))^2`
(`stepResidual`); for `nu = 0` this is the product of the TE and TM factors and it is zero
exactly when one of them is. -/
theorem chareq_two_layer_guided (R : Runtime α) (B : Bessel α) (U : Uninit α)
    (ab : List α) (neff k0 : α) (r n : Nat → α) (nu : Nat)
    (hlen : 40 ≤ ab.length)
    (hclad : n 1 < neff) (hcore : neff < n 0) (hpos : 0 < n 1)
    (hsq : 0 ≤ R.sqrtf (neff ^ 2 - n 1 ^ 2))
    (hu0 : stepU0 R neff k0 (r 0) (n 0) ≠ 0)
    (hu1 : stepU1 R neff k0 (r 0) (n 1) ≠ 0)
    (hJ : B.jnf (intOfUnsigned nu) (stepU0 R neff k0 (r 0) (n 0)) ≠ 0)
    (hK : B.knf (intOfUnsigned nu) (stepU1 R neff k0 (r 0) (n 1)) ≠ 0) :
    (_chareq R B bd542 U ab neff k0 r n 2 nu).ret
        = stepResidual R B neff k0 (r 0) (n 0) (n 1) nu ∧
      (nu = 0 →
        (_chareq R B bd542 U ab neff k0 r n 2 nu).ret
            = stepTE R B neff k0 (r 0) (n 0) (n 1) nu * stepTM R B neff k0 (r 0) (n 0) (n 1) nu ∧
          ((_chareq R B bd542 U ab neff k0 r n 2 nu).ret = 0 ↔
            stepTE R B neff k0 (r 0) (n 0) (n 1) nu = 0 ∨
              stepTM R B neff k0 (r 0) (n 0) (n 1) nu = 0)) := by
  have hneff : 0 < neff := lt_trans hpos hclad
  have e0 : |n 0 * n 0 - neff * neff| = n 0 ^ 2 - neff ^ 2 := by
    rw [abs_of_nonneg (by nlinarith)]
    ring
  have e1 : |n 1 * n 1 - neff * neff| = neff ^ 2 - n 1 ^ 2 := by
    rw [abs_of_neg (by nlinarith)]
    ring
  have hw1abs : |stepW1 R neff (n 1)| = R.sqrtf (neff ^ 2 - n 1 ^ 2) := by
    unfold stepW1
    rw [abs_neg, abs_of_nonneg hsq]
  have hs0 : R.sqrtf (n 0 ^ 2 - neff ^ 2) ≠ 0 := by
    intro h
    apply hu0
    simp [stepU0, stepW0, h]
  have hs1 : R.sqrtf (neff ^ 2 - n 1 ^ 2) ≠ 0 := by
    intro h
    apply hu1
    simp [stepU1, stepW1, h]
  have hnz : ∀ j, j < 2 → R.sqrtf |n j * n j - neff * neff| ≠ 0 := by
    intro j hj
    interval_cases j
    · rw [e0]
      exact hs0
    · rw [e1]
      exact hs1
  obtain ⟨w, u, hrun, _, hhigh⟩ :=
    initLayers_some R neff k0 r n 2 hnz 2 0 U.w U.u (by norm_num)
  obtain ⟨hw0, hu0v⟩ := hhigh 0 (by norm_num) (by norm_num)
  obtain ⟨hw1, hu1v⟩ := hhigh 1 (by norm_num) (by norm_num)
  have husub : usub 1 1 = 0 := by
    unfold usub
    norm_num
  have hu2 : usub 2 1 = 1 := by
    unfold usub
    norm_num
  rw [e0, if_neg (not_lt.mpr hcore.le)] at hw0
  rw [e0, if_neg (by norm_num)] at hu0v
  rw [e1, if_pos hclad] at hw1
  rw [e1, if_pos (by norm_num), husub] at hu1v
  have hres : (_chareq R B bd542 U ab neff k0 r n 2 nu).ret
      = stepResidual R B neff k0 (r 0) (n 0) (n 1) nu := by
    unfold _chareq
    rw [hrun]
    simp only [layerLoop_two]
    have hlen1 : 40 ≤ (phase bd542 (fun tid => own bd542 tid (firstLayer B neff n w u nu tid))
        ab).length := by
      rw [length_phase]
      exact hlen
    have hb : bd542.x = 5 ∧ bd542.y = 4 := ⟨rfl, rfl⟩
    simp only [hb.1, hb.2]
    rw [ld_phase_own_cell _ _ hlen1 _ (by norm_num), ld_phase_own_cell _ _ hlen1 _ (by norm_num),
      ld_phase_own_cell _ _ hlen1 _ (by norm_num), ld_phase_own_cell _ _ hlen1 _ (by norm_num)]
    have hn1 : ¬ (neff < n 1) := not_lt.mpr hclad.le
    simp only [lastLayer, hn1, if_false, hu2, IDX, IJ, hb.1, hb.2]
    norm_num
    rw [ld_phase_own_cell _ _ hlen _ (by norm_num), ld_phase_own_cell _ _ hlen _ (by norm_num),
      ld_phase_own_cell _ _ hlen _ (by norm_num), ld_phase_own_cell _ _ hlen _ (by norm_num),
      ld_phase_own_cell _ _ hlen _ (by norm_num), ld_phase_own_cell _ _ hlen _ (by norm_num),
      ld_phase_own_cell _ _ hlen _ (by norm_num), ld_phase_own_cell _ _ hlen _ (by norm_num)]
    simp only [firstLayer, hcore]
    norm_num
    have hU0 : stepU0 R neff k0 (r 0) (n 0) = k0 * r 0 * R.sqrtf (n 0 ^ 2 - neff ^ 2) := rfl
    have hU1 : stepU1 R neff k0 (r 0) (n 1) = k0 * r 0 * R.sqrtf (neff ^ 2 - n 1 ^ 2) := by
      unfold stepU1
      rw [hw1abs]
    have hk0 : k0 ≠ 0 := by
      intro h
      apply hu0
      simp [stepU0, h]
    have hr0 : r 0 ≠ 0 := by
      intro h
      apply hu0
      simp [stepU0, h]
    have hη : (ETA0 : α) ≠ 0 := ETA0_ne_zero
    simp only [JP, KP, mul_one, div_one, stepResidual, stepTE, stepTM, stepP, stepQ, hU0, hU1,
      stepW0, stepW1, hu0v, hw0, hu1v, hw1]
    generalize jnp B (intOfUnsigned nu) (k0 * r 0 * R.sqrtf (n 0 ^ 2 - neff ^ 2))
      / B.jnf (intOfUnsigned nu) (k0 * r 0 * R.sqrtf (n 0 ^ 2 - neff ^ 2)) = P
    generalize knp B (intOfUnsigned nu) (k0 * r 0 * R.sqrtf (neff ^ 2 - n 1 ^ 2))
      / B.knf (intOfUnsigned nu) (k0 * r 0 * R.sqrtf (neff ^ 2 - n 1 ^ 2)) = Q
    exact two_layer_algebra neff (nu : α) k0 (r 0) _ _ _ P Q ETA0 (n 0) (n 1) hk0 hr0 hs0 hs1
      (neg_ne_zero.mpr hs1) hη
  refine ⟨hres, ?_⟩
  intro hnu
  have hprod : (_chareq R B bd542 U ab neff k0 r n 2 nu).ret
      = stepTE R B neff k0 (r 0) (n 0) (n 1) nu * stepTM R B neff k0 (r 0) (n 0) (n 1) nu := by
    rw [hres]
    unfold stepResidual
    subst hnu
    rw [Nat.cast_zero]
    ring
  refine ⟨hprod, ?_⟩
  rw [hprod]
  exact mul_eq_zero

theorem refStepU0 : stepU0 refRuntime 5 1 (refRadius 0) (refIndex 0) = 12 := by
  have e : (refIndex 0) ^ 2 - (5 : ℚ) ^ 2 = 144 := by norm_num [refIndex]
  unfold stepU0 stepW0
  rw [e, refSqrt_144]
  norm_num [refRadius]

theorem refStepW1 : refRuntime.sqrtf ((5 : ℚ) ^ 2 - (refIndex 1) ^ 2) = 4 := by
  have e : (5 : ℚ) ^ 2 - (refIndex 1) ^ 2 = 16 := by norm_num [refIndex]
  rw [e, refSqrt_16]

theorem refStepU1 : stepU1 refRuntime 5 1 (refRadius 0) (refIndex 1) = 4 := by
  unfold stepU1 stepW1
  rw [refStepW1]
  norm_num [refRadius]

/-- Witness of `chareq_two_layer_guided`: core index 13, cladding index 3, `neff = 5`,
`k0 = 1`, `r[0] = 1`, order 0. -/
theorem chareq_two_layer_guided_witness :
    (40 ≤ (List.replicate 40 (0 : ℚ)).length ∧ refIndex 1 < 5 ∧ 5 < refIndex 0 ∧
        0 < refIndex 1 ∧ 0 ≤ refRuntime.sqrtf ((5 : ℚ) ^ 2 - (refIndex 1) ^ 2) ∧
        stepU0 refRuntime 5 1 (refRadius 0) (refIndex 0) ≠ 0 ∧
        stepU1 refRuntime 5 1 (refRadius 0) (refIndex 1) ≠ 0 ∧
        refBessel.jnf (intOfUnsigned 0) (stepU0 refRuntime 5 1 (refRadius 0) (refIndex 0)) ≠ 0 ∧
        refBessel.knf (intOfUnsigned 0) (stepU1 refRuntime 5 1 (refRadius 0) (refIndex 1)) ≠ 0) ∧
      ((_chareq refRuntime refBessel bd542 refUninit (List.replicate 40 0) 5 1 refRadius
            refIndex 2 0).ret
          = stepResidual refRuntime refBessel 5 1 (refRadius 0) (refIndex 0) (refIndex 1) 0 ∧
        (0 = 0 →
          (_chareq refRuntime refBessel bd542 refUninit (List.replicate 40 0) 5 1 refRadius
              refIndex 2 0).ret
            = stepTE refRuntime refBessel 5 1 (refRadius 0) (refIndex 0) (refIndex 1) 0
              * stepTM refRuntime refBessel 5 1 (refRadius 0) (refIndex 0) (refIndex 1) 0 ∧
          ((_chareq refRuntime refBessel bd542 refUninit (List.replicate 40 0) 5 1 refRadius
              refIndex 2 0).ret = 0 ↔
            stepTE refRuntime refBessel 5 1 (refRadius 0) (refIndex 0) (refIndex 1) 0 = 0 ∨
              stepTM refRuntime refBessel 5 1 (refRadius 0) (refIndex 0) (refIndex 1) 0 = 0))) :=
  have h1 : refIndex 1 < 5 := by norm_num [refIndex]
  have h2 : (5 : ℚ) < refIndex 0 := by norm_num [refIndex]
  have h3 : 0 < refIndex 1 := by norm_num [refIndex]
  have h4 : 0 ≤ refRuntime.sqrtf ((5 : ℚ) ^ 2 - (refIndex 1) ^ 2) := by
    rw [refStepW1]
    norm_num
  have h5 : stepU0 refRuntime 5 1 (refRadius 0) (refIndex 0) ≠ 0 := by
    rw [refStepU0]
    norm_num
  have h6 : stepU1 refRuntime 5 1 (refRadius 0) (refIndex 1) ≠ 0 := by
    rw [refStepU1]
    norm_num
  have h7 : refBessel.jnf (intOfUnsigned 0)
      (stepU0 refRuntime 5 1 (refRadius 0) (refIndex 0)) ≠ 0 := by
    rw [refStepU0]
    norm_num [refBessel, intOfUnsigned]
  have h8 : refBessel.knf (intOfUnsigned 0)
      (stepU1 refRuntime 5 1 (refRadius 0) (refIndex 1)) ≠ 0 := by
    rw [refStepU1]
    norm_num [refBessel, intOfUnsigned]
  ⟨⟨le_of_eq (List.length_replicate 40 0).symm, h1, h2, h3, h4, h5, h6, h7, h8⟩,
    chareq_two_layer_guided refRuntime refBessel refUninit (List.replicate 40 0) 5 1
      refRadius refIndex 0 (le_of_eq (List.length_replicate 40 0).symm) h1 h2 h3 h4 h5 h6 h7 h8⟩

end TwoLayer

/-! ## `solve`: the pivot scan -/

section Scan

variable {α : Type} [LinearOrderedField α]

/-- The scan loop over a list of rows: the running maximum never decreases, bounds every
scanned entry, and the recorded row is either the initial one (nothing exceeded the
initial maximum) or a scanned row that attains the maximum. -/
theorem scan_fold (a : Nat → α) (l : List Nat) (t : α) (q : Nat) :
    t ≤ (l.foldl (fun (st : α × Nat) j => if |a j| > st.1 then (|a j|, j) else st) (t, q)).1 ∧
    (∀ j ∈ l, |a j| ≤
      (l.foldl (fun (st : α × Nat) j => if |a j| > st.1 then (|a j|, j) else st) (t, q)).1) ∧
    ((l.foldl (fun (st : α × Nat) j => if |a j| > st.1 then (|a j|, j) else st) (t, q))
        = (t, q) ∨
      ((l.foldl (fun (st : α × Nat) j => if |a j| > st.1 then (|a j|, j) else st) (t, q)).2 ∈ l ∧
        |a (l.foldl (fun (st : α × Nat) j => if |a j| > st.1 then (|a j|, j) else st) (t, q)).2|
          = (l.foldl (fun (st : α × Nat) j =>
              if |a j| > st.1 then (|a j|, j) else st) (t, q)).1 ∧
        t < (l.foldl (fun (st : α × Nat) j =>
              if |a j| > st.1 then (|a j|, j) else st) (t, q)).1)) := by
  induction l generalizing t q with
  | nil => simp
  | cons j l ih =>
    rw [List.foldl_cons]
    by_cases hgt : |a j| > t
    · simp only [hgt, if_true]
      obtain ⟨h1, h2, h3⟩ := ih (|a j|) j
      refine ⟨le_trans hgt.le h1, ?_, ?_⟩
      · intro k hk
        rcases List.mem_cons.mp hk with rfl | hk
        · exact h1
        · exact h2 k hk
      · right
        rcases h3 with h3 | ⟨h3, h4, h5⟩
        · rw [h3]
          exact ⟨List.mem_cons_self _ _, rfl, hgt⟩
        · exact ⟨List.mem_cons_of_mem _ h3, h4, lt_trans hgt h5⟩
    · simp only [hgt, if_false]
      obtain ⟨h1, h2, h3⟩ := ih t q
      refine ⟨h1, ?_, ?_⟩
      · intro k hk
        rcases List.mem_cons.mp hk with rfl | hk
        · exact le_trans (not_lt.mp hgt) h1
        · exact h2 k hk
      · rcases h3 with h3 | ⟨h3, h4, h5⟩
        · left
          exact h3
        · right
          exact ⟨List.mem_cons_of_mem _ h3, h4, h5⟩

/-- The running maximum does not depend on the initial row, and neither does the
recorded row once some entry has exceeded the initial maximum. -/
theorem scan_fold_indep (a : Nat → α) (l : List Nat) (t : α) (q q1 : Nat) :
    (l.foldl (fun (st : α × Nat) j => if |a j| > st.1 then (|a j|, j) else st) (t, q)).1
      = (l.foldl (fun (st : α × Nat) j => if |a j| > st.1 then (|a j|, j) else st) (t, q1)).1 ∧
    (t < (l.foldl (fun (st : α × Nat) j => if |a j| > st.1 then (|a j|, j) else st) (t, q)).1 →
      (l.foldl (fun (st : α × Nat) j => if |a j| > st.1 then (|a j|, j) else st) (t, q)).2
        = (l.foldl (fun (st : α × Nat) j =>
            if |a j| > st.1 then (|a j|, j) else st) (t, q1)).2) := by
  induction l generalizing t q q1 with
  | nil => simp
  | cons j l ih =>
    rw [List.foldl_cons, List.foldl_cons]
    by_cases hgt : |a j| > t
    · simp only [hgt, if_true]
      exact ⟨trivial, fun _ => trivial⟩
    · simp only [hgt, if_false]
      exact ih t q q1

/-- The pivot scan of pass `i` in family `z` of a 5x4x2 block, when column `i` has a
nonzero entry in rows `i..3`: every thread of the family records the same row `p`,
`i <= p <= 3`, whatever its local held before; the entry there is nonzero and of maximum
absolute value among rows `i..3`. -/
theorem pivotScan_spec (ab : List α) (i z : Nat) (hi : i < 4)
    (hnz : ∃ j, i ≤ j ∧ j < 4 ∧ cell ab z j i ≠ 0) :
    ∃ p, i ≤ p ∧ p < 4 ∧ cell ab z p i ≠ 0 ∧
      (∀ j, i ≤ j → j < 4 → |cell ab z j i| ≤ |cell ab z p i|) ∧
      ∀ (tid : Dim3) (q : Nat), tid.z = z → pivotScan bd542 tid ab i q = p := by
  obtain ⟨j0, hj0, hj0', hj0nz⟩ := hnz
  have hmem : ∀ j, j ∈ List.range' i (4 - i) ↔ i ≤ j ∧ j < 4 := by
    intro j
    rw [List.mem_range'_1]
    omega
  obtain ⟨_, h2, h3⟩ := scan_fold (fun j => cell ab z j i) (List.range' i (4 - i)) 0 0
  have hpos : (0 : α) < ((List.range' i (4 - i)).foldl
      (fun (st : α × Nat) j => if |cell ab z j i| > st.1 then (|cell ab z j i|, j) else st)
      (0, 0)).1 :=
    lt_of_lt_of_le (abs_pos.mpr hj0nz) (h2 j0 ((hmem j0).mpr ⟨hj0, hj0'⟩))
  rcases h3 with h3 | ⟨h3, h4, _⟩
  · rw [h3] at hpos
    exact absurd hpos (lt_irrefl _)
  · refine ⟨_, ((hmem _).mp h3).1, ((hmem _).mp h3).2, ?_, ?_, ?_⟩
    · rw [← abs_pos, h4]
      exact hpos
    · intro j hj hj'
      rw [h4]
      exact h2 j ((hmem j).mpr ⟨hj, hj'⟩)
    · intro tid q hz
      have hIJ : ∀ j, ld ab (IJ bd542 tid j i) = cell ab z j i := by
        intro j
        simp only [IJ, bd542, cell, hz]
      unfold pivotScan
      simp only [hIJ]
      have hy : bd542.y = 4 := rfl
      rw [hy]
      exact ((scan_fold_indep (fun j => cell ab z j i) (List.range' i (4 - i)) 0 q 0).2
        (by
          rw [(scan_fold_indep (fun j => cell ab z j i) (List.range' i (4 - i)) 0 q 0).1]
          exact hpos))

end Scan

/-! ## `solve`: the cells after each phase of a pass -/

section Phases

variable {α : Type} [LinearOrderedField α]

theorem cell_phase_own (f : Dim3 → Option α) (ab : List α) (hlen : 40 ≤ ab.length)
    (z y x : Nat) (hz : z < 2) (hy : y < 4) (hx : x < 5) :
    cell (phase bd542 (fun tid => own bd542 tid (f tid)) ab) z y x
      = (f ⟨x, y, z⟩).getD (cell ab z y x) :=
  ld_phase_own f ab hlen x y z hx hy hz

/-- The cells after the row operations of pass `i`. -/
theorem cell_rowOperations (ab : List α) (hlen : 40 ≤ ab.length) (i z y x : Nat)
    (hz : z < 2) (hy : y < 4) (hx : x < 5) :
    cell (phase bd542 (fun tid => own bd542 tid (rowOperations bd542 i ab tid)) ab) z y x
      = if y ≠ i then
          (if x > i then cell ab z y x - cell ab z i x * cell ab z y i / cell ab z i i
            else if x = i then 0 else cell ab z y x)
        else cell ab z y x := by
  rw [cell_phase_own _ _ hlen z y x hz hy hx]
  simp only [rowOperations, IDX, IJ, bd542, cell]
  split_ifs <;> rfl

/-- The cells after the normalisation of pass `i`. -/
theorem cell_normalizeRow (ab : List α) (hlen : 40 ≤ ab.length) (i z y x : Nat)
    (hz : z < 2) (hy : y < 4) (hx : x < 5) :
    cell (phase bd542 (fun tid => own bd542 tid (normalizeRow bd542 i ab tid)) ab) z y x
      = if y = i then
          (if x > i then cell ab z y x / cell ab z i i
            else if x = i then 1 else cell ab z y x)
        else cell ab z y x := by
  rw [cell_phase_own _ _ hlen z y x hz hy hx]
  simp only [normalizeRow, IDX, IJ, bd542, cell]
  split_ifs <;> rfl

/-- The cells after the row swap of pass `i`, when every thread of row `i` in family `z`
holds the same row `p z` with `i <= p z <= 3`: rows `i` and `p z` are exchanged. -/
theorem cell_swapRows (ab : List α) (hlen : 40 ≤ ab.length) (i : Nat) (hi : i < 4)
    (pidx : Dim3 → Nat) (p : Nat → Nat)
    (hp : ∀ z, z < 2 → i ≤ p z ∧ p z < 4)
    (hpidx : ∀ tid : Dim3, tid.z < 2 → tid.y = i → pidx tid = p tid.z)
    (z y x : Nat) (hz : z < 2) (hy : y < 4) (hx : x < 5) :
    cell (phase bd542 (fun tid => swapRows bd542 i pidx ab tid) ab) z y x
      = cell ab z (if y = i then p z else if y = p z then i else y) x := by
  unfold cell phase
  -- every write of the phase, described by its thread
  have hwr : ∀ w, w ∈ (threads bd542).flatMap (fun tid => swapRows bd542 i pidx ab tid) →
      ∃ z1 x1, z1 < 2 ∧ x1 < 5 ∧ p z1 ≠ i ∧
        (w = (20 * z1 + 5 * i + x1, ld ab (20 * z1 + 5 * p z1 + x1)) ∨
          w = (20 * z1 + 5 * p z1 + x1, ld ab (20 * z1 + 5 * i + x1))) := by
    intro w hw
    rw [List.mem_flatMap] at hw
    obtain ⟨t, ht, hwt⟩ := hw
    rw [mem_threads] at ht
    obtain ⟨tx, ty, tz⟩ := t
    simp only [bd542] at ht
    unfold swapRows at hwt
    split_ifs at hwt with hc
    · obtain ⟨hc1, hc2⟩ := hc
      simp only at hc1 hc2
      subst hc1
      have hpt := hpidx ⟨tx, ty, tz⟩ ht.2.2 rfl
      simp only at hpt
      refine ⟨tz, tx, ht.2.2, ht.1, ?_, ?_⟩
      · rw [← hpt]
        exact hc2
      · simp only [IDX, IJ, bd542, hpt, List.mem_cons, List.mem_singleton,
          List.not_mem_nil, or_false, Nat.reduceMul] at hwt
        exact hwt
    · simp at hwt
  -- the two writes of thread (x, i, z) are in the list
  have hmem : p z ≠ i →
      (20 * z + 5 * i + x, ld ab (20 * z + 5 * p z + x))
          ∈ (threads bd542).flatMap (fun tid => swapRows bd542 i pidx ab tid) ∧
        (20 * z + 5 * p z + x, ld ab (20 * z + 5 * i + x))
          ∈ (threads bd542).flatMap (fun tid => swapRows bd542 i pidx ab tid) := by
    intro hne
    have ht : (⟨x, i, z⟩ : Dim3) ∈ threads bd542 := by
      rw [mem_threads]
      exact ⟨hx, hi, hz⟩
    have hpt := hpidx ⟨x, i, z⟩ hz rfl
    simp only at hpt
    have hsw : swapRows bd542 i pidx ab ⟨x, i, z⟩ =
        [(20 * z + 5 * i + x, ld ab (20 * z + 5 * p z + x)),
          (20 * z + 5 * p z + x, ld ab (20 * z + 5 * i + x))] := by
      unfold swapRows
      simp only [hpt, IDX, IJ, bd542, Nat.reduceMul]
      rw [if_pos ⟨trivial, hne⟩]
    constructor
    · rw [List.mem_flatMap]
      exact ⟨_, ht, by rw [hsw]; exact List.mem_cons_self _ _⟩
    · rw [List.mem_flatMap]
      exact ⟨_, ht, by rw [hsw]; exact List.mem_cons_of_mem _ (List.mem_cons_self _ _)⟩
  have hpz := hp z hz
  by_cases hyi : y = i
  · subst hyi
    simp only [if_true]
    by_cases hne : p z = y
    · rw [hne]
      apply ld_commit_of_not_mem
      intro w hw hk
      obtain ⟨z1, x1, hz1, hx1, hp1, hw1 | hw1⟩ := hwr _ hw
      · have := hp z1 hz1
        rw [hw1] at hk
        simp only at hk
        have : z1 = z := by omega
        subst this
        exact hp1 hne
      · have := hp z1 hz1
        rw [hw1] at hk
        simp only at hk
        have : z1 = z := by omega
        subst this
        exact hp1 hne
    · apply ld_commit_of_mem _ _ _ _ (by omega) ⟨_, (hmem hne).1, rfl⟩
      intro w hw hk
      obtain ⟨z1, x1, hz1, hx1, hp1, hw1 | hw1⟩ := hwr _ hw
      · have := hp z1 hz1
        rw [hw1] at hk ⊢
        simp only at hk ⊢
        have h1 : z1 = z := by omega
        have h2 : x1 = x := by omega
        rw [h1, h2]
      · have := hp z1 hz1
        rw [hw1] at hk
        simp only at hk
        omega
  · simp only [hyi, if_false]
    by_cases hyp : y = p z
    · simp only [hyp, if_true]
      have hne : p z ≠ i := by
        rw [← hyp]
        exact hyi
      apply ld_commit_of_mem _ _ _ _ (by omega) ⟨_, (hmem hne).2, rfl⟩
      intro w hw hk
      obtain ⟨z1, x1, hz1, hx1, hp1, hw1 | hw1⟩ := hwr _ hw
      · have := hp z1 hz1
        rw [hw1] at hk
        simp only at hk
        omega
      · have := hp z1 hz1
        rw [hw1] at hk ⊢
        simp only at hk ⊢
        have h1 : z1 = z := by omega
        have h2 : x1 = x := by omega
        rw [h1, h2]
    · simp only [hyp, if_false]
      apply ld_commit_of_not_mem
      intro w hw hk
      obtain ⟨z1, x1, hz1, hx1, hp1, hw1 | hw1⟩ := hwr _ hw
      · have := hp z1 hz1
        rw [hw1] at hk
        simp only at hk
        omega
      · have := hp z1 hz1
        rw [hw1] at hk
        simp only at hk
        have h1 : z1 = z := by omega
        subst h1
        omega

end Phases

/-! ## `solve`: one pass -/

section Pass

variable {α : Type} [LinearOrderedField α]

/-- The cells after pass `i` of `solve` on a 5x4x2 block, when column `i` of each family
has a nonzero entry in rows `i..3`: with `p` the row of maximum absolute value that the
scan records and `S` the matrix with rows `i` and `p` exchanged, the pivot row is `S i`
divided by the pivot (1 on the diagonal), every other row `y` is `S y` minus
`S i * S y i / pivot` (0 in column `i`), and columns left of `i` stay as in `S`. -/
theorem solvePass_cells (s : SolveState α) (hlen : 40 ≤ s.ab.length) (i : Nat) (hi : i < 4)
    (hnz : ∀ z, z < 2 → ∃ j, i ≤ j ∧ j < 4 ∧ cell s.ab z j i ≠ 0) :
    40 ≤ (solvePass bd542 i s).ab.length ∧
    ∀ z, z < 2 → ∃ p, i ≤ p ∧ p < 4 ∧ cell s.ab z p i ≠ 0 ∧
      (∀ j, i ≤ j → j < 4 → |cell s.ab z j i| ≤ |cell s.ab z p i|) ∧
      ∀ y, y < 4 → ∀ x, x < 5 →
        cell (solvePass bd542 i s).ab z y x =
          if y = i then
            (if x > i then cell s.ab z p x / cell s.ab z p i
              else if x = i then 1 else cell s.ab z p x)
          else
            (if x > i then
                cell s.ab z (swapRow i p y) x
                  - cell s.ab z p x * cell s.ab z (swapRow i p y) i / cell s.ab z p i
              else if x = i then 0 else cell s.ab z (swapRow i p y) x) := by
  constructor
  · simp only [solvePass, length_phase]
    exact hlen
  intro z hz
  -- the row every thread of row `i` records, per family
  have hscan : ∀ z1, z1 < 2 → ∃ p, i ≤ p ∧ p < 4 ∧ cell s.ab z1 p i ≠ 0 ∧
      (∀ j, i ≤ j → j < 4 → |cell s.ab z1 j i| ≤ |cell s.ab z1 p i|) ∧
      ∀ (tid : Dim3) (q : Nat), tid.z = z1 → pivotScan bd542 tid s.ab i q = p :=
    fun z1 hz1 => pivotScan_spec s.ab i z1 hi (hnz z1 hz1)
  have hp : ∀ z1, z1 < 2 →
      i ≤ pivotScan bd542 ⟨0, i, z1⟩ s.ab i 0 ∧ pivotScan bd542 ⟨0, i, z1⟩ s.ab i 0 < 4 := by
    intro z1 hz1
    obtain ⟨p, h1, h2, _, _, h5⟩ := hscan z1 hz1
    rw [h5 ⟨0, i, z1⟩ 0 rfl]
    exact ⟨h1, h2⟩
  have hpidx : ∀ tid : Dim3, tid.z < 2 → tid.y = i →
      (fun tid : Dim3 =>
        if tid.y = i then pivotScan bd542 tid s.ab i (s.pidx tid) else s.pidx tid) tid
        = (fun z1 => pivotScan bd542 ⟨0, i, z1⟩ s.ab i 0) tid.z := by
    intro tid htz hty
    obtain ⟨p, _, _, _, _, h5⟩ := hscan tid.z htz
    simp only [hty, if_true]
    rw [h5 tid _ rfl, h5 ⟨0, i, tid.z⟩ 0 rfl]
  obtain ⟨p, hp1, hp2, hp3, hp4, hp5⟩ := hscan z hz
  refine ⟨p, hp1, hp2, hp3, hp4, ?_⟩
  intro y hy x hx
  have hpz : pivotScan bd542 ⟨0, i, z⟩ s.ab i 0 = p := hp5 ⟨0, i, z⟩ 0 rfl
  have hswap : ∀ y1, y1 < 4 → ∀ x1, x1 < 5 →
      cell (phase bd542 (fun tid => swapRows bd542 i
        (fun tid : Dim3 =>
          if tid.y = i then pivotScan bd542 tid s.ab i (s.pidx tid) else s.pidx tid)
        s.ab tid) s.ab) z y1 x1 = cell s.ab z (swapRow i p y1) x1 := by
    intro y1 hy1 x1 hx1
    rw [cell_swapRows s.ab hlen i hi _ _ hp hpidx z y1 x1 hz hy1 hx1]
    simp only [hpz, swapRow]
  have hlen1 : 40 ≤ (phase bd542 (fun tid => swapRows bd542 i
        (fun tid : Dim3 =>
          if tid.y = i then pivotScan bd542 tid s.ab i (s.pidx tid) else s.pidx tid)
        s.ab tid) s.ab).length := by
    rw [length_phase]
    exact hlen
  have hsii : swapRow i p i = p := by simp [swapRow]
  simp only [solvePass]
  rw [cell_normalizeRow _ (by rw [length_phase]; exact hlen1) i z y x hz hy hx]
  rw [cell_rowOperations _ hlen1 i z y x hz hy hx,
    cell_rowOperations _ hlen1 i z i i hz hi (by omega)]
  rw [hswap y hy x hx, hswap i hi x hx, hswap y hy i (by omega), hswap i hi i (by omega), hsii]
  by_cases hyi : y = i
  · subst hyi
    simp [hsii]
  · simp [hyi]

end Pass

/-! ## `solve`: Gauss-Jordan elimination -/

section GaussJordan

variable {α : Type} [LinearOrderedField α]

/-- When the columns left of `i` are unit columns and every solution of the homogeneous
system of `M` solves that of a matrix `A` with trivial kernel, column `i` of `M` has a
nonzero entry in rows `i..3`. -/
theorem exists_pivot (M A : Nat → Nat → α) (b : Nat → α) (i : Nat) (hi : i < 4)
    (hker : ∀ v : Nat → α, (∀ y, y < 4 → rowSum A v y = 0) → ∀ x, x < 4 → v x = 0)
    (hunit : ∀ y, y < 4 → ∀ x, x < i → M y x = if y = x then 1 else 0)
    (hsys : ∀ (s : Nat → α) (t : α), (∀ y, y < 4 → rowSum M s y = t * M y 4) →
      ∀ y, y < 4 → rowSum A s y = t * b y) :
    ∃ j, i ≤ j ∧ j < 4 ∧ M j i ≠ 0 := by
  by_contra hcon
  have hzero : ∀ j, i ≤ j → j < 4 → M j i = 0 := by
    intro j h1 h2
    by_contra h3
    exact hcon ⟨j, h1, h2, h3⟩
  have hv := hker (fun x => if x < i then -M x i else if x = i then 1 else 0) (by
    intro y hy
    have h := hsys (fun x => if x < i then -M x i else if x = i then 1 else 0) 0 (by
      intro y1 hy1
      rw [zero_mul]
      unfold rowSum
      interval_cases i <;> interval_cases y1 <;>
        simp [hunit, hzero])
      y hy
    rw [zero_mul] at h
    exact h) i hi
  simp at hv

/-- One pass of the elimination, on matrices: if `M1` is obtained from `M` as
`solvePass_cells` describes, with a nonzero pivot `M p i`, then `M1` has unit columns up
to and including column `i`, and every solution of the system of `M1` solves the system
of `M` (hence that of `A`). -/
theorem gj_step (M M1 A : Nat → Nat → α) (b : Nat → α) (i p : Nat) (hi : i < 4)
    (hpi : i ≤ p) (hp4 : p < 4) (hpiv : M p i ≠ 0)
    (hunit : ∀ y, y < 4 → ∀ x, x < i → M y x = if y = x then 1 else 0)
    (hsys : ∀ (s : Nat → α) (t : α), (∀ y, y < 4 → rowSum M s y = t * M y 4) →
      ∀ y, y < 4 → rowSum A s y = t * b y)
    (hM1 : ∀ y, y < 4 → ∀ x, x < 5 →
      M1 y x =
        if y = i then
          (if x > i then M p x / M p i else if x = i then 1 else M p x)
        else
          (if x > i then M (swapRow i p y) x - M p x * M (swapRow i p y) i / M p i
            else if x = i then 0 else M (swapRow i p y) x)) :
    (∀ y, y < 4 → ∀ x, x < i + 1 → M1 y x = if y = x then 1 else 0) ∧
    (∀ (s : Nat → α) (t : α), (∀ y, y < 4 → rowSum M1 s y = t * M1 y 4) →
      ∀ y, y < 4 → rowSum A s y = t * b y) := by
  have hpx : ∀ x, x < i → M p x = 0 := by
    intro x hx
    rw [hunit p hp4 x hx, if_neg (by omega)]
  -- the pivot row and the other rows, uniformly in the column
  have hrowi : ∀ x, x < 5 → M1 i x = M p x / M p i := by
    intro x hx
    rw [hM1 i hi x hx, if_pos rfl]
    by_cases h1 : x > i
    · rw [if_pos h1]
    · rw [if_neg h1]
      by_cases h2 : x = i
      · rw [if_pos h2, h2, div_self hpiv]
      · rw [if_neg h2, hpx x (by omega), zero_div]
  have hrowy : ∀ y, y < 4 → y ≠ i → ∀ x, x < 5 →
      M1 y x = M (swapRow i p y) x - M p x * M (swapRow i p y) i / M p i := by
    intro y hy hyi x hx
    rw [hM1 y hy x hx, if_neg hyi]
    by_cases h1 : x > i
    · rw [if_pos h1]
    · rw [if_neg h1]
      by_cases h2 : x = i
      · rw [if_pos h2, h2]
        field_simp
      · rw [if_neg h2, hpx x (by omega)]
        ring
  constructor
  · intro y hy x hx
    by_cases hxi : x = i
    · subst hxi
      rw [hM1 y hy x (by omega)]
      by_cases hyx : y = x
      · simp [hyx]
      · simp [hyx]
    · have hxlt : x < i := by omega
      rw [hM1 y hy x (by omega)]
      by_cases hyi : y = i
      · rw [if_pos hyi, if_neg (by omega), if_neg hxi, hpx x hxlt, if_neg (by omega)]
      · rw [if_neg hyi, if_neg (by omega), if_neg hxi]
        have hs4 : swapRow i p y < 4 := by
          unfold swapRow
          split_ifs <;> omega
        rw [hunit _ hs4 x hxlt]
        have hiff : (swapRow i p y = x) ↔ (y = x) := by
          unfold swapRow
          split_ifs <;> omega
        simp only [hiff]
  · intro s t H
    apply hsys
    -- the pivot row of `M`
    have Hp : rowSum M s p = t * M p 4 := by
      have h := H i hi
      unfold rowSum at h ⊢
      rw [hrowi 0 (by norm_num), hrowi 1 (by norm_num), hrowi 2 (by norm_num),
        hrowi 3 (by norm_num), hrowi 4 (by norm_num)] at h
      field_simp at h
      linear_combination h
    intro y hy
    by_cases hyp : y = p
    · rw [hyp]
      exact Hp
    · -- row `y` of `M` stands in row `swapRow i p y` of the exchanged matrix
      have hs4 : swapRow i p y < 4 := by
        unfold swapRow
        split_ifs <;> omega
      have hsi : swapRow i p y ≠ i := by
        unfold swapRow
        split_ifs <;> omega
      have hss : swapRow i p (swapRow i p y) = y := by
        unfold swapRow
        split_ifs <;> omega
      have h := H _ hs4
      unfold rowSum at h Hp ⊢
      rw [hrowy _ hs4 hsi 0 (by norm_num), hrowy _ hs4 hsi 1 (by norm_num),
        hrowy _ hs4 hsi 2 (by norm_num), hrowy _ hs4 hsi 3 (by norm_num),
        hrowy _ hs4 hsi 4 (by norm_num), hss] at h
      linear_combination h + (M y i / M p i) * Hp

/-- Pass `i` of `solve` keeps the invariant of the elimination: 40 cells; in each family
the columns left of `i + 1` are unit columns; and every solution of the current system
solves the system the matrix `ab0` held at the start. -/
theorem solvePass_invariant (ab0 : List α)
    (hker : ∀ z, z < 2 → ∀ v : Nat → α,
      (∀ y, y < 4 → rowSum (cell ab0 z) v y = 0) → ∀ x, x < 4 → v x = 0)
    (s : SolveState α) (i : Nat) (hi : i < 4) (hlen : 40 ≤ s.ab.length)
    (hinv : ∀ z, z < 2 →
      (∀ y, y < 4 → ∀ x, x < i → cell s.ab z y x = if y = x then 1 else 0) ∧
      (∀ (v : Nat → α) (t : α), (∀ y, y < 4 → rowSum (cell s.ab z) v y = t * cell s.ab z y 4) →
        ∀ y, y < 4 → rowSum (cell ab0 z) v y = t * cell ab0 z y 4)) :
    40 ≤ (solvePass bd542 i s).ab.length ∧
    ∀ z, z < 2 →
      (∀ y, y < 4 → ∀ x, x < i + 1 →
        cell (solvePass bd542 i s).ab z y x = if y = x then 1 else 0) ∧
      (∀ (v : Nat → α) (t : α),
        (∀ y, y < 4 → rowSum (cell (solvePass bd542 i s).ab z) v y
          = t * cell (solvePass bd542 i s).ab z y 4) →
        ∀ y, y < 4 → rowSum (cell ab0 z) v y = t * cell ab0 z y 4) := by
  have hnz : ∀ z, z < 2 → ∃ j, i ≤ j ∧ j < 4 ∧ cell s.ab z j i ≠ 0 := fun z hz =>
    exists_pivot (cell s.ab z) (cell ab0 z) (fun y => cell ab0 z y 4) i hi (hker z hz)
      (hinv z hz).1 (hinv z hz).2
  obtain ⟨hlen1, hcells⟩ := solvePass_cells s hlen i hi hnz
  refine ⟨hlen1, ?_⟩
  intro z hz
  obtain ⟨p, hp1, hp2, hp3, _, hp5⟩ := hcells z hz
  exact gj_step (cell s.ab z) (cell (solvePass bd542 i s).ab z) (cell ab0 z)
    (fun y => cell ab0 z y 4) i p hi hp1 hp2 hp3 (hinv z hz).1 (hinv z hz).2 hp5

/-- The four passes of `solve` on a 5x4x2 block whose two coefficient blocks have trivial
kernel: each block ends as the identity, and its augmented column solves the system the
block held at the start. -/
theorem solvePasses_spec (ab : List α) (pidx0 : Dim3 → Nat) (hlen : 40 ≤ ab.length)
    (hker : ∀ z, z < 2 → ∀ v : Nat → α,
      (∀ y, y < 4 → rowSum (cell ab z) v y = 0) → ∀ x, x < 4 → v x = 0) :
    40 ≤ (solvePasses bd542 ⟨ab, pidx0⟩).ab.length ∧
    ∀ z, z < 2 →
      (∀ y, y < 4 → ∀ x, x < 4 →
        cell (solvePasses bd542 ⟨ab, pidx0⟩).ab z y x = if y = x then 1 else 0) ∧
      (∀ y, y < 4 →
        rowSum (cell ab z) (fun x => cell (solvePasses bd542 ⟨ab, pidx0⟩).ab z x 4) y
          = cell ab z y 4) := by
  have h0 : ∀ z, z < 2 →
      (∀ y, y < 4 → ∀ x, x < 0 → cell ab z y x = if y = x then 1 else 0) ∧
      (∀ (v : Nat → α) (t : α), (∀ y, y < 4 → rowSum (cell ab z) v y = t * cell ab z y 4) →
        ∀ y, y < 4 → rowSum (cell ab z) v y = t * cell ab z y 4) :=
    fun z _ => ⟨fun y _ x hx => absurd hx (Nat.not_lt_zero x), fun v t h => h⟩
  obtain ⟨l1, h1⟩ := solvePass_invariant ab hker ⟨ab, pidx0⟩ 0 (by norm_num) hlen h0
  obtain ⟨l2, h2⟩ := solvePass_invariant ab hker _ 1 (by norm_num) l1 h1
  obtain ⟨l3, h3⟩ := solvePass_invariant ab hker _ 2 (by norm_num) l2 h2
  obtain ⟨l4, h4⟩ := solvePass_invariant ab hker _ 3 (by norm_num) l3 h3
  have hfold : solvePasses bd542 ⟨ab, pidx0⟩
      = solvePass bd542 3 (solvePass bd542 2 (solvePass bd542 1
          (solvePass bd542 0 ⟨ab, pidx0⟩))) := rfl
  rw [hfold]
  refine ⟨l4, ?_⟩
  intro z hz
  obtain ⟨hu, hs⟩ := h4 z hz
  refine ⟨hu, ?_⟩
  intro y hy
  have h := hs (fun x => cell (solvePass bd542 3 (solvePass bd542 2 (solvePass bd542 1
      (solvePass bd542 0 ⟨ab, pidx0⟩)))).ab z x 4) 1 (by
    intro y1 hy1
    unfold rowSum
    rw [hu y1 hy1 0 (by norm_num), hu y1 hy1 1 (by norm_num), hu y1 hy1 2 (by norm_num),
      hu y1 hy1 3 (by norm_num)]
    interval_cases y1 <;> simp) y hy
  rw [one_mul] at h
  exact h

/-- A coefficient block with nonzero determinant has trivial kernel. -/
theorem trivial_kernel_of_det (ab : List α) (z : Nat) (hdet : (coeffBlock ab z).det ≠ 0)
    (v : Nat → α) (hv : ∀ y, y < 4 → rowSum (cell ab z) v y = 0) :
    ∀ x, x < 4 → v x = 0 := by
  have hmul : (coeffBlock ab z).mulVec (fun x : Fin 4 => v x) = 0 := by
    funext y
    have h := hv y y.isLt
    simp only [Matrix.mulVec, Matrix.dotProduct, Fin.sum_univ_four, coeffBlock, Matrix.of_apply,
      Pi.zero_apply]
    unfold rowSum at h
    exact h
  have hzero := Matrix.eq_zero_of_mulVec_eq_zero hdet hmul
  intro x hx
  exact congrFun hzero ⟨x, hx⟩

/-- Claim C1.  On a 5x4x2 block with (at least) 40 shared cells, if the 4x4 coefficient
block of each family is nonsingular, then after the four pivot passes of `solve`, before
the copy-out, the coefficient block of every family `z` is the identity and its augmented
column `s` satisfies `A * s = b`, with `A` and `b` the block and the augmented column the
family held when `solve` was called; the locals `pidx0` the threads start with do not
matter. -/
theorem solve_gauss_jordan (ab : List α) (pidx0 : Dim3 → Nat) (hlen : 40 ≤ ab.length)
    (hdet : ∀ z, z < 2 → (coeffBlock ab z).det ≠ 0) (z : Nat) (hz : z < 2) :
    coeffBlock (solvePasses bd542 ⟨ab, pidx0⟩).ab z = 1 ∧
      (coeffBlock ab z).mulVec (augColumn (solvePasses bd542 ⟨ab, pidx0⟩).ab z)
        = augColumn ab z := by
  obtain ⟨_, hspec⟩ := solvePasses_spec ab pidx0 hlen
    (fun z1 hz1 => trivial_kernel_of_det ab z1 (hdet z1 hz1))
  obtain ⟨hu, hs⟩ := hspec z hz
  constructor
  · ext y x
    simp only [coeffBlock, Matrix.of_apply, Matrix.one_apply]
    rw [hu y y.isLt x x.isLt]
    simp only [Fin.ext_iff]
  · funext y
    have h := hs y y.isLt
    simp only [Matrix.mulVec, Matrix.dotProduct, Fin.sum_univ_four, coeffBlock, Matrix.of_apply,
      augColumn]
    unfold rowSum at h
    exact h

theorem refSystem_det (z : Nat) (hz : z < 2) : (coeffBlock refSystem z).det ≠ 0 := by
  rw [Matrix.det_succ_row_zero]
  interval_cases z <;>
    simp [Fin.sum_univ_succ, Matrix.det_fin_three, coeffBlock, cell, ld, refSystem,
      Fin.succAbove, Matrix.submatrix] <;>
    norm_num

/-- Witness of `solve_gauss_jordan`: the system `refSystem`, whose first pivot needs a
row swap, in family 1. -/
theorem solve_gauss_jordan_witness :
    (40 ≤ refSystem.length ∧ (∀ z, z < 2 → (coeffBlock refSystem z).det ≠ 0) ∧ 1 < 2) ∧
      (coeffBlock (solvePasses bd542 ⟨refSystem, fun _ => 0⟩).ab 1 = 1 ∧
        (coeffBlock refSystem 1).mulVec
            (augColumn (solvePasses bd542 ⟨refSystem, fun _ => 0⟩).ab 1)
          = augColumn refSystem 1) :=
  ⟨⟨by decide, refSystem_det, by norm_num⟩,
    solve_gauss_jordan refSystem (fun _ => 0) (by decide) refSystem_det 1 (by norm_num)⟩

end GaussJordan

/-! ## `solve`: the copy-out -/

section CopyOut

variable {α : Type} [LinearOrderedField α]

/-- In pass `i + 1` the pivot scan reads rows `i+1..3` only, which the normalisation of
pass `i` (row `i`) does not store to: the scan sees the same entries before and after it,
so it does not matter that no barrier separates the two. -/
theorem pivotScan_after_normalizeRow (ab : List α) (hlen : 40 ≤ ab.length) (i : Nat)
    (tid : Dim3) (htz : tid.z < 2) (q : Nat) :
    pivotScan bd542 tid
        (phase bd542 (fun t => own bd542 t (normalizeRow bd542 i ab t)) ab) (i + 1) q
      = pivotScan bd542 tid ab (i + 1) q := by
  unfold pivotScan
  congr 1
  apply List.foldl_ext
  intro st j hj
  rw [List.mem_range'_1] at hj
  have hy : bd542.y = 4 := rfl
  rw [hy] at hj
  have hcell : ld (phase bd542 (fun t => own bd542 t (normalizeRow bd542 i ab t)) ab)
      (IJ bd542 tid j (i + 1)) = ld ab (IJ bd542 tid j (i + 1)) := by
    have h := cell_normalizeRow ab hlen i tid.z j (i + 1) htz (by omega) (by omega)
    rw [if_neg (by omega)] at h
    simp only [cell] at h
    simp only [IJ, bd542, Nat.reduceMul]
    exact h
  rw [hcell]

theorem solve_x (bd : Dim3) (pidx0 : Dim3 → Nat) (x0 : Nat → α) (ab : List α) :
    (solve bd pidx0 x0 ab).x = copyOut bd (solvePasses bd ⟨ab, pidx0⟩).ab x0 := rfl

theorem solve_ab (bd : Dim3) (pidx0 : Dim3 → Nat) (x0 : Nat → α) (ab : List α) :
    (solve bd pidx0 x0 ab).ab = (solvePasses bd ⟨ab, pidx0⟩).ab := rfl

/-- Line 85 on a 5x4x2 block: `x[4*z + k] = ab[20*z + 4 + k]`. -/
theorem copyOut_cell (ab : List α) (x0 : Nat → α) (z k : Nat) (hz : z < 2) (hk : k < 4) :
    copyOut bd542 ab x0 (4 * z + k) = ld ab (20 * z + 4 + k) := by
  have h1 : (4 * z + k) / 4 = z := by omega
  have h2 : (4 * z + k) % 4 = k := by omega
  have h3 : 4 * z + k < 8 := by omega
  have h4 : z * (5 * 4) + 4 + k = 20 * z + 4 + k := by omega
  simp only [copyOut, h1, h2, h3, if_true, bd542, h4]

/-- What `solve` returns on a 5x4x2 block whose two coefficient blocks are the identity:
the passes leave the augmented columns as they were, and the copy-out of line 85 reads
`ab[20*z + 4 + k]`, so `x[4*z]` is the first entry of the augmented column of family `z`
and `x[4*z+1]`, `x[4*z+2]`, `x[4*z+3]` are the entries 0, 1, 0 of row 1 of the identity. -/
theorem solve_identity (ab : List α) (pidx0 : Dim3 → Nat) (x0 : Nat → α)
    (hlen : 40 ≤ ab.length)
    (hid : ∀ z, z < 2 → ∀ y, y < 4 → ∀ x, x < 4 → cell ab z y x = if y = x then 1 else 0)
    (z : Nat) (hz : z < 2) :
    (∀ y, y < 4 → cell (solve bd542 pidx0 x0 ab).ab z y 4 = cell ab z y 4) ∧
    (solve bd542 pidx0 x0 ab).x (4 * z) = cell ab z 0 4 ∧
    (solve bd542 pidx0 x0 ab).x (4 * z + 1) = 0 ∧
    (solve bd542 pidx0 x0 ab).x (4 * z + 2) = 1 ∧
    (solve bd542 pidx0 x0 ab).x (4 * z + 3) = 0 := by
  have hrow : ∀ z1, z1 < 2 → ∀ (v : Nat → α) y, y < 4 → rowSum (cell ab z1) v y = v y := by
    intro z1 hz1 v y hy
    unfold rowSum
    rw [hid z1 hz1 y hy 0 (by norm_num), hid z1 hz1 y hy 1 (by norm_num),
      hid z1 hz1 y hy 2 (by norm_num), hid z1 hz1 y hy 3 (by norm_num)]
    interval_cases y <;> simp
  obtain ⟨_, hspec⟩ := solvePasses_spec ab pidx0 hlen (by
    intro z1 hz1 v hv x hx
    rw [← hrow z1 hz1 v x hx]
    exact hv x hx)
  obtain ⟨hu, hs⟩ := hspec z hz
  have haug : ∀ y, y < 4 → cell (solvePasses bd542 ⟨ab, pidx0⟩).ab z y 4 = cell ab z y 4 := by
    intro y hy
    have h := hs y hy
    rw [hrow z hz _ y hy] at h
    exact h
  rw [solve_x, solve_ab]
  generalize (solvePasses bd542 ⟨ab, pidx0⟩).ab = ab1 at hu haug
  have h10 := hu 1 (by norm_num) 0 (by norm_num)
  have h11 := hu 1 (by norm_num) 1 (by norm_num)
  have h12 := hu 1 (by norm_num) 2 (by norm_num)
  have h04 := haug 0 (by norm_num)
  simp only [cell] at h10 h11 h12 h04
  rw [if_neg (by norm_num)] at h10 h12
  rw [if_pos trivial] at h11
  refine ⟨haug, ?_, ?_, ?_, ?_⟩
  · have h := copyOut_cell ab1 x0 z 0 hz (by norm_num)
    rw [Nat.add_zero, Nat.add_zero] at h
    rw [h]
    simp only [cell]
    rw [← h04]
  · rw [copyOut_cell ab1 x0 z 1 hz (by norm_num), ← h10]
  · rw [copyOut_cell ab1 x0 z 2 hz (by norm_num), ← h11]
  · rw [copyOut_cell ab1 x0 z 3 hz (by norm_num), ← h12]

theorem refIdentity_blocks :
    ∀ z, z < 2 → ∀ y, y < 4 → ∀ x, x < 4 →
      cell refIdentity z y x = if y = x then 1 else 0 := by
  intro z hz y hy x hx
  interval_cases z <;> interval_cases y <;> interval_cases x <;>
    simp [cell, ld, refIdentity]

/-- Claim C2 fails on the code.  On two identity blocks with the augmented columns
`(1, 2, 3, 4)` and `(5, 6, 7, 8)` the passes of `solve` leave the augmented columns
unchanged, but the vector it returns is `(1, 0, 1, 0, 5, 0, 1, 0)`, not
`(1, 2, 3, 4, 5, 6, 7, 8)`: line 85 reads `ab[20*z + 4 + k]` where the augmented column
is at `ab[20*z + 5*k + 4]`. -/
theorem solve_identity_copy_out :
    ((List.range 4).map (fun y => cell refIdentity 0 y 4) = [1, 2, 3, 4] ∧
      (List.range 4).map (fun y => cell refIdentity 1 y 4) = [5, 6, 7, 8]) ∧
    ((List.range 4).map
        (fun y => cell (solve bd542 (fun _ => 0) (fun _ => 0) refIdentity).ab 0 y 4)
          = [1, 2, 3, 4] ∧
      (List.range 4).map
        (fun y => cell (solve bd542 (fun _ => 0) (fun _ => 0) refIdentity).ab 1 y 4)
          = [5, 6, 7, 8]) ∧
    (List.range 8).map (solve bd542 (fun _ => 0) (fun _ => 0) refIdentity).x
      = [1, 0, 1, 0, 5, 0, 1, 0] := by
  have hlen : 40 ≤ refIdentity.length := by decide
  obtain ⟨a0, b0, c0, d0, e0⟩ :=
    solve_identity refIdentity (fun _ => 0) (fun _ => 0) hlen refIdentity_blocks 0 (by norm_num)
  obtain ⟨a1, b1, c1, d1, e1⟩ :=
    solve_identity refIdentity (fun _ => 0) (fun _ => 0) hlen refIdentity_blocks 1 (by norm_num)
  have hc0 : (List.range 4).map (fun y => cell refIdentity 0 y 4) = [1, 2, 3, 4] := by
    simp [List.range, List.range.loop, cell, ld, refIdentity]
  have hc1 : (List.range 4).map (fun y => cell refIdentity 1 y 4) = [5, 6, 7, 8] := by
    simp [List.range, List.range.loop, cell, ld, refIdentity]
  refine ⟨⟨hc0, hc1⟩, ⟨?_, ?_⟩, ?_⟩
  · rw [← hc0]
    simp only [List.range, List.range.loop, List.map]
    rw [a0 0 (by norm_num), a0 1 (by norm_num), a0 2 (by norm_num), a0 3 (by norm_num)]
  · rw [← hc1]
    simp only [List.range, List.range.loop, List.map]
    rw [a1 0 (by norm_num), a1 1 (by norm_num), a1 2 (by norm_num), a1 3 (by norm_num)]
  · simp only [List.range, List.range.loop, List.map]
    have b0' := b0
    have b1' := b1
    simp only [Nat.mul_zero, Nat.mul_one, Nat.zero_add] at b0' c0 d0 e0 b1' c1 d1 e1
    norm_num at b1' c1 d1 e1 c0 d0 e0
    rw [b0', c0, d0, e0, b1', c1, d1, e1]
    simp [cell, ld, refIdentity]

end CopyOut

/-! ## `ivf`: symmetry in a negative integer order -/

section IvfSymmetry

variable {α : Type} [LinearOrderedField α] [FloorRing α]

/-- Claim C16.  For every negative integer order `v` and every argument `x`,
`ivf(v, x) = ivf(-v, x)`, whatever `hypergf` is. -/
theorem ivf_negative_integer_symmetry (R : Runtime α) (hypergf : α → α → α → α) (v x : α)
    (hv : v < 0) (hint : floorf v = v) : ivf R hypergf v x = ivf R hypergf (-v) x := by
  have hneg : floorf (-v) = -v := by
    unfold floorf at hint ⊢
    have h1 : (-v : α) = ((-⌊v⌋ : Int) : α) := by
      rw [Int.cast_neg, hint]
    rw [h1, Int.floor_intCast]
  have h0 : ¬ (-v < 0) := by linarith
  unfold ivf
  simp only [hv, hint, h0, hneg, if_true, if_false]

/-- Witness of `ivf_negative_integer_symmetry`: order -3 at `x = 2`. -/
theorem ivf_negative_integer_symmetry_witness :
    ((-3 : ℚ) < 0 ∧ floorf (-3 : ℚ) = -3) ∧
      ivf refRuntime refHypergf (-3) 2 = ivf refRuntime refHypergf (-(-3)) 2 :=
  have h : floorf (-3 : ℚ) = -3 := by
    unfold floorf
    norm_num
  ⟨⟨by norm_num, h⟩,
    ivf_negative_integer_symmetry refRuntime refHypergf (-3) 2 (by norm_num) h⟩

end IvfSymmetry

/-! ## `solve`: what the pivot scan records -/

section ScanRecord

variable {α : Type} [LinearOrderedField α]

end ScanRecord

/-! ## `_chareq`: the last layer in the leaky regime -/

section Leaky

/-- A phase in which no thread stores anything leaves the shared array as it was. -/
theorem phase_none {α : Type} (bd : Dim3) (ab : List α) :
    phase bd (fun tid => own bd tid (none : Option α)) ab = ab := by
  unfold phase
  have h : (threads bd).flatMap (fun tid => own bd tid (none : Option α)) = [] := by
    rw [List.flatMap_eq_nil_iff]
    intro t _
    rfl
  rw [h]
  rfl

variable {α : Type} [LinearOrderedField α]

/-- The loop over the intermediate layers, started at a counter `i <= N-1` with `fuel`
iterations left, ends with the counter at `i + fuel`. -/
theorem layerLoopFrom_counter (R : Runtime α) (B : Bessel α) (bd : Dim3) (U : Uninit α)
    (neff : α) (r n w u : Nat → α) (N nu : Nat) :
    ∀ (fuel : Nat) (st : LayerState α), st.i + fuel = usub N 1 →
      (layerLoopFrom R B bd U neff r n w u N nu fuel st).i = usub N 1 := by
  intro fuel
  induction fuel with
  | zero =>
    intro st h
    simp only [layerLoopFrom]
    omega
  | succ fuel ih =>
    intro st h
    have hlt : st.i < usub N 1 := by omega
    simp only [layerLoopFrom, hlt, if_true]
    apply ih
    simp only
    omega

/-- For `2 <= N < 2^32` the loop `for (i = 1; i < N-1; ++i)` leaves its counter at
`N - 1`. -/
theorem layerLoop_counter (R : Runtime α) (B : Bessel α) (bd : Dim3) (U : Uninit α)
    (neff : α) (r n w u : Nat → α) (N nu : Nat) (hN : 2 ≤ N) (h32 : N < 2 ^ 32)
    (ab : List α) (x : Nat → α) :
    (layerLoop R B bd U neff r n w u N nu ⟨1, ab, x⟩).i = N - 1 := by
  have hu : usub N 1 = N - 1 := usub_one N (by omega) h32
  unfold layerLoop
  rw [layerLoopFrom_counter R B bd U neff r n w u N nu _ _ (by simp only; omega), hu]

/-- Claim C19 fails on a short-circuited query: with `n = [5, 7]` and `neff = 5` the
query is leaky (`neff < n[1]`) and degenerate (`neff = n[0]`); `_chareq` returns
`CUDART_INF_F` and leaves the shared array as it was, here all zeros, whose 2x2
determinant is 0. -/
theorem chareq_leaky_degenerate :
    (5 : ℚ) < refLeakyIndex (2 - 1) ∧
    (_chareq refRuntime refBessel bd542 refUninit (List.replicate 40 0) 5 1 refRadius
        refLeakyIndex 2 0).ret = refRuntime.CUDART_INF_F ∧
    (_chareq refRuntime refBessel bd542 refUninit (List.replicate 40 0) 5 1 refRadius
        refLeakyIndex 2 0).ab = List.replicate 40 0 ∧
    ld (List.replicate 40 (0 : ℚ)) ((bd542.x * 2) + 4)
          * ld (List.replicate 40 (0 : ℚ)) ((bd542.x * bd542.y) + (bd542.x * 3) + 4)
        - ld (List.replicate 40 (0 : ℚ)) ((bd542.x * bd542.y) + (bd542.x * 2) + 4)
          * ld (List.replicate 40 (0 : ℚ)) ((bd542.x * 3) + 4) = 0 ∧
    refRuntime.CUDART_INF_F ≠ 0 := by
  have hz : refRuntime.sqrtf |refLeakyIndex 0 * refLeakyIndex 0 - 5 * 5| = 0 := by
    have e : |refLeakyIndex 0 * refLeakyIndex 0 - 5 * 5| = 0 := by norm_num [refLeakyIndex]
    rw [e, refSqrt_zero]
  have hrun : _chareq refRuntime refBessel bd542 refUninit (List.replicate 40 0) 5 1
      refRadius refLeakyIndex 2 0 = ⟨refRuntime.CUDART_INF_F, List.replicate 40 0⟩ := by
    unfold _chareq
    rw [initLayers_none refRuntime 5 1 refRadius refLeakyIndex 2 0 (by norm_num) hz 0 0
      refUninit.w refUninit.u rfl]
  refine ⟨by norm_num [refLeakyIndex], ?_, ?_, ?_, by norm_num [refRuntime]⟩
  · rw [hrun]
  · rw [hrun]
  · simp [ld, bd542]

/-- Claim C19, amended.  For `2 <= N < 2^32`, a query that is not short-circuited (no
layer has `sqrtf(|n_i^2 - neff^2|) = 0`) and `neff < n[N-1]`: the final-layer step stores to
no cell, so `_chareq` leaves the shared array as the loop over the intermediate layers
left it (as the first layer left it when `N = 2`), and it returns the 2x2 determinant
`ab[IJ(2,4)@0] * ab[IJ(3,4)@1] - ab[IJ(2,4)@1] * ab[IJ(3,4)@0]` of those entries. -/
theorem chareq_leaky (R : Runtime α) (B : Bessel α) (bd : Dim3) (U : Uninit α)
    (ab : List α) (neff k0 : α) (r n : Nat → α) (N nu : Nat)
    (hN : 2 ≤ N) (h32 : N < 2 ^ 32)
    (hnz : ∀ j, j < N → R.sqrtf |n j * n j - neff * neff| ≠ 0)
    (hleaky : neff < n (N - 1)) :
    ∃ w u, initLayers R neff k0 r n N 0 U.w U.u = some (w, u) ∧
      (_chareq R B bd U ab neff k0 r n N nu).ab
        = (layerLoop R B bd U neff r n w u N nu
            ⟨1, phase bd (fun tid => own bd tid (firstLayer B neff n w u nu tid)) ab, U.x⟩).ab ∧
      (_chareq R B bd U ab neff k0 r n N nu).ret
        = ld (_chareq R B bd U ab neff k0 r n N nu).ab ((bd.x * 2) + 4)
            * ld (_chareq R B bd U ab neff k0 r n N nu).ab ((bd.x * bd.y) + (bd.x * 3) + 4)
          - ld (_chareq R B bd U ab neff k0 r n N nu).ab ((bd.x * bd.y) + (bd.x * 2) + 4)
            * ld (_chareq R B bd U ab neff k0 r n N nu).ab ((bd.x * 3) + 4) ∧
      (N = 2 → (_chareq R B bd U ab neff k0 r n N nu).ab
        = phase bd (fun tid => own bd tid (firstLayer B neff n w u nu tid)) ab) := by
  obtain ⟨w, u, hrun, _, _⟩ := initLayers_some R neff k0 r n N hnz N 0 U.w U.u (by omega)
  refine ⟨w, u, hrun, ?_⟩
  have hlast : ∀ (abx : List α) (tid : Dim3),
      lastLayer B bd neff n w u N nu
        (layerLoop R B bd U neff r n w u N nu
          ⟨1, phase bd (fun tid => own bd tid (firstLayer B neff n w u nu tid)) ab, U.x⟩).i
        abx tid = none := by
    intro abx tid
    unfold lastLayer
    rw [layerLoop_counter R B bd U neff r n w u N nu hN h32, if_pos hleaky]
  have hab : (_chareq R B bd U ab neff k0 r n N nu).ab
      = (layerLoop R B bd U neff r n w u N nu
          ⟨1, phase bd (fun tid => own bd tid (firstLayer B neff n w u nu tid)) ab, U.x⟩).ab := by
    unfold _chareq
    rw [hrun]
    simp only [hlast, phase_none]
  have hret : (_chareq R B bd U ab neff k0 r n N nu).ret
      = ld (_chareq R B bd U ab neff k0 r n N nu).ab ((bd.x * 2) + 4)
          * ld (_chareq R B bd U ab neff k0 r n N nu).ab ((bd.x * bd.y) + (bd.x * 3) + 4)
        - ld (_chareq R B bd U ab neff k0 r n N nu).ab ((bd.x * bd.y) + (bd.x * 2) + 4)
          * ld (_chareq R B bd U ab neff k0 r n N nu).ab ((bd.x * 3) + 4) := by
    unfold _chareq
    rw [hrun]
  refine ⟨hab, hret, ?_⟩
  intro h2
  rw [hab]
  subst h2
  rw [layerLoop_two]

theorem refLeaky_nonzero :
    ∀ j, j < 2 → refRuntime.sqrtf |refIndex j * refIndex j - 0 * 0| ≠ 0 := by
  have h169 : natSqrtAux 169 169 = 13 := by decide
  have h9 : natSqrtAux 9 9 = 3 := by decide
  have h1 : natSqrtAux 1 1 = 1 := by decide
  have hn169 : (169 : ℚ).num = 169 := rfl
  have hd169 : (169 : ℚ).den = 1 := rfl
  have hn9 : (9 : ℚ).num = 9 := rfl
  have hd9 : (9 : ℚ).den = 1 := rfl
  intro j hj
  interval_cases j
  · have e : |refIndex 0 * refIndex 0 - 0 * 0| = 169 := by norm_num [refIndex]
    rw [e]
    simp [refRuntime, ratSqrt, hn169, hd169, h169, h1]
  · have e : |refIndex 1 * refIndex 1 - 0 * 0| = 9 := by norm_num [refIndex]
    rw [e]
    simp [refRuntime, ratSqrt, hn9, hd9, h9, h1]

/-- Witness of `chareq_leaky`: the two-layer fibre `refIndex` at `neff = 0`. -/
theorem chareq_leaky_witness :
    (2 ≤ 2 ∧ 2 < 2 ^ 32 ∧
        (∀ j, j < 2 → refRuntime.sqrtf |refIndex j * refIndex j - 0 * 0| ≠ 0) ∧
        (0 : ℚ) < refIndex (2 - 1)) ∧
      ∃ w u, initLayers refRuntime 0 1 refRadius refIndex 2 0 refUninit.w refUninit.u
          = some (w, u) ∧
        (_chareq refRuntime refBessel bd542 refUninit (List.replicate 40 0) 0 1 refRadius
            refIndex 2 0).ab
          = (layerLoop refRuntime refBessel bd542 refUninit 0 refRadius refIndex w u 2 0
              ⟨1, phase bd542
                (fun tid => own bd542 tid (firstLayer refBessel 0 refIndex w u 0 tid))
                (List.replicate 40 0), refUninit.x⟩).ab ∧
        (_chareq refRuntime refBessel bd542 refUninit (List.replicate 40 0) 0 1 refRadius
            refIndex 2 0).ret
          = ld (_chareq refRuntime refBessel bd542 refUninit (List.replicate 40 0) 0 1
                refRadius refIndex 2 0).ab ((bd542.x * 2) + 4)
              * ld (_chareq refRuntime refBessel bd542 refUninit (List.replicate 40 0) 0 1
                refRadius refIndex 2 0).ab ((bd542.x * bd542.y) + (bd542.x * 3) + 4)
            - ld (_chareq refRuntime refBessel bd542 refUninit (List.replicate 40 0) 0 1
                refRadius refIndex 2 0).ab ((bd542.x * bd542.y) + (bd542.x * 2) + 4)
              * ld (_chareq refRuntime refBessel bd542 refUninit (List.replicate 40 0) 0 1
                refRadius refIndex 2 0).ab ((bd542.x * 3) + 4) ∧
        (2 = 2 → (_chareq refRuntime refBessel bd542 refUninit (List.replicate 40 0) 0 1
            refRadius refIndex 2 0).ab
          = phase bd542 (fun tid => own bd542 tid (firstLayer refBessel 0 refIndex w u 0 tid))
              (List.replicate 40 0)) :=
  ⟨⟨le_refl 2, by norm_num, refLeaky_nonzero, by norm_num [refIndex]⟩,
    chareq_leaky refRuntime refBessel bd542 refUninit (List.replicate 40 0) 0 1 refRadius
      refIndex 2 0 (le_refl 2) (by norm_num) refLeaky_nonzero (by norm_num [refIndex])⟩

end Leaky

/-! ## `hy1f1pf`: the loop, term by term -/

section PowerSeries

variable {α : Type} [LinearOrderedField α]

theorem hyState_zero (a b x : α) : hyState a b x 0 = ⟨a, b, 1, 1, 1, 1, 0⟩ := by
  simp [hyState, hyTerm, hyPartial, hyMaxt]

theorem hyState_succ (a b x : α) (k : Nat) :
    hyState a b x (k + 1) =
      ⟨(hyState a b x k).an + 1, (hyState a b x k).bn + 1,
        (hyState a b x k).a0
          * (x * ((hyState a b x k).an / ((hyState a b x k).bn * (hyState a b x k).n))),
        (hyState a b x k).sum + (hyState a b x k).a0
          * (x * ((hyState a b x k).an / ((hyState a b x k).bn * (hyState a b x k).n))),
        (hyState a b x k).n + 1,
        |(hyState a b x k).a0
          * (x * ((hyState a b x k).an / ((hyState a b x k).bn * (hyState a b x k).n)))|,
        if |(hyState a b x k).a0
            * (x * ((hyState a b x k).an / ((hyState a b x k).bn * (hyState a b x k).n)))|
              > (hyState a b x k).maxt
          then |(hyState a b x k).a0
            * (x * ((hyState a b x k).an / ((hyState a b x k).bn * (hyState a b x k).n)))|
          else (hyState a b x k).maxt⟩ := by
  have hterm : hyTerm a b x (k + 1)
      = hyTerm a b x k * (x * ((a + (k : α)) / ((b + (k : α)) * ((k : α) + 1)))) := by
    simp only [hyTerm]
    ring
  simp only [hyState, hyPartial, hyMaxt, hterm, Nat.cast_add, Nat.cast_one, add_assoc]

/-- One turn of the loop of `hy1f1pf` from the state after `k` term additions. -/
theorem hy1f1pLoop_step (R : Runtime α) (a b x : α) (k fuel : Nat) :
    hy1f1pLoop R x (fuel + 1) (hyState a b x k) =
      if hyContinue R a b x k then hy1f1pLoop R x fuel (hyState a b x (k + 1))
      else some (hyStop R a b x k) := by
  rw [hyState_succ]
  by_cases hc : hyContinue R a b x k
  · rw [if_pos hc]
    obtain ⟨h1, h2, h3, h4, h5⟩ := hc
    simp only [hy1f1pLoop]
    simp only [hyState] at *
    rw [if_pos h1, if_neg h2, if_neg h3, if_neg h4, if_neg h5]
  · rw [if_neg hc]
    simp only [hy1f1pLoop, hyStop]
    simp only [hyContinue, not_and_or, not_not] at hc
    simp only [hyState] at *
    by_cases h1 : |hyTerm a b x k| > R.MACHEPF
    · rw [if_pos h1, if_pos h1]
      by_cases h2 : b + (k : α) = 0
      · rw [if_pos h2, if_pos h2]
      · rw [if_neg h2, if_neg h2]
        by_cases h3 : a + (k : α) = 0
        · rw [if_pos h3, if_pos h3]
        · rw [if_neg h3, if_neg h3]
          by_cases h4 : (k : α) + 1 > 200
          · rw [if_pos h4, if_pos h4]
          · rw [if_neg h4, if_neg h4]
            rcases hc with hc | hc | hc | hc | hc
            · exact absurd h1 hc
            · exact absurd hc h2
            · exact absurd hc h3
            · exact absurd hc h4
            · rw [if_pos hc]
    · rw [if_neg h1, if_neg h1]

/-- While the loop keeps running, `k` more units of fuel take it from the start to the
state after `k` term additions. -/
theorem hy1f1pLoop_reach (R : Runtime α) (a b x : α) (k : Nat)
    (hrun : hyRunning R a b x k) (fuel : Nat) :
    hy1f1pLoop R x (fuel + k) (hyState a b x 0) = hy1f1pLoop R x fuel (hyState a b x k) := by
  induction k generalizing fuel with
  | zero => rfl
  | succ k ih =>
    have hrunk : hyRunning R a b x k := fun j hj => hrun j (Nat.lt_succ_of_lt hj)
    have h := ih hrunk (fuel + 1)
    rw [show fuel + (k + 1) = fuel + 1 + k by omega, h, hy1f1pLoop_step,
      if_pos (hrun k (Nat.lt_succ_self k))]

/-- From the state after `k <= 200` term additions, with fuel for the turns that remain,
the loop stops after some `K` additions, `k <= K <= 200`. -/
theorem hy1f1pLoop_stops (R : Runtime α) (a b x : α) :
    ∀ (d k : Nat), k + d = 200 → hyRunning R a b x k → ∀ fuel, d + 1 ≤ fuel →
      ∃ K, k ≤ K ∧ K ≤ 200 ∧ hyRunning R a b x K ∧ ¬ hyContinue R a b x K ∧
        hy1f1pLoop R x fuel (hyState a b x k) = some (hyStop R a b x K) := by
  intro d
  induction d with
  | zero =>
    intro k hk hrun fuel hfuel
    obtain ⟨f, rfl⟩ : ∃ f, fuel = f + 1 := ⟨fuel - 1, by omega⟩
    have hk200 : k = 200 := by omega
    have hnc : ¬ hyContinue R a b x k := by
      rintro ⟨_, _, _, h4, _⟩
      apply h4
      rw [hk200]
      norm_num
    refine ⟨k, le_refl k, by omega, hrun, hnc, ?_⟩
    rw [hy1f1pLoop_step, if_neg hnc]
  | succ d ih =>
    intro k hk hrun fuel hfuel
    obtain ⟨f, rfl⟩ : ∃ f, fuel = f + 1 := ⟨fuel - 1, by omega⟩
    by_cases hc : hyContinue R a b x k
    · have hrun1 : hyRunning R a b x (k + 1) := by
        intro j hj
        rcases Nat.lt_succ_iff_lt_or_eq.mp hj with h | h
        · exact hrun j h
        · rw [h]
          exact hc
      obtain ⟨K, h1, h2, h3, h4, h5⟩ := ih (k + 1) (by omega) hrun1 f (by omega)
      refine ⟨K, by omega, h2, h3, h4, ?_⟩
      rw [hy1f1pLoop_step, if_pos hc]
      exact h5
    · refine ⟨k, le_refl k, by omega, hrun, hc, ?_⟩
      rw [hy1f1pLoop_step, if_neg hc]

/-- With 201 units of fuel or more `hy1f1pf` returns: its loop runs through the term
additions `1..K` for some `K <= 200` and stops there. -/
theorem hy1f1pf_char (R : Runtime α) (a b x : α) (fuel : Nat) (hfuel : 201 ≤ fuel) :
    ∃ K, K ≤ 200 ∧ hyRunning R a b x K ∧ ¬ hyContinue R a b x K ∧
      hy1f1pf R fuel a b x = some (hyStop R a b x K) := by
  obtain ⟨K, _, h2, h3, h4, h5⟩ := hy1f1pLoop_stops R a b x 200 0 (by norm_num)
    (fun j hj => absurd hj (Nat.not_lt_zero j)) fuel (by omega)
  refine ⟨K, h2, h3, h4, ?_⟩
  unfold hy1f1pf
  rw [← hyState_zero a b x]
  exact h5

end PowerSeries

section PowerSeriesClaims

variable {α : Type} [LinearOrderedField α]

theorem hy1f1pf_start (R : Runtime α) (a b x : α) (fuel : Nat) :
    hy1f1pf R fuel a b x = hy1f1pLoop R x fuel (hyState a b x 0) := by
  rw [hyState_zero]
  rfl

/-- When the loop stops after `K` additions on an exit other than the `bn == 0` return,
the value handed back is the partial sum `term_0 + ... + term_K`. -/
theorem hyStop_val (R : Runtime α) (a b x : α) (K : Nat)
    (h : (hyStop R a b x K).exit ≠ SeriesExit.singular) :
    (hyStop R a b x K).val = hyPartial a b x K := by
  unfold hyStop at h ⊢
  split_ifs at h ⊢ <;> first | rfl | exact absurd rfl h

/-- The value the loop hands back when it stops after `K` additions, by the state of the
inputs at `K`: `MAXNUMF` on the `bn == 0` return, the partial sum otherwise. -/
theorem hyStop_val_eq (R : Runtime α) (a b x : α) (K : Nat) :
    (hyStop R a b x K).val =
      if |hyTerm a b x K| > R.MACHEPF ∧ b + (K : α) = 0 then R.MAXNUMF
      else hyPartial a b x K := by
  by_cases ht : |hyTerm a b x K| > R.MACHEPF
  · by_cases hb : b + (K : α) = 0
    · have hc : |hyTerm a b x K| > R.MACHEPF ∧ b + (K : α) = 0 := ⟨ht, hb⟩
      rw [if_pos hc]
      unfold hyStop
      rw [if_pos ht, if_pos hb]
    · have hc : ¬ (|hyTerm a b x K| > R.MACHEPF ∧ b + (K : α) = 0) := fun h => hb h.2
      rw [if_neg hc]
      unfold hyStop
      rw [if_pos ht, if_neg hb]
      split_ifs <;> rfl
  · have hc : ¬ (|hyTerm a b x K| > R.MACHEPF ∧ b + (K : α) = 0) := fun h => ht h.1
    rw [if_neg hc]
    unfold hyStop
    rw [if_neg ht]
    rfl

/-- The number of additions after which the loop stops is determined by the inputs. -/
theorem hyRunning_unique (R : Runtime α) (a b x : α) (K K' : Nat)
    (h1 : hyRunning R a b x K) (h2 : ¬ hyContinue R a b x K)
    (h1' : hyRunning R a b x K') (h2' : ¬ hyContinue R a b x K') : K' = K := by
  rcases Nat.lt_trichotomy K' K with h | h | h
  · exact absurd (h1 K' h) h2'
  · exact h
  · exact absurd (h1' K h) h2

/-- Claim C14: for every `(a, b, x)`, with fuel for 201 turns of the loop `hy1f1pf`
returns, and what it returns is fixed by the terms `term_0 = 1`,
`term_{k+1} = term_k * x * (a+k) / ((b+k)*(k+1))`: there is exactly one `K`, at most 200,
such that the loop goes on after each of the first `K` term additions (`|term_j| >
MACHEPF`, `b+j` and `a+j` not zero, `j + 1 <= 200`, no blow-up, for `j < K`) and not after
the `K`-th; the function returns the result of stopping there, whose value is the partial
sum `term_0 + ... + term_K`, except on the `bn == 0` return (`|term_K| > MACHEPF` and
`b + K = 0`), where it is `MAXNUMF`. -/
theorem hy1f1pf_partial_sum (R : Runtime α) (a b x : α) (fuel : Nat) (hfuel : 201 ≤ fuel) :
    ∃ K, K ≤ 200 ∧ hyRunning R a b x K ∧ ¬ hyContinue R a b x K ∧
      (∀ K', hyRunning R a b x K' → ¬ hyContinue R a b x K' → K' = K) ∧
      hy1f1pf R fuel a b x = some (hyStop R a b x K) ∧
      (hyStop R a b x K).val =
        (if |hyTerm a b x K| > R.MACHEPF ∧ b + (K : α) = 0 then R.MAXNUMF
          else hyPartial a b x K) := by
  obtain ⟨K, h1, h2, h3, h4⟩ := hy1f1pf_char R a b x fuel hfuel
  exact ⟨K, h1, h2, h3, fun K' h2' h3' => hyRunning_unique R a b x K K' h2 h3 h2' h3', h4,
    hyStop_val_eq R a b x K⟩

theorem hyTerm_zero_after (a b x : α) (k : Nat) (hk : a + (k : α) = 0) :
    ∀ j, k < j → hyTerm a b x j = 0 := by
  intro j hj
  induction j with
  | zero => exact absurd hj (Nat.not_lt_zero k)
  | succ j ih =>
    rcases Nat.lt_succ_iff_lt_or_eq.mp hj with h | h
    · simp only [hyTerm, ih h, zero_mul, zero_div]
    · subst h
      simp only [hyTerm, hk, mul_zero, zero_div]

/-- Claim C12 (amended): while the loop of `hy1f1pf` is still running when it reaches
the index `k` (it went on after each earlier addition, so no running parameter was zero
before, and `|term_k| > MACHEPF`): if `b + k = 0` the function returns `MAXNUMF`, also
when `a + k = 0`; if `a + k = 0` and `b + k` is not zero it returns the partial sum
`term_0 + ... + term_k`, and every later term is zero. -/
theorem hy1f1pf_zero_parameter (R : Runtime α) (a b x : α) (k fuel : Nat)
    (hrun : hyRunning R a b x k) (ht : |hyTerm a b x k| > R.MACHEPF) (hfuel : k < fuel) :
    (b + (k : α) = 0 →
        hy1f1pf R fuel a b x = some ⟨R.MAXNUMF, none, SeriesExit.singular⟩) ∧
      (b + (k : α) ≠ 0 → a + (k : α) = 0 →
        hy1f1pf R fuel a b x = some ⟨hyPartial a b x k, none, SeriesExit.terminated⟩ ∧
          ∀ j, k < j → hyTerm a b x j = 0) := by
  obtain ⟨f, rfl⟩ : ∃ f, fuel = f + 1 + k := ⟨fuel - 1 - k, by omega⟩
  have hstart : hy1f1pf R (f + 1 + k) a b x = hy1f1pLoop R x (f + 1) (hyState a b x k) := by
    rw [hy1f1pf_start, hy1f1pLoop_reach R a b x k hrun]
  constructor
  · intro hb
    have hnc : ¬ hyContinue R a b x k := fun h => h.2.1 hb
    rw [hstart, hy1f1pLoop_step, if_neg hnc]
    simp only [hyStop, if_pos ht, if_pos hb]
  · intro hb ha
    have hnc : ¬ hyContinue R a b x k := fun h => h.2.2.1 ha
    refine ⟨?_, hyTerm_zero_after a b x k ha⟩
    rw [hstart, hy1f1pLoop_step, if_neg hnc]
    simp only [hyStop, if_pos ht, if_neg hb, if_pos ha]

/-- Claim C18 (amended): with fuel for 201 turns, `hy1f1pf` stops after some `K <= 200`
term additions; every term before index `K` passed the absolute test
`|term_j| > MACHEPF`; if `|term_K| <= MACHEPF` the exit is the convergence exit and the
value is the partial sum through `term_K`; and if `|term_K| > MACHEPF` the loop was cut
short by a zero parameter, by the cap (then `K = 200`) or by the blow-up test. -/
theorem hy1f1pf_absolute_test (R : Runtime α) (a b x : α) (fuel : Nat)
    (hfuel : 201 ≤ fuel) :
    ∃ K r, K ≤ 200 ∧ hy1f1pf R fuel a b x = some r ∧
      (∀ j, j < K → |hyTerm a b x j| > R.MACHEPF) ∧
      (¬ |hyTerm a b x K| > R.MACHEPF →
        r.exit = SeriesExit.converged ∧ r.val = hyPartial a b x K) ∧
      (|hyTerm a b x K| > R.MACHEPF →
        (r.exit = SeriesExit.singular ∧ b + (K : α) = 0) ∨
        (r.exit = SeriesExit.terminated ∧ a + (K : α) = 0) ∨
        (r.exit = SeriesExit.capped ∧ K = 200) ∨
        (r.exit = SeriesExit.blowup ∧
          blowupTest R (x * ((a + (K : α)) / ((b + (K : α)) * ((K : α) + 1))))
            (hyMaxt a b x K))) := by
  obtain ⟨K, h1, h2, h3, h4⟩ := hy1f1pf_char R a b x fuel hfuel
  refine ⟨K, hyStop R a b x K, h1, h4, fun j hj => (h2 j hj).1, ?_, ?_⟩
  · intro ht
    simp only [hyStop, if_neg ht, hy1f1pDone, hyState, and_self]
  · intro ht
    simp only [hyStop, if_pos ht]
    by_cases hb : b + (K : α) = 0
    · left
      rw [if_pos hb]
      exact ⟨rfl, hb⟩
    · right
      by_cases ha : a + (K : α) = 0
      · left
        rw [if_neg hb, if_pos ha]
        exact ⟨rfl, ha⟩
      · right
        by_cases hn : (K : α) + 1 > 200
        · left
          simp only [if_neg hb, if_neg ha, if_pos hn, hy1f1pDone, true_and]
          have h200 : (200 : α) < ((K + 1 : Nat) : α) := by
            push_cast
            exact hn
          have h200n : 200 < K + 1 := by exact_mod_cast h200
          omega
        · right
          simp only [if_neg hb, if_neg ha, if_neg hn, true_and]
          by_contra hbl
          exact h3 ⟨ht, hb, ha, hn, hbl⟩

end PowerSeriesClaims

section PowerSeriesRuns

variable {α : Type} [LinearOrderedField α]

/-- A run of `hy1f1pf` that goes on after each of the first `K` additions and not after
the `K`-th returns what the loop hands back there, given fuel for `K + 1` turns. -/
theorem hy1f1pf_run (R : Runtime α) (a b x : α) (K fuel : Nat)
    (hrun : hyRunning R a b x K) (hstop : ¬ hyContinue R a b x K) (hfuel : K < fuel) :
    hy1f1pf R fuel a b x = some (hyStop R a b x K) := by
  obtain ⟨f, rfl⟩ : ∃ f, fuel = f + 1 + K := ⟨fuel - 1 - K, by omega⟩
  rw [hy1f1pf_start, hy1f1pLoop_reach R a b x K hrun, hy1f1pLoop_step, if_neg hstop]

end PowerSeriesRuns

theorem refPoly_running : hyRunning refRuntime (-1) 1 1 1 := by
  intro j hj
  interval_cases j
  simp only [hyContinue, hyTerm, hyMaxt, blowupTest, refRuntime]
  norm_num [abs_div, abs_mul, abs_of_neg, abs_of_pos]

theorem refPoly_term : |hyTerm (-1 : ℚ) 1 1 1| > refRuntime.MACHEPF := by
  simp only [hyTerm, refRuntime]
  norm_num [abs_div, abs_mul, abs_of_neg, abs_of_pos]

theorem refTiny_running : hyRunning refRuntime 1 (-1) (1 / 2 ^ 30) 1 := by
  intro j hj
  interval_cases j
  simp only [hyContinue, hyTerm, hyMaxt, blowupTest, refRuntime]
  norm_num [abs_div, abs_mul, abs_of_neg, abs_of_pos]

theorem refTiny_stop : ¬ hyContinue refRuntime 1 (-1) (1 / 2 ^ 30) 1 := by
  intro h
  have h1 := h.1
  simp only [hyTerm, refRuntime] at h1
  norm_num [abs_div, abs_mul, abs_of_neg, abs_of_pos] at h1

theorem refTiny_term : ¬ |hyTerm (1 : ℚ) (-1) (1 / 2 ^ 30) 1| > refRuntime.MACHEPF := by
  simp only [hyTerm, refRuntime]
  norm_num [abs_div, abs_mul, abs_of_neg, abs_of_pos]

theorem refTiny_stop_eq :
    hyStop refRuntime 1 (-1) (1 / 2 ^ 30) 1
      = hy1f1pDone refRuntime (hyState 1 (-1) (1 / 2 ^ 30) 1) SeriesExit.converged := by
  simp only [hyStop, if_neg refTiny_term]

/-- Claim C12 as stated fails at `a = 1`, `b = -1`, `x = 2^-30`: index 1 is the first at
which a running parameter is zero, and it is the denominator parameter, `b + 1 = 0`; but
`|term_1| = 2^-30` does not pass the loop test, so the loop ends on convergence and the
function returns the partial sum `1 - 2^-30`, not `MAXNUMF`. -/
theorem hy1f1pf_singular_missed :
    (-1 : ℚ) + ((1 : Nat) : ℚ) = 0 ∧ (-1 : ℚ) + ((0 : Nat) : ℚ) ≠ 0 ∧
      (1 : ℚ) + ((0 : Nat) : ℚ) ≠ 0 ∧
      ∃ r, hy1f1pf refRuntime 201 1 (-1) (1 / 2 ^ 30) = some r ∧
        r.exit = SeriesExit.converged ∧ r.val = 1 - 1 / 2 ^ 30 ∧
        r.val ≠ refRuntime.MAXNUMF := by
  refine ⟨by norm_num, by norm_num, by norm_num,
    hyStop refRuntime 1 (-1) (1 / 2 ^ 30) 1,
    hy1f1pf_run refRuntime 1 (-1) (1 / 2 ^ 30) 1 201 refTiny_running refTiny_stop
      (by decide), ?_, ?_, ?_⟩
  · rw [refTiny_stop_eq]
    rfl
  · rw [refTiny_stop_eq]
    simp only [hy1f1pDone, hyState, hyPartial, hyTerm]
    norm_num
  · rw [refTiny_stop_eq]
    simp only [hy1f1pDone, hyState, hyPartial, hyTerm, refRuntime]
    norm_num

/-- Claim C12 (amended), at `a = -1`, `b = 1`, `x = 1`: the numerator parameter is zero at
index 1 and the function returns `term_0 + term_1`. -/
theorem hy1f1pf_zero_parameter_witness :
    hyRunning refRuntime (-1) 1 1 1 ∧ |hyTerm (-1 : ℚ) 1 1 1| > refRuntime.MACHEPF ∧ 1 < 2 ∧
      (1 : ℚ) + ((1 : Nat) : ℚ) ≠ 0 ∧ (-1 : ℚ) + ((1 : Nat) : ℚ) = 0 ∧
      hy1f1pf refRuntime 2 (-1) 1 1
        = some ⟨hyPartial (-1) 1 1 1, none, SeriesExit.terminated⟩ :=
  ⟨refPoly_running, refPoly_term, by decide, by norm_num, by norm_num,
    ((hy1f1pf_zero_parameter refRuntime (-1) 1 1 1 2 refPoly_running refPoly_term
      (by decide)).2 (by norm_num) (by norm_num)).1⟩

theorem refEdge_running : hyRunning refRuntime (-1 + 1 / 2 ^ 24) (1 / 4) 1 3 := by
  intro j hj
  interval_cases j <;>
    simp only [hyContinue, hyTerm, hyMaxt, blowupTest, refRuntime] <;>
    norm_num [abs_div, abs_mul, abs_of_neg, abs_of_pos]

theorem refEdge_term : ¬ |hyTerm (-1 + 1 / 2 ^ 24 : ℚ) (1 / 4) 1 3| > refRuntime.MACHEPF := by
  simp only [hyTerm, refRuntime]
  norm_num [abs_div, abs_mul, abs_of_neg, abs_of_pos]

theorem refEdge_stop_eq :
    hyStop refRuntime (-1 + 1 / 2 ^ 24) (1 / 4) 1 3
      = hy1f1pDone refRuntime (hyState (-1 + 1 / 2 ^ 24) (1 / 4) 1 3)
          SeriesExit.converged := by
  simp only [hyStop, if_neg refEdge_term]

/-- Claim C14, at `a = -1 + 2^-24`, `b = 1/4`, `x = 1` with fuel 201: the loop stops after
three additions on the convergence exit and returns `term_0 + term_1 + term_2 + term_3`. -/
theorem hy1f1pf_partial_sum_witness :
    201 ≤ 201 ∧
      hy1f1pf refRuntime 201 (-1 + 1 / 2 ^ 24) (1 / 4) 1
        = some (hyStop refRuntime (-1 + 1 / 2 ^ 24) (1 / 4) 1 3) ∧
      (hyStop refRuntime (-1 + 1 / 2 ^ 24) (1 / 4) 1 3).exit = SeriesExit.converged ∧
      (hyStop refRuntime (-1 + 1 / 2 ^ 24) (1 / 4) 1 3).val
        = hyPartial (-1 + 1 / 2 ^ 24) (1 / 4) 1 3 ∧
      hyPartial (-1 + 1 / 2 ^ 24 : ℚ) (1 / 4) 1 3
        = 1 + (-1 + 1 / 2 ^ 24) / (1 / 4)
          + (-1 + 1 / 2 ^ 24) / (1 / 4) * (1 / 2 ^ 24) / ((1 / 4 + 1) * 2)
          + (-1 + 1 / 2 ^ 24) / (1 / 4) * (1 / 2 ^ 24) / ((1 / 4 + 1) * 2)
            * (1 + 1 / 2 ^ 24) / ((1 / 4 + 2) * 3) := by
  obtain ⟨K, _, _, _, huniq, hrun, hval⟩ :=
    hy1f1pf_partial_sum refRuntime (-1 + 1 / 2 ^ 24) (1 / 4) 1 201 (le_refl 201)
  have hK : 3 = K := huniq 3 refEdge_running (fun h => refEdge_term h.1)
  subst hK
  refine ⟨le_refl 201, hrun, ?_, ?_, ?_⟩
  · rw [refEdge_stop_eq]
    rfl
  · rw [refEdge_stop_eq]
    rfl
  · simp only [hyPartial, hyTerm]
    norm_num

/-- Claim C18 as stated fails at `a = -1 + 2^-24`, `b = 1/4`, `x = 1`: the latest term
first falls below machine epsilon times the partial sum at index 2 (not at index 0 or 1),
yet the loop goes on after the second addition, because `|term_2| > MACHEPF`, and the
function returns the sum through `term_3`, which differs from the sum through `term_2`. -/
theorem hy1f1pf_not_relative :
    ¬ |hyTerm (-1 + 1 / 2 ^ 24 : ℚ) (1 / 4) 1 0|
        < refRuntime.MACHEPF * |hyPartial (-1 + 1 / 2 ^ 24 : ℚ) (1 / 4) 1 0| ∧
      ¬ |hyTerm (-1 + 1 / 2 ^ 24 : ℚ) (1 / 4) 1 1|
        < refRuntime.MACHEPF * |hyPartial (-1 + 1 / 2 ^ 24 : ℚ) (1 / 4) 1 1| ∧
      |hyTerm (-1 + 1 / 2 ^ 24 : ℚ) (1 / 4) 1 2|
        < refRuntime.MACHEPF * |hyPartial (-1 + 1 / 2 ^ 24 : ℚ) (1 / 4) 1 2| ∧
      hyContinue refRuntime (-1 + 1 / 2 ^ 24) (1 / 4) 1 2 ∧
      ∃ r, hy1f1pf refRuntime 201 (-1 + 1 / 2 ^ 24) (1 / 4) 1 = some r ∧
        r.exit = SeriesExit.converged ∧
        r.val = hyPartial (-1 + 1 / 2 ^ 24) (1 / 4) 1 3 ∧
        r.val ≠ hyPartial (-1 + 1 / 2 ^ 24) (1 / 4) 1 2 := by
  refine ⟨?_, ?_, ?_, refEdge_running 2 (by decide),
    hyStop refRuntime (-1 + 1 / 2 ^ 24) (1 / 4) 1 3,
    hy1f1pf_run refRuntime (-1 + 1 / 2 ^ 24) (1 / 4) 1 3 201 refEdge_running
      (fun h => refEdge_term h.1) (by decide), ?_, ?_, ?_⟩
  · simp only [hyTerm, hyPartial, refRuntime]
    norm_num [abs_div, abs_mul, abs_of_neg, abs_of_pos]
  · simp only [hyTerm, hyPartial, refRuntime]
    norm_num [abs_div, abs_mul, abs_of_neg, abs_of_pos]
  · simp only [hyTerm, hyPartial, refRuntime]
    norm_num [abs_div, abs_mul, abs_of_neg, abs_of_pos]
  · rw [refEdge_stop_eq]
    rfl
  · rw [refEdge_stop_eq]
    rfl
  · rw [refEdge_stop_eq]
    simp only [hy1f1pDone, hyState, hyPartial, hyTerm]
    norm_num

/-- Claim C18 (amended), at `a = -1 + 2^-24`, `b = 1/4`, `x = 1` with fuel 201. -/
theorem hy1f1pf_absolute_test_witness :
    201 ≤ 201 ∧
      ∃ K r, K ≤ 200 ∧ hy1f1pf refRuntime 201 (-1 + 1 / 2 ^ 24) (1 / 4) 1 = some r ∧
        (∀ j, j < K → |hyTerm (-1 + 1 / 2 ^ 24 : ℚ) (1 / 4) 1 j| > refRuntime.MACHEPF) ∧
        (¬ |hyTerm (-1 + 1 / 2 ^ 24 : ℚ) (1 / 4) 1 K| > refRuntime.MACHEPF →
          r.exit = SeriesExit.converged ∧ r.val = hyPartial (-1 + 1 / 2 ^ 24) (1 / 4) 1 K) ∧
        (|hyTerm (-1 + 1 / 2 ^ 24 : ℚ) (1 / 4) 1 K| > refRuntime.MACHEPF →
          (r.exit = SeriesExit.singular ∧ (1 / 4 : ℚ) + (K : ℚ) = 0) ∨
          (r.exit = SeriesExit.terminated ∧ (-1 + 1 / 2 ^ 24 : ℚ) + (K : ℚ) = 0) ∨
          (r.exit = SeriesExit.capped ∧ K = 200) ∨
          (r.exit = SeriesExit.blowup ∧
            blowupTest refRuntime
              (1 * (((-1 + 1 / 2 ^ 24 : ℚ) + (K : ℚ)) / ((1 / 4 + (K : ℚ)) * ((K : ℚ) + 1))))
              (hyMaxt (-1 + 1 / 2 ^ 24) (1 / 4) 1 K))) :=
  ⟨le_refl 201,
    hy1f1pf_absolute_test refRuntime (-1 + 1 / 2 ^ 24) (1 / 4) 1 201 (le_refl 201)⟩

/-! ## Blow-up exits and the error output -/

section BlowupError

variable {α : Type} [LinearOrderedField α]

/-- A blow-up exit of the loop of `hy1f1pf` writes `1.0` to `*err`. -/
theorem hy1f1pLoop_blowup (R : Runtime α) (x : α) :
    ∀ (fuel : Nat) (st : Hy1f1p α) (r : SeriesResult α),
      hy1f1pLoop R x fuel st = some r → r.exit = SeriesExit.blowup → r.err = some 1 := by
  intro fuel
  induction fuel with
  | zero =>
    intro st r h
    simp [hy1f1pLoop] at h
  | succ fuel ih =>
    intro st r h hexit
    simp only [hy1f1pLoop] at h
    split_ifs at h <;>
      first
      | exact ih _ r h hexit
      | (cases h
         first
         | rfl
         | simp [hy1f1pDone] at hexit)

/-- A blow-up exit of the loop of `hyp2f0f` writes `MAXNUMF` to `*err`. -/
theorem hyp2f0Loop_blowup (R : Runtime α) (a b x : α) (type : Int) :
    ∀ (fuel : Nat) (st : Hyp2f0 α) (r : SeriesResult α),
      hyp2f0Loop R a b x type fuel st = some r → r.exit = SeriesExit.blowup →
        r.err = some R.MAXNUMF := by
  intro fuel
  induction fuel with
  | zero =>
    intro st r h
    simp [hyp2f0Loop] at h
  | succ fuel ih =>
    intro st r h hexit
    simp only [hyp2f0Loop] at h
    split_ifs at h <;>
      first
      | exact ih _ r h hexit
      | (cases h
         first
         | rfl
         | simp [hyp2f0Done, hyp2f0NotDone] at hexit)

/-- The blow-up exits and the selector: a blow-up exit of `hyp2f0f` writes `*err =
MAXNUMF`; a blow-up exit of `hy1f1pf` writes `*err = 1.0`, and then the selector of
`hypergf` does not take the power-series value as converged: it evaluates the asymptotic
formula and returns the power-series value only if the asymptotic estimate is not below
`1.0`. -/
theorem series_blowup_error (R : Runtime α) (junk : α) (fuel : Nat) (a b x : α)
    (type : Int) :
    (∀ r, hy1f1pf R fuel a b x = some r → r.exit = SeriesExit.blowup →
        r.err = some 1 ∧
        hypergfSelect R junk fuel a b x
          = (hy1f1af R junk fuel a b x).map (fun q => if q.2 < 1 then q.1 else r.val)) ∧
      (∀ r, hyp2f0f R fuel a b x type = some r → r.exit = SeriesExit.blowup →
        r.err = some R.MAXNUMF) := by
  constructor
  · intro r h hexit
    have herr : r.err = some 1 := hy1f1pLoop_blowup R x fuel _ r h hexit
    refine ⟨herr, ?_⟩
    have h6 : ¬ ((1 : α) < 1.0e-6) := by norm_num
    simp only [hypergfSelect, h, herr, Option.getD_some, if_neg h6]
    cases hy1f1af R junk fuel a b x with
    | none => rfl
    | some q =>
      obtain ⟨asum, acanc⟩ := q
      simp only [Option.map_some']
      split_ifs <;> rfl
  · intro r h hexit
    exact hyp2f0Loop_blowup R a b x type fuel _ r h hexit

end BlowupError

theorem refBlowup_running : hyRunning refRuntime 1 1 (10 ^ 38) 1 := by
  intro j hj
  interval_cases j
  simp only [hyContinue, hyTerm, hyMaxt, blowupTest, refRuntime]
  norm_num [abs_div, abs_mul, abs_of_neg, abs_of_pos]

theorem refBlowup_test :
    blowupTest refRuntime
      ((10 ^ 38 : ℚ) * ((1 + ((1 : Nat) : ℚ)) / ((1 + ((1 : Nat) : ℚ)) * (((1 : Nat) : ℚ) + 1))))
      (hyMaxt 1 1 (10 ^ 38) 1) := by
  simp only [hyTerm, hyMaxt, blowupTest, refRuntime]
  norm_num [abs_div, abs_mul, abs_of_neg, abs_of_pos]

theorem refBlowup_stop_eq :
    hyStop refRuntime 1 1 (10 ^ 38) 1
      = ⟨hyPartial 1 1 (10 ^ 38) 1, some 1, SeriesExit.blowup⟩ := by
  have h1 : |hyTerm (1 : ℚ) 1 (10 ^ 38) 1| > refRuntime.MACHEPF := by
    simp only [hyTerm, refRuntime]
    norm_num [abs_div, abs_mul, abs_of_neg, abs_of_pos]
  have h2 : ¬ ((1 : ℚ) + ((1 : Nat) : ℚ) = 0) := by norm_num
  have h4 : ¬ ((((1 : Nat) : ℚ) + 1) > 200) := by norm_num
  unfold hyStop
  rw [if_pos h1, if_neg h2, if_neg h2, if_neg h4]

theorem refBlowup_run :
    hy1f1pf refRuntime 201 1 1 (10 ^ 38)
      = some ⟨hyPartial 1 1 (10 ^ 38) 1, some 1, SeriesExit.blowup⟩ := by
  rw [← refBlowup_stop_eq]
  exact hy1f1pf_run refRuntime 1 1 (10 ^ 38) 1 201 refBlowup_running
    (fun h => h.2.2.2.2 refBlowup_test) (by decide)

theorem refSentinel_run :
    hy1f1pf refRuntime 201 1 0 1 = some ⟨refRuntime.MAXNUMF, none, SeriesExit.singular⟩ := by
  have h1 : |hyTerm (1 : ℚ) 0 1 0| > refRuntime.MACHEPF := by
    simp only [hyTerm, refRuntime]
    norm_num
  have h2 : (0 : ℚ) + ((0 : Nat) : ℚ) = 0 := by norm_num
  have hstop : hyStop refRuntime 1 0 1 0
      = ⟨refRuntime.MAXNUMF, none, SeriesExit.singular⟩ := by
    unfold hyStop
    rw [if_pos h1, if_pos h2]
  rw [← hstop]
  exact hy1f1pf_run refRuntime 1 0 1 0 201 (fun j hj => absurd hj (Nat.not_lt_zero j))
    (fun h => h.2.1 h2) (by decide)

theorem hyp2f0Loop_continue {α : Type} [LinearOrderedField α] (R : Runtime α) (a b x : α)
    (type : Int) (fuel : Nat) (st : Hyp2f0 α) (han : st.an ≠ 0) (hbn : st.bn ≠ 0)
    (hnb : ¬ blowupTest R (st.an * (st.bn * x / st.n)) st.maxt)
    (ht : ¬ |st.a0 * (st.an * (st.bn * x / st.n))| > st.tlast) (hn : ¬ st.n > 200)
    (hc : |st.a0 * (st.an * (st.bn * x / st.n))| > R.MACHEPF) :
    hyp2f0Loop R a b x type (fuel + 1) st
      = hyp2f0Loop R a b x type fuel
          ⟨st.an + 1, st.bn + 1, st.a0 * (st.an * (st.bn * x / st.n)),
            st.a0 * (st.an * (st.bn * x / st.n)), st.sum + st.alast, st.n + 1,
            |st.a0 * (st.an * (st.bn * x / st.n))|, |st.a0 * (st.an * (st.bn * x / st.n))|,
            if |st.a0 * (st.an * (st.bn * x / st.n))| > st.maxt
              then |st.a0 * (st.an * (st.bn * x / st.n))| else st.maxt⟩ := by
  rw [hyp2f0Loop]
  simp only [if_neg han, if_neg hbn, if_neg hnb, if_neg ht, if_neg hn, if_pos hc]

theorem hyp2f0Loop_abort {α : Type} [LinearOrderedField α] (R : Runtime α) (a b x : α)
    (type : Int) (fuel : Nat) (st : Hyp2f0 α) (han : st.an ≠ 0) (hbn : st.bn ≠ 0)
    (hb : blowupTest R (st.an * (st.bn * x / st.n)) st.maxt) :
    hyp2f0Loop R a b x type (fuel + 1) st
      = some ⟨st.sum, some R.MAXNUMF, SeriesExit.blowup⟩ := by
  rw [hyp2f0Loop]
  simp only [if_neg han, if_neg hbn, if_pos hb]

theorem refAsymBlowup_run :
    hyp2f0f refRuntime 201 (1 / 10 ^ 11) (1 / 10 ^ 11) (10 ^ 31) 1
      = some ⟨1, some refRuntime.MAXNUMF, SeriesExit.blowup⟩ := by
  unfold hyp2f0f
  refine (hyp2f0Loop_continue refRuntime _ _ _ 1 200 _ ?_ ?_ ?_ ?_ ?_ ?_).trans ?_
  · norm_num
  · norm_num
  · simp only [blowupTest, refRuntime]
    norm_num [abs_div, abs_mul, abs_of_neg, abs_of_pos]
  · norm_num [abs_div, abs_mul, abs_of_neg, abs_of_pos]
  · norm_num
  · simp only [refRuntime]
    norm_num [abs_div, abs_mul, abs_of_neg, abs_of_pos]
  refine (hyp2f0Loop_abort refRuntime _ _ _ 1 199 _ ?_ ?_ ?_).trans ?_
  · norm_num
  · norm_num
  · simp only [blowupTest, refRuntime]
    norm_num [abs_div, abs_mul, abs_of_neg, abs_of_pos]
  · norm_num

/-! ## `hypergf`: the selector and the Kummer transformation -/

section Selector

variable {α : Type} [LinearOrderedField α]

/-- The loop of `hyp2f0f` returns once it has fuel for the turns up to the cap. -/
theorem hyp2f0Loop_total (R : Runtime α) (a b x : α) (type : Int) :
    ∀ (fuel m : Nat) (st : Hyp2f0 α), st.n = (m : α) → 0 < fuel → 202 ≤ fuel + m →
      ∃ r, hyp2f0Loop R a b x type fuel st = some r := by
  intro fuel
  induction fuel with
  | zero =>
    intro m st _ h
    exact absurd h (Nat.lt_irrefl 0)
  | succ fuel ih =>
    intro m st hn _ hfuel
    simp only [hyp2f0Loop]
    by_cases h5 : st.n > 200
    · simp only [if_pos h5]
      split_ifs <;> exact ⟨_, rfl⟩
    · have hm : m ≤ 200 := by
        by_contra hgt
        apply h5
        rw [hn]
        have : 200 < m := by omega
        exact_mod_cast this
      split_ifs <;>
        first
        | exact ⟨_, rfl⟩
        | exact ih (m + 1) _ (by simp only [hn, Nat.cast_add, Nat.cast_one]) (by omega)
            (by omega)

theorem hyp2f0f_total (R : Runtime α) (a b x : α) (type : Int) (fuel : Nat)
    (hfuel : 201 ≤ fuel) : ∃ r, hyp2f0f R fuel a b x type = some r :=
  hyp2f0Loop_total R a b x type fuel 1 _ (by simp only [Nat.cast_one]) (by omega) (by omega)

theorem hy1f1af_total (R : Runtime α) (junk : α) (a b x : α) (fuel : Nat)
    (hfuel : 201 ≤ fuel) : ∃ q, hy1f1af R junk fuel a b x = some q := by
  by_cases hx : x = 0
  · exact ⟨_, by rw [hy1f1af, if_pos hx]⟩
  · obtain ⟨r1, h1⟩ := hyp2f0f_total R a (a - b + 1) (-1 / x) 1 fuel hfuel
    obtain ⟨r2, h2⟩ := hyp2f0f_total R (b - a) (1 - a) (1 / x) 2 fuel hfuel
    rw [hy1f1af, if_neg hx]
    simp only [h1, h2]
    exact ⟨_, rfl⟩

theorem hy1f1pf_total (R : Runtime α) (a b x : α) (fuel : Nat) (hfuel : 201 ≤ fuel) :
    ∃ p, hy1f1pf R fuel a b x = some p := by
  obtain ⟨K, _, _, _, h⟩ := hy1f1pf_char R a b x fuel hfuel
  exact ⟨_, h⟩

/-- The selector of lines 243-263, spelled out on the two evaluations. -/
theorem hypergfSelect_spec (R : Runtime α) (junk : α) (a b x : α) (fuel : Nat)
    (hfuel : 201 ≤ fuel) :
    ∃ p, hy1f1pf R fuel a b x = some p ∧
      (p.err.getD junk < 1.0e-6 → hypergfSelect R junk fuel a b x = some p.val) ∧
      (¬ p.err.getD junk < 1.0e-6 →
        ∃ asum acanc, hy1f1af R junk fuel a b x = some (asum, acanc) ∧
          hypergfSelect R junk fuel a b x
            = some (if acanc < p.err.getD junk then asum else p.val)) := by
  obtain ⟨p, hp⟩ := hy1f1pf_total R a b x fuel hfuel
  refine ⟨p, hp, ?_, ?_⟩
  · intro h
    simp only [hypergfSelect, hp, if_pos h]
  · intro h
    obtain ⟨⟨asum, acanc⟩, hq⟩ := hy1f1af_total R junk a b x fuel hfuel
    refine ⟨asum, acanc, hq, ?_⟩
    simp only [hypergfSelect, hp, if_neg h, hq]
    split_ifs <;> rfl

theorem hypergfSelect_total (R : Runtime α) (junk : α) (a b x : α) (fuel : Nat)
    (hfuel : 201 ≤ fuel) : ∃ v, hypergfSelect R junk fuel a b x = some v := by
  obtain ⟨p, _, h1, h2⟩ := hypergfSelect_spec R junk a b x fuel hfuel
  by_cases h : p.err.getD junk < 1.0e-6
  · exact ⟨_, h1 h⟩
  · obtain ⟨_, _, _, h3⟩ := h2 h
    exact ⟨_, h3⟩

theorem hypergf_direct (R : Runtime α) (junk : α) (a b x : α) (fuel : Nat)
    (hk : ¬ kummerShortcut a b) :
    hypergf R junk (fuel + 1) a b x = hypergfSelect R junk fuel a b x := by
  rw [hypergf, if_neg hk]

theorem kummerShortcut_once (a b : α) (hk : kummerShortcut a b) :
    ¬ kummerShortcut (b - a) b := by
  unfold kummerShortcut at hk ⊢
  intro h
  have hba : b - (b - a) = a := by ring
  rw [hba] at h
  have h0 : 0 ≤ |a| := abs_nonneg a
  have h1 : 0 ≤ |b - a| := abs_nonneg (b - a)
  have e : (0.001 : α) = 1 / 1000 := by norm_num
  rw [e] at hk h
  linarith

theorem kummerShortcut_double (a : α) : ¬ kummerShortcut a (2 * a) := by
  unfold kummerShortcut
  have hba : 2 * a - a = a := by ring
  rw [hba]
  have h0 : 0 ≤ |a| := abs_nonneg a
  have e : (0.001 : α) = 1 / 1000 := by norm_num
  rw [e]
  intro h
  linarith

/-- Claim C11: for every `(a, b, x)` on which the Kummer shortcut is not taken, with fuel
for every loop: `hypergf` returns the power-series value when the power-series error
estimate is below `1e-6`; otherwise it evaluates the asymptotic formula and returns the
asymptotic value if its estimate is strictly smaller, the power-series value if not (so
also when the two estimates are equal).  The result is one of the two values. -/
theorem hypergf_selection (R : Runtime α) (junk : α) (a b x : α) (fuel : Nat)
    (hfuel : 201 ≤ fuel) (hk : ¬ kummerShortcut a b) :
    ∃ p, hy1f1pf R fuel a b x = some p ∧
      (p.err.getD junk < 1.0e-6 → hypergf R junk (fuel + 1) a b x = some p.val) ∧
      (¬ p.err.getD junk < 1.0e-6 →
        ∃ asum acanc, hy1f1af R junk fuel a b x = some (asum, acanc) ∧
          hypergf R junk (fuel + 1) a b x
            = some (if acanc < p.err.getD junk then asum else p.val) ∧
          (hypergf R junk (fuel + 1) a b x = some asum ∨
            hypergf R junk (fuel + 1) a b x = some p.val)) := by
  obtain ⟨p, hp, h1, h2⟩ := hypergfSelect_spec R junk a b x fuel hfuel
  rw [hypergf_direct R junk a b x fuel hk]
  refine ⟨p, hp, h1, ?_⟩
  intro h
  obtain ⟨asum, acanc, hq, hsel⟩ := h2 h
  refine ⟨asum, acanc, hq, hsel, ?_⟩
  rw [hsel]
  split_ifs
  · exact Or.inl rfl
  · exact Or.inr rfl

/-- Claim C20: if `(a, b)` meets the Kummer test then `(b - a, b)` does not, so the call
`hypergf(b - a, b, -x)` goes on to the power series and the selector and the nesting depth
is at most one; with fuel for the two levels and the loops `hypergf` returns; the pair
`(ax, 2*ax)` that `ivf` passes never meets the Kummer test, and `ivf` does not depend on
what the evaluator does on arguments that meet it. -/
theorem hypergf_kummer_depth [FloorRing α] (R : Runtime α) (junk : α) (a b x : α)
    (fuel : Nat) (hfuel : 201 ≤ fuel) :
    (kummerShortcut a b → ¬ kummerShortcut (b - a) b) ∧
      (kummerShortcut a b →
        hypergf R junk (fuel + 2) a b x
          = (hypergfSelect R junk fuel (b - a) b (-x)).map (fun h => R.expf x * h)) ∧
      (¬ kummerShortcut a b →
        hypergf R junk (fuel + 2) a b x = hypergfSelect R junk (fuel + 1) a b x) ∧
      (∃ v, hypergf R junk (fuel + 2) a b x = some v) ∧
      (∀ ax : α, ¬ kummerShortcut ax (2 * ax)) ∧
      (∀ g h : α → α → α → α,
        (∀ a1 b1 x1, ¬ kummerShortcut a1 b1 → g a1 b1 x1 = h a1 b1 x1) →
          ∀ v y, ivf R g v y = ivf R h v y) := by
  have hshort : kummerShortcut a b →
      hypergf R junk (fuel + 2) a b x
        = (hypergfSelect R junk fuel (b - a) b (-x)).map (fun h => R.expf x * h) := by
    intro hk
    rw [hypergf, if_pos hk, hypergf_direct R junk (b - a) b (-x) fuel
      (kummerShortcut_once a b hk)]
  refine ⟨kummerShortcut_once a b, hshort, fun hk => hypergf_direct R junk a b x (fuel + 1) hk,
    ?_, kummerShortcut_double, ?_⟩
  · by_cases hk : kummerShortcut a b
    · obtain ⟨v, hv⟩ := hypergfSelect_total R junk (b - a) b (-x) fuel hfuel
      rw [hshort hk, hv]
      exact ⟨_, rfl⟩
    · rw [hypergf_direct R junk a b x (fuel + 1) hk]
      exact hypergfSelect_total R junk a b x (fuel + 1) (by omega)
  · intro g h hagree v y
    have key : ∀ ax x1, g ax (2 * ax) x1 = h ax (2 * ax) x1 :=
      fun ax x1 => hagree ax (2 * ax) x1 (kummerShortcut_double ax)
    simp only [ivf, key]

end Selector

theorem refDirect : ¬ kummerShortcut (1 : ℚ) 2 := by
  unfold kummerShortcut
  norm_num

theorem refShortcut : kummerShortcut (1 : ℚ) 1 := by
  unfold kummerShortcut
  norm_num

/-- Claim C11, at `a = 1`, `b = 2`, `x = 1` with fuel 201. -/
theorem hypergf_selection_witness :
    201 ≤ 201 ∧ ¬ kummerShortcut (1 : ℚ) 2 ∧
      ∃ p, hy1f1pf refRuntime 201 1 2 1 = some p ∧
        (p.err.getD 0 < 1.0e-6 → hypergf refRuntime 0 (201 + 1) 1 2 1 = some p.val) ∧
        (¬ p.err.getD 0 < 1.0e-6 →
          ∃ asum acanc, hy1f1af refRuntime 0 201 1 2 1 = some (asum, acanc) ∧
            hypergf refRuntime 0 (201 + 1) 1 2 1
              = some (if acanc < p.err.getD 0 then asum else p.val) ∧
            (hypergf refRuntime 0 (201 + 1) 1 2 1 = some asum ∨
              hypergf refRuntime 0 (201 + 1) 1 2 1 = some p.val)) :=
  ⟨le_refl 201, refDirect, hypergf_selection refRuntime 0 1 2 1 201 (le_refl 201) refDirect⟩

/-- Claim C20, at `a = b = 1`, `x = 1`, where the Kummer test is met, with fuel 203. -/
theorem hypergf_kummer_depth_witness :
    201 ≤ 201 ∧ kummerShortcut (1 : ℚ) 1 ∧ ¬ kummerShortcut ((1 : ℚ) - 1) 1 ∧
      hypergf refRuntime 0 (201 + 2) 1 1 1
        = (hypergfSelect refRuntime 0 201 (1 - 1) 1 (-1)).map
            (fun h => refRuntime.expf 1 * h) ∧
      ∃ v, hypergf refRuntime 0 (201 + 2) 1 1 1 = some v :=
  ⟨le_refl 201, refShortcut,
    (hypergf_kummer_depth refRuntime 0 1 1 1 201 (le_refl 201)).1 refShortcut,
    (hypergf_kummer_depth refRuntime 0 1 1 1 201 (le_refl 201)).2.1 refShortcut,
    (hypergf_kummer_depth refRuntime 0 1 1 1 201 (le_refl 201)).2.2.2.1⟩

/-! ## The sentinel return of `hy1f1pf` and the selector -/

section Sentinel

variable {α : Type} [LinearOrderedField α]

/-- With `b = 0` the loop of `hy1f1pf` returns `MAXNUMF` at line 187 in its first turn and
stores nothing through `err`. -/
theorem hy1f1pf_sentinel (R : Runtime α) (a x : α) (fuel : Nat) (heps : R.MACHEPF < 1) :
    hy1f1pf R (fuel + 1) a 0 x = some ⟨R.MAXNUMF, none, SeriesExit.singular⟩ := by
  have h1 : (1 : α) > R.MACHEPF := heps
  simp only [hy1f1pf, hy1f1pLoop, if_pos h1, if_true]

/-- After that return the selector reads `pcanc` as the caller left it: if that value is
below `1.0e-6` the sentinel is returned as the converged power-series value. -/
theorem hypergfSelect_sentinel (R : Runtime α) (junk a x : α) (fuel : Nat)
    (heps : R.MACHEPF < 1) (hjunk : junk < 1.0e-6) :
    hypergfSelect R junk (fuel + 1) a 0 x = some R.MAXNUMF := by
  simp only [hypergfSelect, hy1f1pf_sentinel R a x fuel heps, Option.getD_none, if_pos hjunk]

end Sentinel

theorem refNoShortcut : ¬ kummerShortcut (0 : ℚ) 0 := by
  unfold kummerShortcut
  norm_num

theorem hyp2f0f_zero_parameter {α : Type} [LinearOrderedField α] (R : Runtime α) (b x : α)
    (type : Int) (fuel : Nat) :
    hyp2f0f R (fuel + 1) 0 b x type
      = some ⟨1, some |R.MACHEPF * (1 + 0)|, SeriesExit.terminated⟩ := by
  simp only [hyp2f0f, hyp2f0Loop, if_true, hyp2f0Done]
  norm_num

/-- The same call with `pcanc` holding 1 beforehand: the selector goes on to the asymptotic
formula and returns its value. -/
theorem refJunk_one : hypergf refRuntime 1 202 0 0 2 = some 5 := by
  rw [show (202 : Nat) = 201 + 1 from rfl, hypergf_direct refRuntime 1 0 0 2 201 refNoShortcut]
  have heps : refRuntime.MACHEPF < 1 := by
    simp only [refRuntime]
    norm_num
  have h1 : hyp2f0f refRuntime 201 0 (0 - 0 + 1) (-1 / 2) 1
      = some ⟨1, some |refRuntime.MACHEPF * (1 + 0)|, SeriesExit.terminated⟩ :=
    hyp2f0f_zero_parameter refRuntime _ _ 1 200
  have h2 : hyp2f0f refRuntime 201 (0 - 0) (1 - 0) (1 / 2) 2
      = some ⟨1, some |refRuntime.MACHEPF * (1 + 0)|, SeriesExit.terminated⟩ := by
    rw [sub_self]
    exact hyp2f0f_zero_parameter refRuntime _ _ 2 200
  simp only [hypergfSelect, hy1f1pf_sentinel refRuntime 0 2 200 heps, Option.getD_none,
    hy1f1af, h1, h2]
  simp only [refRuntime]
  norm_num [abs_div, abs_mul, abs_of_neg, abs_of_pos]

/-- Claim C13, evaluated on the code.  `ivf(-0.5, 1.0)` calls `hypergf(0, 0, 2)` (line 48 of
`ivf.c`: `ax = v + 0.5 = 0`), the Kummer test is not met, and `hy1f1pf(0, 0, 2, &pcanc)`
returns `MAXNUMF` on `bn == 0` without storing `*err`.  `hypergf` then tests `pcanc` as it
was: when it holds a value below `1.0e-6` (here 0) the sentinel is returned as the
converged power-series value, for every such call with `b = 0`; when it holds 1 the
asymptotic value is returned instead, so the result depends on memory that was never
written.  On the blow-up exit, at `a = b = 1`, `x = 10^38`, `hy1f1pf` stores `1.0`, not
`MAXNUMF`. -/
theorem hypergf_accepts_sentinel :
    (∀ h : ℚ → ℚ → ℚ → ℚ, ivf refRuntime h (-1 / 2) 1
        = 1 * refRuntime.expf (-1 / 2 * refRuntime.logf (0.5 * |1|) - 1)
            / refRuntime.tgammaf (-1 / 2 + 1) * h 0 0 2) ∧
      ¬ kummerShortcut (0 : ℚ) 0 ∧
      hy1f1pf refRuntime 201 0 0 2
        = some ⟨refRuntime.MAXNUMF, none, SeriesExit.singular⟩ ∧
      hypergf refRuntime 0 202 0 0 2 = some refRuntime.MAXNUMF ∧
      hypergf refRuntime 1 202 0 0 2 = some 5 ∧
      (∀ junk a x : ℚ, junk < 1.0e-6 →
        hypergfSelect refRuntime junk 201 a 0 x = some refRuntime.MAXNUMF) ∧
      (∃ r, hy1f1pf refRuntime 201 1 1 (10 ^ 38) = some r ∧ r.exit = SeriesExit.blowup ∧
        r.err = some 1 ∧ r.err ≠ some refRuntime.MAXNUMF) := by
  have heps : refRuntime.MACHEPF < 1 := by
    simp only [refRuntime]
    norm_num
  refine ⟨?_, refNoShortcut, hy1f1pf_sentinel refRuntime 0 2 200 heps, ?_, refJunk_one,
    fun junk a x hj => hypergfSelect_sentinel refRuntime junk a x 200 heps hj,
    ⟨_, refBlowup_run, rfl, rfl, ?_⟩⟩
  · intro h
    have hfl : floorf (-(1 / 2) : ℚ) = -1 := by
      unfold floorf
      norm_num
    have hne : ¬ ((-1 : ℚ) = -(1 / 2)) := by norm_num
    unfold ivf
    norm_num [hfl, hne]
  · rw [show (202 : Nat) = 201 + 1 from rfl, hypergf_direct refRuntime 0 0 0 2 201 refNoShortcut]
    exact hypergfSelect_sentinel refRuntime 0 0 2 200 heps (by norm_num)
  · simp only [refRuntime]
    norm_num

/-! ## Footprints of the phases -/

section Footprints

variable {α : Type} [LinearOrderedField α]

theorem swapRows_writes (bd : Dim3) (i : Nat) (pidx : Dim3 → Nat) (ab : List α) (tid : Dim3) :
    (swapRows bd i pidx ab tid).map Prod.fst = (swapAccess bd i pidx tid).writes := by
  unfold swapRows swapAccess
  split_ifs <;> rfl

theorem rowOperations_writes (bd : Dim3) (i : Nat) (ab : List α) (tid : Dim3) :
    (own bd tid (rowOperations bd i ab tid)).map Prod.fst
      = (rowOperationsAccess bd i tid).writes := by
  unfold rowOperations rowOperationsAccess
  split_ifs <;> rfl

theorem normalizeRow_writes (bd : Dim3) (i : Nat) (ab : List α) (tid : Dim3) :
    (own bd tid (normalizeRow bd i ab tid)).map Prod.fst
      = (normalizeRowAccess bd i tid).writes := by
  unfold normalizeRow normalizeRowAccess
  split_ifs <;> rfl

theorem lastLayer_writes (B : Bessel α) (bd : Dim3) (neff : α) (n w u : Nat → α)
    (N nu i : Nat) (ab : List α) (tid : Dim3) :
    (own bd tid (lastLayer B bd neff n w u N nu i ab tid)).map Prod.fst
      = (lastLayerAccess bd (decide (neff < n i)) tid).writes := by
  unfold lastLayer lastLayerAccess
  by_cases h : neff < n i
  · simp only [h, if_true, decide_True]
    rfl
  · simp only [h, if_false, decide_False, Bool.false_eq_true]
    split_ifs <;> rfl

theorem firstLayer_writes (B : Bessel α) (bd : Dim3) (neff : α) (n w u : Nat → α) (nu : Nat)
    (tid : Dim3) :
    (own bd tid (firstLayer B neff n w u nu tid)).map Prod.fst
      = (firstLayerAccess bd tid).writes := by
  obtain ⟨x, y, z⟩ := tid
  unfold firstLayer firstLayerAccess
  by_cases hx : 4 = x
  · subst hx
    rcases y with _ | _ | _ | _ | y
    · simp [own]
    · simp [own]
    · simp only [true_and]
      split_ifs <;> first | rfl | omega
    · simp only [true_and]
      split_ifs <;> first | rfl | omega
    · have h4 : ¬ (y + 1 + 1 + 1 + 1 < 4) := by omega
      simp [own, h4]
  · simp [hx, own]

theorem getEH_writes (B : Bessel α) (bd : Dim3) (neff : α) (n w u : Nat → α) (nu i : Nat)
    (x : Nat → α) (tid : Dim3) :
    (own bd tid (getEH B bd neff n w u nu i x tid)).map Prod.fst
      = (getEHAccess bd tid).writes := by
  obtain ⟨tx, y, z⟩ := tid
  unfold getEH getEHAccess
  by_cases hx : 4 = tx
  · subst hx
    rcases y with _ | _ | _ | _ | y
    · simp [own]
    · simp [own]
    · simp [own]
    · simp [own]
    · have h4 : ¬ (y + 1 + 1 + 1 + 1 < 4) := by omega
      simp [own, h4]
  · simp [hx, own]

theorem fillMatrix_writes (B : Bessel α) (bd : Dim3) (neff : α) (r n w u : Nat → α)
    (nu i : Nat) (tid : Dim3) :
    (own bd tid (fillMatrix B neff r n w u nu i tid)).map Prod.fst
      = (fillMatrixAccess bd tid).writes := by
  obtain ⟨x, y, z⟩ := tid
  unfold fillMatrixAccess
  by_cases h : x < 4 ∧ y < 4
  · rw [if_pos h]
    obtain ⟨hx, hy⟩ := h
    interval_cases x <;> interval_cases y <;> rfl
  · rw [if_neg h]
    have hnone : fillMatrix B neff r n w u nu i ⟨x, y, z⟩ = none := by
      unfold fillMatrix
      rcases x with _ | _ | _ | _ | x <;> rcases y with _ | _ | _ | _ | y <;>
        first
        | rfl
        | (exfalso
           apply h
           constructor <;> omega)
    rw [hnone]
    rfl

end Footprints

theorem IDX_inj (t1 t2 : Dim3) (h1 : t1 ∈ threads bd542) (h2 : t2 ∈ threads bd542)
    (h : IDX bd542 t1 = IDX bd542 t2) : t1 = t2 := by
  rw [mem_threads] at h1 h2
  obtain ⟨x1, y1, z1⟩ := t1
  obtain ⟨x2, y2, z2⟩ := t2
  simp only [IDX, bd542] at h h1 h2
  have hx : x1 = x2 := by omega
  have hy : y1 = y2 := by omega
  have hz : z1 = z2 := by omega
  rw [hx, hy, hz]

theorem ownWrites_rowOperations (bd : Dim3) (i : Nat) :
    ownWrites bd (rowOperationsAccess bd i) := by
  intro t _ c hc
  unfold rowOperationsAccess at hc
  split_ifs at hc <;> simp_all

theorem ownWrites_normalizeRow (bd : Dim3) (i : Nat) :
    ownWrites bd (normalizeRowAccess bd i) := by
  intro t _ c hc
  unfold normalizeRowAccess at hc
  split_ifs at hc <;> simp_all

theorem ownWrites_scan (bd : Dim3) (i : Nat) : ownWrites bd (scanAccess bd i) := by
  intro t _ c hc
  unfold scanAccess at hc
  split_ifs at hc <;> simp_all

theorem ownWrites_copyOut (bd : Dim3) : ownWrites bd (fun _ => copyOutAccess bd) := by
  intro t _ c hc
  simp [copyOutAccess] at hc

theorem ownWrites_firstLayer (bd : Dim3) : ownWrites bd (firstLayerAccess bd) := by
  intro t _ c hc
  unfold firstLayerAccess at hc
  split_ifs at hc <;> simp_all

theorem ownWrites_fillMatrix (bd : Dim3) : ownWrites bd (fillMatrixAccess bd) := by
  intro t _ c hc
  unfold fillMatrixAccess at hc
  split_ifs at hc <;> simp_all

theorem ownWrites_getEH (bd : Dim3) : ownWrites bd (getEHAccess bd) := by
  intro t _ c hc
  unfold getEHAccess at hc
  split_ifs at hc <;> simp_all

theorem ownWrites_lastLayer (bd : Dim3) (leaky : Bool) :
    ownWrites bd (lastLayerAccess bd leaky) := by
  intro t _ c hc
  unfold lastLayerAccess at hc
  split_ifs at hc <;> simp_all

theorem raceFree_swap (i : Nat) (p : Nat → Nat) (pidx : Dim3 → Nat)
    (hp : ∀ z, z < 2 → p z < 4)
    (hpidx : ∀ tid, tid ∈ threads bd542 → tid.y = i → pidx tid = p tid.z) :
    raceFree bd542 (swapAccess bd542 i pidx) := by
  intro t1 h1 t2 h2 hne hc
  obtain ⟨c, hw, hr⟩ := hc
  have hpidx1 := hpidx t1 h1
  have hpidx2 := hpidx t2 h2
  rw [mem_threads] at h1 h2
  obtain ⟨x1, y1, z1⟩ := t1
  obtain ⟨x2, y2, z2⟩ := t2
  simp only [bd542] at h1 h2
  unfold swapAccess at hw hr
  by_cases c1 : y1 = i ∧ pidx ⟨x1, y1, z1⟩ ≠ i
  · by_cases c2 : y2 = i ∧ pidx ⟨x2, y2, z2⟩ ≠ i
    · rw [if_pos c2] at hw
      rw [if_pos c1] at hr
      have e1 := hpidx1 c1.1
      have e2 := hpidx2 c2.1
      have b1 := hp z1 h1.2.2
      have b2 := hp z2 h2.2.2
      simp only [List.mem_cons, List.mem_singleton, List.not_mem_nil, or_false, or_self, IDX,
        IJ, bd542, e1, e2] at hw hr
      apply hne
      have hy1 := c1.1
      have hy2 := c2.1
      have hxz : x1 = x2 ∧ z1 = z2 := by
        rcases hw with hw | hw <;> rcases hr with hr | hr <;> constructor <;> omega
      rw [hxz.1, hxz.2, hy1, hy2]
    · rw [if_neg c2] at hw
      simp at hw
  · rw [if_neg c1] at hr
    simp at hr

theorem raceFree_lastLayer (leaky : Bool) : raceFree bd542 (lastLayerAccess bd542 leaky) := by
  intro t1 h1 t2 h2 hne hc
  obtain ⟨c, hw, hr⟩ := hc
  apply hne
  apply IDX_inj t1 t2 h1 h2
  rw [mem_threads] at h1 h2
  simp only [bd542] at h1 h2
  unfold lastLayerAccess at hw hr
  split_ifs at hw hr <;>
    simp only [List.mem_cons, List.mem_singleton, List.not_mem_nil, or_false, or_self,
      false_or, IDX, IJ, bd542] at hw hr ⊢ <;>
    first
    | exact absurd hw id
    | exact absurd hr id
    | (rcases hr with (hr | hr | hr) | hr <;> omega)

/-- Footprints on a 5x4x2 block: in the pivot scan, the row operations, the
normalisation, the copy-out, the first-layer store, the matrix fill, the E/H extraction
and the final-layer step every thread writes no cell but its own `ab[IDX]`; in the row
swap of pass `i`, where every thread of row `i` of family `z` has recorded the pivot row
`p z < 4`, a thread writes its own cell and, if `p z` differs from `i`, the cell
`IJ(p z, threadIdx.x)` of its column in the pivot row; and in the row swap and in the
final-layer step no thread reads or writes a cell that a different thread writes. -/
theorem phase_footprints (i : Nat) (p : Nat → Nat) (pidx : Dim3 → Nat) (leaky : Bool)
    (hp : ∀ z, z < 2 → p z < 4)
    (hpidx : ∀ tid, tid ∈ threads bd542 → tid.y = i → pidx tid = p tid.z) :
    (ownWrites bd542 (scanAccess bd542 i) ∧ ownWrites bd542 (rowOperationsAccess bd542 i) ∧
      ownWrites bd542 (normalizeRowAccess bd542 i) ∧
      ownWrites bd542 (fun _ => copyOutAccess bd542) ∧
      ownWrites bd542 (firstLayerAccess bd542) ∧ ownWrites bd542 (fillMatrixAccess bd542) ∧
      ownWrites bd542 (getEHAccess bd542) ∧ ownWrites bd542 (lastLayerAccess bd542 leaky)) ∧
      (∀ t, t ∈ threads bd542 → ∀ c, c ∈ (swapAccess bd542 i pidx t).writes →
        c = IDX bd542 t ∨ (t.y = i ∧ p t.z ≠ i ∧ c = IJ bd542 t (p t.z) t.x)) ∧
      raceFree bd542 (swapAccess bd542 i pidx) ∧
      raceFree bd542 (lastLayerAccess bd542 leaky) := by
  refine ⟨⟨ownWrites_scan bd542 i, ownWrites_rowOperations bd542 i,
    ownWrites_normalizeRow bd542 i, ownWrites_copyOut bd542, ownWrites_firstLayer bd542,
    ownWrites_fillMatrix bd542, ownWrites_getEH bd542, ownWrites_lastLayer bd542 leaky⟩,
    ?_, raceFree_swap i p pidx hp hpidx, raceFree_lastLayer leaky⟩
  intro t ht c hc
  unfold swapAccess at hc
  by_cases h : t.y = i ∧ pidx t ≠ i
  · rw [if_pos h] at hc
    have e := hpidx t ht h.1
    simp only [List.mem_cons, List.mem_singleton, List.not_mem_nil, or_false] at hc
    rcases hc with hc | hc
    · exact Or.inl hc
    · right
      rw [e] at hc
      refine ⟨h.1, ?_, hc⟩
      rw [← e]
      exact h.2
  · rw [if_neg h] at hc
    simp at hc

theorem refSystem_scan (tid : Dim3) (h : tid ∈ threads bd542) :
    pivotScan bd542 tid refSystem 0 0 = 1 := by
  rw [mem_threads] at h
  obtain ⟨x, y, z⟩ := tid
  simp only [bd542] at h
  obtain ⟨_, _, hz⟩ := h
  interval_cases z <;>
    simp [pivotScan, IJ, ld, refSystem, bd542, List.range'] <;>
    norm_num

/-- Footprints of pass 0 on `refSystem`: the scan records the pivot row 1
and the swap makes thread `(0,0,0)` write cell 5, the cell of thread `(0,1,0)`, besides
its own cell 0.  In the row operations of pass 0 thread `(1,1,0)` reads `ab[rpidx]`, cell
5, which thread `(0,1,0)` sets to zero in the same phase; in the normalisation thread
`(1,0,0)` reads `ab[pidx]`, cell 0, which thread `(0,0,0)` sets to one; and the copy-out
of every thread reads cell 4, which thread `(4,0,0)` writes in the E/H extraction that
follows without a barrier. -/
theorem swap_writes_pivot_row :
    (pivotScan bd542 ⟨0, 0, 0⟩ refSystem 0 0 = 1 ∧
      (swapRows bd542 0 (fun tid => pivotScan bd542 tid refSystem 0 0) refSystem
          ⟨0, 0, 0⟩).map Prod.fst = [0, 5] ∧
      IDX bd542 ⟨0, 0, 0⟩ = 0 ∧ IDX bd542 ⟨0, 1, 0⟩ = 5 ∧
      ¬ ownWrites bd542 (swapAccess bd542 0 (fun tid => pivotScan bd542 tid refSystem 0 0))) ∧
      (conflict (rowOperationsAccess bd542 0) ⟨1, 1, 0⟩ ⟨0, 1, 0⟩ ∧
        ¬ raceFree bd542 (rowOperationsAccess bd542 0)) ∧
      (conflict (normalizeRowAccess bd542 0) ⟨1, 0, 0⟩ ⟨0, 0, 0⟩ ∧
        ¬ raceFree bd542 (normalizeRowAccess bd542 0)) ∧
      (4 ∈ (copyOutAccess bd542).reads ∧ 4 ∈ (getEHAccess bd542 ⟨4, 0, 0⟩).writes) := by
  have m000 : (⟨0, 0, 0⟩ : Dim3) ∈ threads bd542 :=
    (mem_threads _ _).mpr ⟨by decide, by decide, by decide⟩
  have m010 : (⟨0, 1, 0⟩ : Dim3) ∈ threads bd542 :=
    (mem_threads _ _).mpr ⟨by decide, by decide, by decide⟩
  have m110 : (⟨1, 1, 0⟩ : Dim3) ∈ threads bd542 :=
    (mem_threads _ _).mpr ⟨by decide, by decide, by decide⟩
  have m100 : (⟨1, 0, 0⟩ : Dim3) ∈ threads bd542 :=
    (mem_threads _ _).mpr ⟨by decide, by decide, by decide⟩
  have hscan := refSystem_scan ⟨0, 0, 0⟩ m000
  have hsw : (swapAccess bd542 0 (fun tid => pivotScan bd542 tid refSystem 0 0)
      ⟨0, 0, 0⟩).writes = [0, 5] := by
    simp only [swapAccess, hscan]
    decide
  have c1 : conflict (rowOperationsAccess bd542 0) ⟨1, 1, 0⟩ ⟨0, 1, 0⟩ :=
    ⟨5, by decide, Or.inl (by decide)⟩
  have c2 : conflict (normalizeRowAccess bd542 0) ⟨1, 0, 0⟩ ⟨0, 0, 0⟩ :=
    ⟨0, by decide, Or.inl (by decide)⟩
  refine ⟨⟨hscan, ?_, by decide, by decide, ?_⟩, ⟨c1, ?_⟩, ⟨c2, ?_⟩, by decide, by decide⟩
  · rw [swapRows_writes, hsw]
  · intro h
    have h5 := h ⟨0, 0, 0⟩ m000 5 (by rw [hsw]; decide)
    exact absurd h5 (by decide)
  · intro h
    exact h ⟨1, 1, 0⟩ m110 ⟨0, 1, 0⟩ m010 (by decide) c1
  · intro h
    exact h ⟨1, 0, 0⟩ m100 ⟨0, 0, 0⟩ m000 (by decide) c2

/-! ## The counter of the intermediate-layer loop and the array indices -/

section LoopCount

variable {α : Type} [LinearOrderedField α]

theorem layerLoopFrom_succ (R : Runtime α) (B : Bessel α) (bd : Dim3) (U : Uninit α)
    (neff : α) (r n w u : Nat → α) (N nu fuel : Nat) (st : LayerState α) :
    layerLoopFrom R B bd U neff r n w u N nu (fuel + 1) st =
      if st.i < usub N 1 then
        layerLoopFrom R B bd U neff r n w u N nu fuel (layerBody B bd U neff r n w u nu st)
      else st := rfl

theorem layerBody_iterate_counter (B : Bessel α) (bd : Dim3) (U : Uninit α) (neff : α)
    (r n w u : Nat → α) (nu : Nat) (st : LayerState α) (k : Nat) :
    ((layerBody B bd U neff r n w u nu)^[k] st).i = st.i + k := by
  induction k generalizing st with
  | zero => rfl
  | succ k ih =>
    rw [Function.iterate_succ_apply, ih]
    simp only [layerBody]
    omega

/-- With fuel for the iterations that remain, the loop is the body iterated that many
times. -/
theorem layerLoopFrom_iterate (R : Runtime α) (B : Bessel α) (bd : Dim3) (U : Uninit α)
    (neff : α) (r n w u : Nat → α) (N nu : Nat) :
    ∀ (fuel : Nat) (st : LayerState α), st.i + fuel = usub N 1 →
      layerLoopFrom R B bd U neff r n w u N nu fuel st
        = (layerBody B bd U neff r n w u nu)^[fuel] st := by
  intro fuel
  induction fuel with
  | zero =>
    intro st _
    rfl
  | succ fuel ih =>
    intro st h
    have hlt : st.i < usub N 1 := by omega
    rw [layerLoopFrom_succ, if_pos hlt, Function.iterate_succ_apply]
    apply ih
    simp only [layerBody]
    omega

end LoopCount

section IndexBounds

theorem inBounds_initLayers (N i : Nat) (hN : 2 ≤ N) (h32 : N < 2 ^ 32) (hi : i < N) :
    inBounds (initLayersUse N i) N := by
  have hr : (if i + 1 = N then usub i 1 else i) < N := by
    split_ifs with h
    · rw [usub_one i (by omega) (by omega)]
      omega
    · exact hi
  simp only [inBounds, initLayersUse, List.mem_singleton, List.not_mem_nil]
  refine ⟨?_, ?_, ?_, ?_, ?_⟩ <;> intro k hk <;> first | omega | exact absurd hk id

theorem inBounds_firstLayer (N : Nat) (hN : 2 ≤ N) : inBounds firstLayerUse N := by
  simp only [inBounds, firstLayerUse, List.mem_singleton, List.not_mem_nil]
  refine ⟨?_, ?_, ?_, ?_, ?_⟩ <;> intro k hk <;> first | omega | exact absurd hk id

theorem inBounds_fillMatrix (N i : Nat) (hN : 2 ≤ N) (h32 : N < 2 ^ 32) (h1 : 1 ≤ i)
    (hi : i < usub N 1) : inBounds (fillMatrixUse i) N := by
  have hu : usub N 1 = N - 1 := usub_one N (by omega) h32
  have hi1 : usub i 1 = i - 1 := usub_one i h1 (by omega)
  simp only [inBounds, fillMatrixUse, List.mem_cons, List.mem_singleton, List.not_mem_nil,
    or_false, hi1]
  refine ⟨?_, ?_, ?_, ?_, ?_⟩ <;> intro k hk <;> first | omega | exact absurd hk id

theorem inBounds_solve (N : Nat) : inBounds solveUse N := by
  simp only [inBounds, solveUse, List.not_mem_nil, List.mem_range]
  refine ⟨?_, ?_, ?_, ?_, ?_⟩ <;> intro k hk <;> first | exact hk | exact absurd hk id

theorem inBounds_getEH (N i : Nat) (tid : Dim3) (htid : tid ∈ threads bd542)
    (hN : 2 ≤ N) (h32 : N < 2 ^ 32) (hi : i < usub N 1) :
    inBounds (getEHUse bd542 tid i) N := by
  have hu : usub N 1 = N - 1 := usub_one N (by omega) h32
  rw [mem_threads] at htid
  simp only [bd542] at htid
  simp only [inBounds, getEHUse, IZ, bd542, List.mem_cons, List.mem_singleton,
    List.not_mem_nil, or_false]
  refine ⟨?_, ?_, ?_, ?_, ?_⟩ <;> intro k hk <;> first | omega | exact absurd hk id

theorem inBounds_lastLayer (N : Nat) (hN : 2 ≤ N) (h32 : N < 2 ^ 32) :
    inBounds (lastLayerUse N (N - 1)) N := by
  have hu : usub N 1 = N - 1 := usub_one N (by omega) h32
  simp only [inBounds, lastLayerUse, List.mem_cons, List.mem_singleton, List.not_mem_nil,
    or_false, hu]
  refine ⟨?_, ?_, ?_, ?_, ?_⟩ <;> intro k hk <;> first | omega | exact absurd hk id

end IndexBounds

/-! ## What `_chareq` reads of its arrays -/

section ArrayReads

variable {α : Type} [LinearOrderedField α]

theorem phase_congr {β : Type} (bd : Dim3) (f g : Dim3 → List (Nat × β)) (ab : List β)
    (h : ∀ t, t ∈ threads bd → f t = g t) : phase bd f ab = phase bd g ab := by
  unfold phase
  rw [List.flatMap_congr h]

theorem firstLayer_congr (B : Bessel α) (neff : α) (n n' w w' u u' : Nat → α) (nu : Nat)
    (tid : Dim3) (hn : n' 0 = n 0) (hw : w' 0 = w 0) (hu : u' 0 = u 0) :
    firstLayer B neff n' w' u' nu tid = firstLayer B neff n w u nu tid := by
  simp only [firstLayer, hn, hw, hu]

theorem fillMatrix_congr (B : Bessel α) (neff : α) (r r' n n' w w' u u' : Nat → α)
    (nu i : Nat) (tid : Dim3) (hr1 : r' (i - 1) = r (i - 1)) (hr : r' i = r i)
    (hn : n' i = n i) (hw : w' i = w i) (hu : u' i = u i) :
    fillMatrix B neff r' n' w' u' nu i tid = fillMatrix B neff r n w u nu i tid := by
  unfold fillMatrix
  rw [hr1, hr, hn, hw, hu]

theorem getEH_congr (B : Bessel α) (bd : Dim3) (neff : α) (n n' w w' u u' : Nat → α)
    (nu i : Nat) (x x' : Nat → α) (tid : Dim3) (hn : n' i = n i) (hw : w' i = w i)
    (hu : u' i = u i) (hx : ∀ k, k < 4 → x' (IZ bd tid k) = x (IZ bd tid k)) :
    getEH B bd neff n' w' u' nu i x' tid = getEH B bd neff n w u nu i x tid := by
  simp only [getEH, hn, hw, hu, hx 0 (by norm_num), hx 1 (by norm_num), hx 2 (by norm_num),
    hx 3 (by norm_num)]

theorem lastLayer_congr (B : Bessel α) (bd : Dim3) (neff : α) (n n' w w' u u' : Nat → α)
    (N nu i : Nat) (ab : List α) (tid : Dim3) (hni : n' i = n i)
    (hn : n' (usub N 1) = n (usub N 1)) (hw : w' (usub N 1) = w (usub N 1))
    (hu : u' (usub N 1) = u (usub N 1)) :
    lastLayer B bd neff n' w' u' N nu i ab tid = lastLayer B bd neff n w u N nu i ab tid := by
  simp only [lastLayer, hni, hn, hw, hu]

/-- The entries of `x` that `solve` hands back below index 8 do not depend on what `x`
held before the call. -/
theorem solve_x_below (bd : Dim3) (pidx0 : Dim3 → Nat) (x0 x0' : Nat → α) (ab : List α)
    (k : Nat) (hk : k < 8) : (solve bd pidx0 x0' ab).x k = (solve bd pidx0 x0 ab).x k := by
  simp only [solve_x, copyOut, hk, if_true]

theorem IZ_lt (tid : Dim3) (htid : tid ∈ threads bd542) (k : Nat) (hk : k < 4) :
    IZ bd542 tid k < 8 := by
  rw [mem_threads] at htid
  simp only [bd542] at htid
  simp only [IZ, bd542]
  omega

/-- One turn of the loop reads `r[i-1]`, `r[i]`, `n[i]`, `w[i]`, `u[i]` and no entry of `x`
that the call of `solve` has not written. -/
theorem layerBody_congr (B : Bessel α) (U U' : Uninit α) (neff : α)
    (r r' n n' w w' u u' : Nat → α) (nu : Nat) (st st' : LayerState α)
    (hp : U'.pidx = U.pidx) (hi : st'.i = st.i) (hab : st'.ab = st.ab)
    (hr1 : r' (st.i - 1) = r (st.i - 1)) (hr : r' st.i = r st.i) (hn : n' st.i = n st.i)
    (hw : w' st.i = w st.i) (hu : u' st.i = u st.i) :
    (layerBody B bd542 U' neff r' n' w' u' nu st').i
        = (layerBody B bd542 U neff r n w u nu st).i ∧
      (layerBody B bd542 U' neff r' n' w' u' nu st').ab
        = (layerBody B bd542 U neff r n w u nu st).ab := by
  have hfill : (fun tid => own bd542 tid (fillMatrix B neff r' n' w' u' nu st'.i tid))
      = (fun tid => own bd542 tid (fillMatrix B neff r n w u nu st.i tid)) := by
    funext tid
    rw [hi, fillMatrix_congr B neff r r' n n' w w' u u' nu st.i tid hr1 hr hn hw hu]
  unfold layerBody
  dsimp only
  rw [hfill, hab, hp, hi]
  refine ⟨rfl, ?_⟩
  have hs : (solve bd542 (U.pidx st.i) st'.x
      (phase bd542 (fun tid => own bd542 tid (fillMatrix B neff r n w u nu st.i tid)) st.ab)).ab
      = (solve bd542 (U.pidx st.i) st.x
      (phase bd542 (fun tid => own bd542 tid (fillMatrix B neff r n w u nu st.i tid))
        st.ab)).ab := rfl
  rw [hs]
  apply phase_congr
  intro tid htid
  rw [getEH_congr B bd542 neff n n' w w' u u' nu st.i _ _ tid hn hw hu]
  intro k hk
  exact solve_x_below bd542 _ st.x st'.x _ _ (IZ_lt tid htid k hk)

theorem layerBody_iterate_congr (B : Bessel α) (U U' : Uninit α) (neff : α)
    (r r' n n' w w' u u' : Nat → α) (N nu : Nat) (hp : U'.pidx = U.pidx)
    (hr : ∀ j, j < N → r' j = r j) (hn : ∀ j, j < N → n' j = n j)
    (hw : ∀ j, j < N → w' j = w j) (hu : ∀ j, j < N → u' j = u j) :
    ∀ (k : Nat) (st st' : LayerState α), st'.i = st.i → st'.ab = st.ab → st.i + k < N →
      ((layerBody B bd542 U' neff r' n' w' u' nu)^[k] st').i
          = ((layerBody B bd542 U neff r n w u nu)^[k] st).i ∧
        ((layerBody B bd542 U' neff r' n' w' u' nu)^[k] st').ab
          = ((layerBody B bd542 U neff r n w u nu)^[k] st).ab := by
  intro k
  induction k with
  | zero =>
    intro st st' hi hab _
    exact ⟨hi, hab⟩
  | succ k ih =>
    intro st st' hi hab hlt
    rw [Function.iterate_succ_apply, Function.iterate_succ_apply]
    obtain ⟨h1, h2⟩ := layerBody_congr B U U' neff r r' n n' w w' u u' nu st st' hp hi hab
      (hr _ (by omega)) (hr _ (by omega)) (hn _ (by omega)) (hw _ (by omega))
      (hu _ (by omega))
    apply ih _ _ h1 h2
    simp only [layerBody]
    omega

end ArrayReads

section ChareqReads

variable {α : Type} [LinearOrderedField α]

/-- The initialisation loop reads `r` and `n` below `N` only, and what it leaves in
`w[0..N-1]` and `u[0..N-1]` does not depend on what the arrays held before. -/
theorem initLayers_congr (R : Runtime α) (neff k0 : α) (r r' n n' : Nat → α) (N : Nat)
    (hN : 2 ≤ N) (h32 : N < 2 ^ 32) (hr : ∀ j, j < N → r' j = r j)
    (hn : ∀ j, j < N → n' j = n j) (w0 u0 w0' u0' : Nat → α) :
    (initLayers R neff k0 r n N 0 w0 u0 = none ∧
        initLayers R neff k0 r' n' N 0 w0' u0' = none) ∨
      ∃ w u w' u', initLayers R neff k0 r n N 0 w0 u0 = some (w, u) ∧
        initLayers R neff k0 r' n' N 0 w0' u0' = some (w', u') ∧
        (∀ j, j < N → w' j = w j) ∧ (∀ j, j < N → u' j = u j) := by
  by_cases hnz : ∀ j, j < N → R.sqrtf |n j * n j - neff * neff| ≠ 0
  · right
    have hnz' : ∀ j, j < N → R.sqrtf |n' j * n' j - neff * neff| ≠ 0 := by
      intro j hj
      rw [hn j hj]
      exact hnz j hj
    obtain ⟨w, u, h1, _, h3⟩ := initLayers_some R neff k0 r n N hnz N 0 w0 u0 (by omega)
    obtain ⟨w', u', h1', _, h3'⟩ :=
      initLayers_some R neff k0 r' n' N hnz' N 0 w0' u0' (by omega)
    refine ⟨w, u, w', u', h1, h1', ?_, ?_⟩
    · intro j hj
      rw [(h3 j (Nat.zero_le j) hj).1, (h3' j (Nat.zero_le j) hj).1, hn j hj]
    · intro j hj
      have hidx : (if j + 1 = N then usub j 1 else j) < N := by
        split_ifs with h
        · rw [usub_one j (by omega) (by omega)]
          omega
        · exact hj
      rw [(h3 j (Nat.zero_le j) hj).2, (h3' j (Nat.zero_le j) hj).2, hn j hj, hr _ hidx]
  · left
    push_neg at hnz
    obtain ⟨j, hj, hz⟩ := hnz
    have hz' : R.sqrtf |n' j * n' j - neff * neff| = 0 := by
      rw [hn j hj]
      exact hz
    exact ⟨initLayers_none R neff k0 r n N j hj hz j 0 w0 u0 (by omega),
      initLayers_none R neff k0 r' n' N j hj hz' j 0 w0' u0' (by omega)⟩

theorem layerLoop_iterate (R : Runtime α) (B : Bessel α) (bd : Dim3) (U : Uninit α)
    (neff : α) (r n w u : Nat → α) (N nu : Nat) (hN : 2 ≤ N) (h32 : N < 2 ^ 32)
    (ab : List α) (x : Nat → α) :
    layerLoop R B bd U neff r n w u N nu ⟨1, ab, x⟩
      = (layerBody B bd U neff r n w u nu)^[N - 2] ⟨1, ab, x⟩ := by
  have hu : usub N 1 = N - 1 := usub_one N (by omega) h32
  unfold layerLoop
  rw [layerLoopFrom_iterate R B bd U neff r n w u N nu _ _ (by simp only; omega), hu]
  rfl

/-- What `_chareq` returns and leaves in the shared array depends on `r` and `n` through
their entries below `N` only, and not on what `w`, `u` and `x` hold before they are
written. -/
theorem chareq_reads_below (R : Runtime α) (B : Bessel α) (U U' : Uninit α) (ab : List α)
    (neff k0 : α) (r r' n n' : Nat → α) (N nu : Nat) (hN : 2 ≤ N) (h32 : N < 2 ^ 32)
    (hp : U'.pidx = U.pidx) (hr : ∀ j, j < N → r' j = r j) (hn : ∀ j, j < N → n' j = n j) :
    _chareq R B bd542 U' ab neff k0 r' n' N nu = _chareq R B bd542 U ab neff k0 r n N nu := by
  have hu1 : usub N 1 = N - 1 := usub_one N (by omega) h32
  rcases initLayers_congr R neff k0 r r' n n' N hN h32 hr hn U.w U.u U'.w U'.u with
    ⟨h1, h2⟩ | ⟨w, u, w', u', h1, h2, hw, hu⟩
  · unfold _chareq
    rw [h1, h2]
  · unfold _chareq
    rw [h1, h2]
    dsimp only
    have hfirst : (fun tid => own bd542 tid (firstLayer B neff n' w' u' nu tid))
        = (fun tid => own bd542 tid (firstLayer B neff n w u nu tid)) := by
      funext tid
      rw [firstLayer_congr B neff n n' w w' u u' nu tid (hn 0 (by omega)) (hw 0 (by omega))
        (hu 0 (by omega))]
    rw [hfirst, layerLoop_iterate R B bd542 U' neff r' n' w' u' N nu hN h32,
      layerLoop_iterate R B bd542 U neff r n w u N nu hN h32]
    obtain ⟨hLi, hLab⟩ := layerBody_iterate_congr B U U' neff r r' n n' w w' u u' N nu hp hr
      hn hw hu (N - 2)
      ⟨1, phase bd542 (fun tid => own bd542 tid (firstLayer B neff n w u nu tid)) ab, U.x⟩
      ⟨1, phase bd542 (fun tid => own bd542 tid (firstLayer B neff n w u nu tid)) ab, U'.x⟩
      rfl rfl (by simp only; omega)
    have hcount := layerBody_iterate_counter B bd542 U neff r n w u nu
      ⟨1, phase bd542 (fun tid => own bd542 tid (firstLayer B neff n w u nu tid)) ab, U.x⟩
      (N - 2)
    simp only at hcount
    rw [hLi, hLab]
    have hlast : ∀ (i : Nat) (ab2 : List α), i < N →
        (fun tid => own bd542 tid (lastLayer B bd542 neff n' w' u' N nu i ab2 tid))
          = (fun tid => own bd542 tid (lastLayer B bd542 neff n w u N nu i ab2 tid)) := by
      intro i ab2 hi
      funext tid
      rw [lastLayer_congr B bd542 neff n n' w w' u u' N nu i ab2 tid (hn i hi)
        (hn _ (by omega)) (hw _ (by omega)) (hu _ (by omega))]
    rw [hlast _ _ (by rw [hcount]; omega)]

end ChareqReads

section ChareqIndices

variable {α : Type} [LinearOrderedField α]

/-- Claim C21, on a 5x4x2 block, for every layer count `2 <= N < 2^32`.  Every index the
initialisation loop (counter `i < N`), the first layer, the matrix fill and the E/H
extraction (counter `1 <= i < N-1`) and the final-layer step use on `r`, `n`, `w`, `u` is
below `N`, and every index `solve` and the E/H extraction use on `x` is below 8.  The
loop over the intermediate layers is its body run exactly `N - 2` times: the loop test
holds before each of these turns and fails after the last, which leaves the counter at
`N - 1`, so that the regime test of the final-layer step reads `n[N-1]`.  Accordingly
what `_chareq` returns does not depend on the entries of `r` and `n` from index `N` on, nor
on what `w`, `u` and `x` hold before they are written. -/
theorem chareq_index_bounds (R : Runtime α) (B : Bessel α) (U : Uninit α) (ab : List α)
    (neff k0 : α) (r n w u x : Nat → α) (N nu : Nat) (tid : Dim3)
    (hN : 2 ≤ N) (h32 : N < 2 ^ 32) (htid : tid ∈ threads bd542) :
    ((∀ i, i < N → inBounds (initLayersUse N i) N) ∧
      inBounds firstLayerUse N ∧
      (∀ i, 1 ≤ i → i < usub N 1 →
        inBounds (fillMatrixUse i) N ∧ inBounds solveUse N ∧
          inBounds (getEHUse bd542 tid i) N) ∧
      inBounds (lastLayerUse N (layerLoop R B bd542 U neff r n w u N nu ⟨1, ab, x⟩).i) N) ∧
    (layerLoop R B bd542 U neff r n w u N nu ⟨1, ab, x⟩
        = (layerBody B bd542 U neff r n w u nu)^[N - 2] ⟨1, ab, x⟩ ∧
      (∀ k, k < N - 2 →
        1 ≤ ((layerBody B bd542 U neff r n w u nu)^[k] ⟨1, ab, x⟩).i ∧
          ((layerBody B bd542 U neff r n w u nu)^[k] ⟨1, ab, x⟩).i < usub N 1) ∧
      ¬ ((layerLoop R B bd542 U neff r n w u N nu ⟨1, ab, x⟩).i < usub N 1) ∧
      (layerLoop R B bd542 U neff r n w u N nu ⟨1, ab, x⟩).i = N - 1) ∧
    ((∀ ab2 t, lastLayer B bd542 neff n w u N nu
          (layerLoop R B bd542 U neff r n w u N nu ⟨1, ab, x⟩).i ab2 t
        = lastLayer B bd542 neff n w u N nu (N - 1) ab2 t) ∧
      (neff < n (N - 1) → ∀ ab2 t, lastLayer B bd542 neff n w u N nu
          (layerLoop R B bd542 U neff r n w u N nu ⟨1, ab, x⟩).i ab2 t = none)) ∧
    (∀ (U' : Uninit α) (r' n' : Nat → α), U'.pidx = U.pidx →
      (∀ j, j < N → r' j = r j) → (∀ j, j < N → n' j = n j) →
        _chareq R B bd542 U' ab neff k0 r' n' N nu
          = _chareq R B bd542 U ab neff k0 r n N nu) := by
  have hu : usub N 1 = N - 1 := usub_one N (by omega) h32
  have hcount : (layerLoop R B bd542 U neff r n w u N nu ⟨1, ab, x⟩).i = N - 1 :=
    layerLoop_counter R B bd542 U neff r n w u N nu hN h32 ab x
  refine ⟨⟨fun i hi => inBounds_initLayers N i hN h32 hi, inBounds_firstLayer N hN,
    fun i h1 hi => ⟨inBounds_fillMatrix N i hN h32 h1 hi, inBounds_solve N,
      inBounds_getEH N i tid htid hN h32 hi⟩, ?_⟩,
    ⟨layerLoop_iterate R B bd542 U neff r n w u N nu hN h32 ab x, ?_, ?_, hcount⟩,
    ⟨?_, ?_⟩, ?_⟩
  · rw [hcount]
    exact inBounds_lastLayer N hN h32
  · intro k hk
    rw [layerBody_iterate_counter]
    simp only
    omega
  · rw [hcount, hu]
    exact lt_irrefl _
  · intro ab2 t
    rw [hcount]
  · intro hleaky ab2 t
    rw [hcount]
    unfold lastLayer
    rw [if_pos hleaky]
  · intro U' r' n' hp hr hn
    exact chareq_reads_below R B U U' ab neff k0 r r' n n' N nu hN h32 hp hr hn

end ChareqIndices

/-- Claim C21, at `N = 3` with the layer indices `refIndex`, for thread `(0, 0, 0)`: the
loop runs once and leaves the counter at 2. -/
theorem chareq_index_bounds_witness :
    (2 ≤ 3 ∧ 3 < 2 ^ 32 ∧ (⟨0, 0, 0⟩ : Dim3) ∈ threads bd542) ∧
      (layerLoop refRuntime refBessel bd542 refUninit 5 refRadius refIndex refUninit.w
          refUninit.u 3 0 ⟨1, List.replicate 40 0, refUninit.x⟩
        = (layerBody refBessel bd542 refUninit 5 refRadius refIndex refUninit.w
            refUninit.u 0)^[3 - 2] ⟨1, List.replicate 40 0, refUninit.x⟩ ∧
      (∀ k, k < 3 - 2 →
        1 ≤ ((layerBody refBessel bd542 refUninit 5 refRadius refIndex refUninit.w
            refUninit.u 0)^[k] ⟨1, List.replicate 40 0, refUninit.x⟩).i ∧
          ((layerBody refBessel bd542 refUninit 5 refRadius refIndex refUninit.w
            refUninit.u 0)^[k] ⟨1, List.replicate 40 0, refUninit.x⟩).i < usub 3 1) ∧
      ¬ ((layerLoop refRuntime refBessel bd542 refUninit 5 refRadius refIndex refUninit.w
          refUninit.u 3 0 ⟨1, List.replicate 40 0, refUninit.x⟩).i < usub 3 1) ∧
      (layerLoop refRuntime refBessel bd542 refUninit 5 refRadius refIndex refUninit.w
          refUninit.u 3 0 ⟨1, List.replicate 40 0, refUninit.x⟩).i = 3 - 1) :=
  ⟨⟨by decide, by norm_num, (mem_threads _ _).mpr ⟨by decide, by decide, by decide⟩⟩,
    (chareq_index_bounds refRuntime refBessel refUninit (List.replicate 40 0) 5 1 refRadius
      refIndex refUninit.w refUninit.u refUninit.x 3 0 ⟨0, 0, 0⟩ (by decide) (by norm_num)
      ((mem_threads _ _).mpr ⟨by decide, by decide, by decide⟩)).2.1⟩

/-! ## The row operations run warp by warp -/

section Groups

variable {α : Type} [Zero α]

/-- After a group of threads of a 5x4x2 block has stored to its own cells, the cell of a
thread holds what that thread stored if it belongs to the group and stored something, and
its old value otherwise. -/
theorem ld_group_own (g : List Dim3) (hg : ∀ t, t ∈ g → t ∈ threads bd542)
    (f : Dim3 → Option α) (ab : List α) (hlen : 40 ≤ ab.length) (t0 : Dim3)
    (ht0 : t0 ∈ threads bd542) :
    ld (commit (g.flatMap (fun t => own bd542 t (f t))) ab) (IDX bd542 t0)
      = if t0 ∈ g then (f t0).getD (ld ab (IDX bd542 t0)) else ld ab (IDX bd542 t0) := by
  have hidx : IDX bd542 t0 < ab.length := by
    rw [mem_threads] at ht0
    simp only [bd542] at ht0
    simp only [IDX, bd542]
    omega
  have hnot : ∀ w, w ∈ g.flatMap (fun t => own bd542 t (f t)) → w.1 = IDX bd542 t0 →
      t0 ∈ g ∧ f t0 = some w.2 := by
    intro w hw hk
    rw [List.mem_flatMap] at hw
    obtain ⟨t, ht, hwt⟩ := hw
    cases hft : f t with
    | none => simp [own, hft] at hwt
    | some a =>
      simp only [own, hft, List.mem_singleton] at hwt
      subst hwt
      have htt : t = t0 := IDX_inj t t0 (hg t ht) ht0 hk
      subst htt
      exact ⟨ht, hft⟩
  by_cases hmem : t0 ∈ g
  · rw [if_pos hmem]
    cases hf : f t0 with
    | none =>
      rw [ld_commit_of_not_mem]
      · rfl
      · intro w hw hk
        have h2 := (hnot w hw hk).2
        rw [hf] at h2
        cases h2
    | some a =>
      rw [ld_commit_of_mem _ _ _ a hidx]
      · rfl
      · refine ⟨(IDX bd542 t0, a), ?_, rfl⟩
        rw [List.mem_flatMap]
        exact ⟨t0, hmem, by simp [own, hf]⟩
      · intro w hw hk
        have h2 := (hnot w hw hk).2
        rw [hf] at h2
        cases h2
        rfl
  · rw [if_neg hmem]
    rw [ld_commit_of_not_mem]
    intro w hw hk
    exact hmem (hnot w hw hk).1

end Groups

theorem phaseGroups_two {α : Type} (g0 g1 : List Dim3)
    (code : List α → Dim3 → List (Nat × α)) (ab : List α) :
    phaseGroups [g0, g1] code ab
      = commit (g1.flatMap (code (commit (g0.flatMap (code ab)) ab)))
          (commit (g0.flatMap (code ab)) ab) := rfl

theorem warpThreads_sub (k : Nat) : ∀ t, t ∈ warpThreads bd542 k → t ∈ threads bd542 := by
  intro t ht
  unfold warpThreads at ht
  exact (List.mem_filter.mp ht).1

theorem refRace_rowOperations (m : List ℚ) :
    rowOperations bd542 0 m ⟨2, 2, 1⟩ = some (ld m 32 - ld m 22 * ld m 30 / ld m 20) := by
  simp [rowOperations, IDX, IJ, bd542]

/-- Row operations of pass 0 on `refRace`, warp 0 first: thread `(0,2,1)` of warp 0 has
zeroed cell 30 when thread `(2,2,1)` of warp 1 reads it as `ab[rpidx]`. -/
theorem refRace_low_first :
    ld (phaseGroups [warpThreads bd542 0, warpThreads bd542 1]
      (fun m tid => own bd542 tid (rowOperations bd542 0 m tid)) refRace) 32 = 1 := by
  have hlen : 40 ≤ refRace.length := by decide
  have hlen1 : 40 ≤ (commit ((warpThreads bd542 0).flatMap
      (fun tid => own bd542 tid (rowOperations bd542 0 refRace tid))) refRace).length := by
    rw [length_commit]
    exact hlen
  have t30 : (⟨0, 2, 1⟩ : Dim3) ∈ threads bd542 := by decide
  have t22 : (⟨2, 0, 1⟩ : Dim3) ∈ threads bd542 := by decide
  have t20 : (⟨0, 0, 1⟩ : Dim3) ∈ threads bd542 := by decide
  have t32 : (⟨2, 2, 1⟩ : Dim3) ∈ threads bd542 := by decide
  have c30 := ld_group_own (warpThreads bd542 0) (warpThreads_sub 0)
    (fun tid => rowOperations bd542 0 refRace tid) refRace hlen ⟨0, 2, 1⟩ t30
  have c22 := ld_group_own (warpThreads bd542 0) (warpThreads_sub 0)
    (fun tid => rowOperations bd542 0 refRace tid) refRace hlen ⟨2, 0, 1⟩ t22
  have c20 := ld_group_own (warpThreads bd542 0) (warpThreads_sub 0)
    (fun tid => rowOperations bd542 0 refRace tid) refRace hlen ⟨0, 0, 1⟩ t20
  have c32 := ld_group_own (warpThreads bd542 0) (warpThreads_sub 0)
    (fun tid => rowOperations bd542 0 refRace tid) refRace hlen ⟨2, 2, 1⟩ t32
  have m30 : (⟨0, 2, 1⟩ : Dim3) ∈ warpThreads bd542 0 := by decide
  have m22 : (⟨2, 0, 1⟩ : Dim3) ∈ warpThreads bd542 0 := by decide
  have m20 : (⟨0, 0, 1⟩ : Dim3) ∈ warpThreads bd542 0 := by decide
  have m32 : (⟨2, 2, 1⟩ : Dim3) ∉ warpThreads bd542 0 := by decide
  have m32h : (⟨2, 2, 1⟩ : Dim3) ∈ warpThreads bd542 1 := by decide
  have r30 : rowOperations bd542 0 refRace ⟨0, 2, 1⟩ = some 0 := by
    simp [rowOperations]
  have r22 : rowOperations bd542 0 refRace ⟨2, 0, 1⟩ = none := by
    simp [rowOperations]
  have r20 : rowOperations bd542 0 refRace ⟨0, 0, 1⟩ = none := by
    simp [rowOperations]
  have i30 : IDX bd542 ⟨0, 2, 1⟩ = 30 := rfl
  have i22 : IDX bd542 ⟨2, 0, 1⟩ = 22 := rfl
  have i20 : IDX bd542 ⟨0, 0, 1⟩ = 20 := rfl
  have i32 : IDX bd542 ⟨2, 2, 1⟩ = 32 := rfl
  simp only [if_pos m30, r30, i30, Option.getD_some] at c30
  simp only [if_pos m22, r22, i22, Option.getD_none] at c22
  simp only [if_pos m20, r20, i20, Option.getD_none] at c20
  simp only [if_neg m32, i32, if_false] at c32
  have v22 : ld refRace 22 = 1 := by simp [ld, refRace]
  have v20 : ld refRace 20 = 2 := by simp [ld, refRace]
  have v32 : ld refRace 32 = 1 := by simp [ld, refRace]
  rw [phaseGroups_two]
  have hfin := ld_group_own (warpThreads bd542 1) (warpThreads_sub 1)
    (fun tid => rowOperations bd542 0 (commit ((warpThreads bd542 0).flatMap
      (fun tid => own bd542 tid (rowOperations bd542 0 refRace tid))) refRace) tid)
    _ hlen1 ⟨2, 2, 1⟩ t32
  simp only [i32, if_pos m32h, refRace_rowOperations, c30, c22, c20, c32,
    Option.getD_some] at hfin
  rw [hfin, v22, v20, v32]
  norm_num

/-- Row operations of pass 0 on `refRace`, warp 1 first: thread `(2,2,1)` reads cell 30
before thread `(0,2,1)` of warp 0 zeroes it. -/
theorem refRace_high_first :
    ld (phaseGroups [warpThreads bd542 1, warpThreads bd542 0]
      (fun m tid => own bd542 tid (rowOperations bd542 0 m tid)) refRace) 32 = 1 / 2 := by
  have hlen : 40 ≤ refRace.length := by decide
  have hlen1 : 40 ≤ (commit ((warpThreads bd542 1).flatMap
      (fun tid => own bd542 tid (rowOperations bd542 0 refRace tid))) refRace).length := by
    rw [length_commit]
    exact hlen
  have t32 : (⟨2, 2, 1⟩ : Dim3) ∈ threads bd542 := by decide
  have m32 : (⟨2, 2, 1⟩ : Dim3) ∉ warpThreads bd542 0 := by decide
  have m32h : (⟨2, 2, 1⟩ : Dim3) ∈ warpThreads bd542 1 := by decide
  have i32 : IDX bd542 ⟨2, 2, 1⟩ = 32 := rfl
  have c32 := ld_group_own (warpThreads bd542 1) (warpThreads_sub 1)
    (fun tid => rowOperations bd542 0 refRace tid) refRace hlen ⟨2, 2, 1⟩ t32
  simp only [if_pos m32h, i32, refRace_rowOperations, Option.getD_some] at c32
  have v22 : ld refRace 22 = 1 := by simp [ld, refRace]
  have v20 : ld refRace 20 = 2 := by simp [ld, refRace]
  have v30 : ld refRace 30 = 1 := by simp [ld, refRace]
  have v32 : ld refRace 32 = 1 := by simp [ld, refRace]
  rw [phaseGroups_two]
  have hfin := ld_group_own (warpThreads bd542 0) (warpThreads_sub 0)
    (fun tid => rowOperations bd542 0 (commit ((warpThreads bd542 1).flatMap
      (fun tid => own bd542 tid (rowOperations bd542 0 refRace tid))) refRace) tid)
    _ hlen1 ⟨2, 2, 1⟩ t32
  simp only [i32, if_neg m32, if_false] at hfin
  rw [hfin, c32, v22, v20, v30, v32]
  norm_num

/-- Row operations of pass 0 on `refRace` as a simultaneous update. -/
theorem refRace_simultaneous :
    ld (phase bd542 (fun tid => own bd542 tid (rowOperations bd542 0 refRace tid)) refRace) 32
      = 1 / 2 := by
  have hlen : 40 ≤ refRace.length := by decide
  have h := ld_phase_own (fun tid => rowOperations bd542 0 refRace tid) refRace hlen 2 2 1
    (by norm_num) (by norm_num) (by norm_num)
  have v22 : ld refRace 22 = 1 := by simp [ld, refRace]
  have v20 : ld refRace 20 = 2 := by simp [ld, refRace]
  have v30 : ld refRace 30 = 1 := by simp [ld, refRace]
  have v32 : ld refRace 32 = 1 := by simp [ld, refRace]
  simp only [refRace_rowOperations, Option.getD_some, v22, v20, v30, v32] at h
  rw [show (32 : Nat) = 20 * 1 + 5 * 2 + 2 from rfl, h]
  norm_num

/-- Claim C15, evaluated on the code: pass 0 of `solve` on the shared array `refRace`.  The
scan records row 0 in every thread, so the swap stores nothing and the row operations run
on `refRace`.  There thread `(0,2,1)`, thread 30 of the block and in warp 0, stores 0 to
its cell 30, and thread `(2,2,1)`, thread 32 and in warp 1, computes what it stores to
its cell 32 from the cells 32, 22, 30 and 20: cell 30 is its `ab[rpidx]`.  No barrier
separates the two, and the outcome depends on which runs first: `1/2` if all reads
precede all writes or warp 1 runs first, `1` if warp 0 runs first. -/
theorem rowOperations_schedule_dependent :
    (∀ t, t ∈ threads bd542 → pivotScan bd542 t refRace 0 0 = 0) ∧
      (∀ t, t ∈ threads bd542 →
        swapRows bd542 0 (fun t1 => pivotScan bd542 t1 refRace 0 0) refRace t = []) ∧
      own bd542 ⟨0, 2, 1⟩ (rowOperations bd542 0 refRace ⟨0, 2, 1⟩) = [(30, 0)] ∧
      (∀ m : List ℚ, rowOperations bd542 0 m ⟨2, 2, 1⟩
        = some (ld m 32 - ld m 22 * ld m 30 / ld m 20)) ∧
      (IDX bd542 ⟨0, 2, 1⟩ = 30 ∧ IDX bd542 ⟨2, 2, 1⟩ = 32 ∧
        IDX bd542 ⟨0, 2, 1⟩ / 32 = 0 ∧ IDX bd542 ⟨2, 2, 1⟩ / 32 = 1) ∧
      ld (phase bd542 (fun tid => own bd542 tid (rowOperations bd542 0 refRace tid)) refRace)
          32 = 1 / 2 ∧
      ld (phaseGroups [warpThreads bd542 1, warpThreads bd542 0]
          (fun m tid => own bd542 tid (rowOperations bd542 0 m tid)) refRace) 32 = 1 / 2 ∧
      ld (phaseGroups [warpThreads bd542 0, warpThreads bd542 1]
          (fun m tid => own bd542 tid (rowOperations bd542 0 m tid)) refRace) 32 = 1 := by
  refine ⟨by decide, by decide, ?_, refRace_rowOperations, ⟨rfl, rfl, rfl, rfl⟩,
    refRace_simultaneous, refRace_high_first, refRace_low_first⟩
  simp [own, rowOperations, IDX, bd542]


/-! ## The degenerate test when the squares overflow -/

/-- Claim C3, evaluated on the code over `F32`.  At the ordinary degenerate query
`n = [13, 3]`, `neff = 13` the loop of lines 101-112 returns at line 106 in its first
turn.  At `n = [2^65, 1]`, `neff = 2^65`, all finite binary32 values, `n[0]*n[0]` and
`neff*neff` are both `+inf`, their difference is NaN, `w[0] = sqrtf(fabsf(NaN))` is NaN
and `0. == w[0]` is false: the loop runs to its end, line 106 is not reached, and
`w[0]`, `u[0]` are NaN when the first layer is assembled from them. -/
theorem chareq_degenerate_overflow :
    refIndexF32 0 = F32.fin 13 ∧
      initLayersF32 (F32.fin 13) (F32.fin 1) (fun _ => F32.fin 1) refIndexF32 2 2 0
        (fun _ => F32.fin 0) (fun _ => F32.fin 0) = none ∧
      (refHuge = 2 ^ 65 ∧ refHuge < 2 ^ 128 - 2 ^ 104 ∧ refHugeIndex 0 = F32.fin refHuge) ∧
      F32.mul (F32.fin refHuge) (F32.fin refHuge) = F32.inf false ∧
      F32.sub (F32.inf false) (F32.inf false) = F32.nan ∧
      F32.isZero (F32.sqrtf (F32.fabsf F32.nan)) = false ∧
      (initLayersF32 (F32.fin refHuge) (F32.fin 1) (fun _ => F32.fin 1) refHugeIndex 2 2 0
          (fun _ => F32.fin 0) (fun _ => F32.fin 0)).map (fun p => (p.1 0, p.2 0))
        = some (F32.nan, F32.nan) := by
  have hover : F32.mul (F32.fin refHuge) (F32.fin refHuge) = F32.inf false := by
    simp only [F32.mul, F32.ofExact, refHuge]
    norm_num [abs_of_pos]
  have hone : F32.mul (F32.fin 1) (F32.fin 1) = F32.fin 1 := by
    simp only [F32.mul, F32.ofExact]
    norm_num
  have hsq13 : F32.mul (F32.fin 13) (F32.fin 13) = F32.fin 169 := by
    simp only [F32.mul, F32.ofExact]
    norm_num [abs_of_pos]
  have hsub13 : F32.sub (F32.fin 169) (F32.fin 169) = F32.fin 0 := by
    simp only [F32.sub, F32.ofExact]
    norm_num
  have hsqrt0 : F32.sqrtf (F32.fabsf (F32.fin 0)) = F32.fin 0 := by
    simp [F32.sqrtf, F32.fabsf, ratSqrt, natSqrtAux]
  have hgt0 : F32.gt (F32.fin refHuge) (F32.fin refHuge) = false := by
    simp only [F32.gt, gt_iff_lt, lt_self_iff_false, decide_False]
  have hgt1 : F32.gt (F32.fin refHuge) (F32.fin 1) = true := by
    simp only [F32.gt, refHuge]
    norm_num
  have hsubinf : F32.sub (F32.inf false) (F32.inf false) = F32.nan := rfl
  have hsub1 : F32.sub (F32.fin 1) (F32.inf false) = F32.inf true := rfl
  refine ⟨?_, ?_, ⟨rfl, ?_, ?_⟩, hover, hsubinf, rfl, ?_⟩
  · simp [refIndexF32, refIndex]
  · have h0 : refIndexF32 0 = F32.fin 13 := by simp [refIndexF32, refIndex]
    simp [initLayersF32, h0, hsq13, hsub13, hsqrt0, F32.isZero]
  · simp only [refHuge]
    norm_num
  · simp [refHugeIndex]
  · have h0 : refHugeIndex 0 = F32.fin refHuge := by simp [refHugeIndex]
    have h1 : refHugeIndex 1 = F32.fin 1 := by simp [refHugeIndex]
    have hmulnan : F32.mul (F32.fin 1) F32.nan = F32.nan := rfl
    have hmulinf : F32.mul (F32.fin 1) (F32.inf false) = F32.inf false := by
      simp [F32.mul]
    have hnan : F32.sqrtf (F32.fabsf F32.nan) = F32.nan := rfl
    have hinf : F32.sqrtf (F32.fabsf (F32.inf true)) = F32.inf false := rfl
    have hz0 : F32.isZero F32.nan = false := rfl
    have hz1 : F32.isZero (F32.inf false) = false := rfl
    simp only [initLayersF32, h0, h1, hover, hone, hsubinf, hsub1, hnan, hinf, hz0, hz1,
      hmulnan, hmulinf, hgt0, hgt1]
    simp [Function.update_apply]

end Fibermodes
